import Mathlib

/-!
# Timetabler: clause algebra and weighted OLL search

A shallow embedding of `src/src/clauses.cpp`, `src/src/time_tabler.cpp` and
`src/src/tsolver.cpp`.  The global `timeTabler` pointer of the sources becomes
an explicit `Formula` argument that every operation with a side effect takes
and returns.
-/

namespace Timetabler

/-! ## Literals, clauses, clause sets -/

/-- MiniSat literal: a variable index and a sign; `sign = true` is the negative literal. -/
structure Lit where
  var : Nat
  sign : Bool
deriving DecidableEq

/-- MiniSat `mkLit(var, sign)`. -/
def mkLit (v : Nat) (sign : Bool) : Lit := { var := v, sign := sign }

/-- MiniSat `operator~` on a literal: same variable, flipped sign. -/
def Lit.neg (l : Lit) : Lit := { var := l.var, sign := !l.sign }

/-- A `CClause` holds a vector of literals (`getLits`). -/
abbrev CClause := List Lit

/-- A `Clauses` object holds a vector of `CClause` (`getClauses`). -/
abbrev Clauses := List CClause

/-- Modelled from the spec: `CClause::operator|`, whose body is not among the sources.
The disjunction of two clauses is the clause with the literals of both, so
`CClause(x) | CClause(y)` is the clause `(x ∨ y)`. -/
def CClause.opOr (a b : CClause) : CClause := a ++ b

/-- Modelled from the spec: `CClause::operator~`, whose body is not among the sources.
The negation of a clause is the set of unit clauses `(¬ℓ)` for `ℓ` in the clause. -/
def CClause.opNot (c : CClause) : List CClause := c.map (fun l => [l.neg])

/-- Modelled from the spec: `CClause::addLits`, whose body is not among the sources;
it appends one literal to the clause. -/
def CClause.addLits (c : CClause) (l : Lit) : CClause := c ++ [l]

/-! ## The MaxSAT formula -/

/-- A soft clause of the MaxSAT formula (Open-WBO `Soft`).  The weight is a `uint64_t`,
kept as a natural number below `2 ^ 64`; `assumption_var = none` is `lit_Undef`. -/
structure Soft where
  clause : List Lit
  weight : Nat
  assumption_var : Option Lit
  relaxation_vars : List Lit
deriving DecidableEq

/-- The part of `MaxSATFormula` the sources read and write: the variable count,
the hard clauses and the soft clauses, each in insertion order. -/
structure Formula where
  nVars : Nat
  hard : List (List Lit)
  soft : List Soft
deriving DecidableEq

/-- Library call `MaxSATFormula::newVar`: one more variable. -/
def Formula.newVar (f : Formula) : Formula := { f with nVars := f.nVars + 1 }

/-- Library call `MaxSATFormula::addHardClause`. -/
def Formula.addHardClause (f : Formula) (c : List Lit) : Formula :=
  { f with hard := f.hard ++ [c] }

/-- Library call `MaxSATFormula::addSoftClause(weight, lits, vars)`: the new soft clause
is appended with the given relaxation variables and no assumption literal yet. -/
def Formula.addSoftClauseVars (f : Formula) (w : Nat) (c : List Lit) (vars : List Lit) :
    Formula :=
  { f with soft := f.soft ++
      [{ clause := c, weight := w, assumption_var := none, relaxation_vars := vars }] }

/-- Library call `MaxSATFormula::addSoftClause(weight, lits)`: no relaxation variables. -/
def Formula.addSoftClause (f : Formula) (w : Nat) (c : List Lit) : Formula :=
  f.addSoftClauseVars w c []

/-- Library call `MaxSATFormula::newLiteral()`: the positive literal of a new variable. -/
def Formula.newLiteral (f : Formula) : Lit × Formula := (mkLit f.nVars false, f.newVar)

/-! ## TimeTabler -/

/-- Source `TimeTabler::newVar` (time_tabler.cpp 104-108). -/
def newVar (f : Formula) : Nat × Formula := (f.nVars, f.newVar)

/-- Source `TimeTabler::newLiteral(sign)` (time_tabler.cpp 110-114); the source's default
argument is `sign = false`. -/
def newLiteral (f : Formula) (sign : Bool) : Lit × Formula :=
  (mkLit f.nVars sign, f.newVar)

/-- Modelled from the spec: `TimeTabler::addToFormula(clause, weight)`, whose body is
not among the sources.  Weight `-1` is the sentinel for a hard clause; any other
weight adds the clause as a soft clause of that weight. -/
def addToFormula (f : Formula) (clause : List Lit) (weight : Int) : Formula :=
  if weight = -1 then f.addHardClause clause else f.addSoftClause weight.toNat clause

/-- Modelled from the spec: `TimeTabler::addClauses(clauses, weight)`, whose body is
not among the sources: every clause of the set goes through `addToFormula`. -/
def addClauses (f : Formula) (cs : Clauses) (weight : Int) : Formula :=
  cs.foldl (fun g c => addToFormula g c weight) f

/-! ## Clauses operators -/

/-- Source `Clauses::operator&` (clauses.cpp 97-104): the clauses of `this` followed by those
of `other`.  The source touches neither operand nor the formula. -/
def Clauses.opAnd (P Q : Clauses) : Clauses := P ++ Q

/-- The inner `j` loop of `Clauses::operator|` (clauses.cpp 160-166 and 177-183): for
every literal of the clause, append it to `c1rep` and add the hard clause `(c1 ∨ ¬lit)`. -/
def litLoop (c1 : Lit) : List Lit → CClause → Formula → CClause × Formula
  | [], c1rep, f => (c1rep, f)
  | l :: ls, c1rep, f =>
    litLoop c1 ls (CClause.addLits c1rep l) (addToFormula f [c1, l.neg] (-1))

/-- One of the two `i` loops of `Clauses::operator|` (clauses.cpp 152-168 with selector
`x` over `clauses`, 169-185 with selector `y` over `other.clauses`).  The two loops are
the same text up to the selector and the operand; both push `~c1` onto `xrep`
(lines 154 and 171). -/
def selectorLoop (sel : Lit) : List CClause → Formula → List Lit → Formula × List Lit
  | [], f, xrep => (f, xrep)
  | c :: cs, f, xrep =>
    let r := newLiteral f false
    let c1 := r.1
    let xrep1 := xrep ++ [c1.neg]
    let f1 := addToFormula r.2 [c1, sel.neg] (-1)
    let q := litLoop c1 c [c1.neg] f1
    let f2 := addClauses q.2 [q.1] (-1)
    selectorLoop sel cs f2 xrep1

/-- Source `Clauses::operator|` (clauses.cpp 140-189): the early return hands back
`other`; otherwise two selectors, the two loops, then `xrep` and `yrep` as hard clauses. -/
def Clauses.opOr (P Q : Clauses) (f : Formula) : Clauses × Formula :=
  if Q.length = 0 then
    (Q, f)
  else
    let rx := newLiteral f false
    let x := rx.1
    let ry := newLiteral rx.2 false
    let y := ry.1
    let result : Clauses := [CClause.opOr [x] [y]]
    let xrep : List Lit := [x]
    let yrep : List Lit := [y]
    let s1 := selectorLoop x P ry.2 xrep
    let s2 := selectorLoop y Q s1.1 s1.2
    let f1 := addToFormula s2.1 s2.2 (-1)
    let f2 := addToFormula f1 yrep (-1)
    (result, f2)

/-- The `for` loop of `Clauses::operator~` (clauses.cpp 76-80). -/
def notLoop : List CClause → Clauses → Formula → Clauses × Formula
  | [], negationClause, f => (negationClause, f)
  | c :: cs, negationClause, f =>
    let r := Clauses.opOr negationClause (CClause.opNot c) f
    notLoop cs r.1 r.2

/-- Source `Clauses::operator~` (clauses.cpp 70-82); the default-constructed `CClause` of
line 72 is the clause without literals. -/
def Clauses.opNot (P : Clauses) (f : Formula) : Clauses × Formula :=
  match P with
  | [] => ([[]], f)
  | c :: cs => notLoop cs (CClause.opNot c) f

/-- Source `Clauses::operator>>` (clauses.cpp 215-218). -/
def Clauses.opImplies (P Q : Clauses) (f : Formula) : Clauses × Formula :=
  let negateThis := Clauses.opNot P f
  Clauses.opOr negateThis.1 Q negateThis.2

/-! ## Semantics -/

/-- Truth value of a literal under an assignment of the variables. -/
def Lit.eval (a : Nat → Bool) (l : Lit) : Bool := a l.var != l.sign

/-- A clause is true when one of its literals is. -/
def CClause.eval (a : Nat → Bool) (c : CClause) : Bool := c.any (Lit.eval a)

/-- A clause set is true when all of its clauses are; the empty set is true. -/
def Clauses.eval (a : Nat → Bool) (cs : Clauses) : Bool := cs.all (CClause.eval a)

/-- The hard clauses a call added: those of the formula after the call, past the ones
of the formula before it. -/
def addedHard (before after : Formula) : Clauses := after.hard.drop before.hard.length

/-- The assignment `b` extends `a` on the variables that exist in `f`. -/
def Extends (f : Formula) (a b : Nat → Bool) : Prop := ∀ v, v < f.nVars → b v = a v

/-! ## Closed forms of what the loops of `operator|` emit -/

/-- The hard clauses one `i` loop of `operator|` emits, the first fresh variable being `n`:
for every clause `c`, with `c1` its fresh literal, `(c1 ∨ ¬sel)`, then `(c1 ∨ ¬ℓ)` for
each `ℓ` of `c`, then `(¬c1 ∨ c)`. -/
def loopHard (sel : Lit) : Nat → List CClause → List (List Lit)
  | _, [] => []
  | n, c :: cs =>
    [mkLit n false, sel.neg] :: (c.map (fun l => [mkLit n false, l.neg]) ++
      (((mkLit n false).neg :: c) :: loopHard sel (n + 1) cs))

/-- The literals one `i` loop of `operator|` pushes onto `xrep`. -/
def loopReps : Nat → List CClause → List Lit
  | _, [] => []
  | n, _ :: cs => (mkLit n false).neg :: loopReps (n + 1) cs

/-- All hard clauses a call `P | Q` with non-empty `Q` emits, `n` being the variable
count at entry. -/
def orHard (n : Nat) (P Q : Clauses) : List (List Lit) :=
  loopHard (mkLit n false) (n + 2) P ++
    (loopHard (mkLit (n + 1) false) (n + 2 + P.length) Q ++
      [mkLit n false :: (loopReps (n + 2) P ++ loopReps (n + 2 + P.length) Q),
       [mkLit (n + 1) false]])

/-! ## TSolver: the soft-clause part of the UNSAT step of `tWeighted` -/

/-- Subtraction of `uint64_t` values, with wrap-around. -/
def u64sub (a b : Nat) : Nat := (a + 2 ^ 64 - b) % 2 ^ 64

/-- The working SAT solver as `tWeighted` uses it: variable count and added clauses. -/
structure SatSolver where
  nVars : Nat
  clauses : List (List Lit)
deriving DecidableEq

/-- Library call `newSATVariable(solver)`: one more variable in the SAT solver. -/
def newSATVariable (S : SatSolver) : SatSolver := { S with nVars := S.nVars + 1 }

/-- Library call `Solver::addClause`. -/
def SatSolver.addClause (S : SatSolver) (c : List Lit) : SatSolver :=
  { S with clauses := S.clauses ++ [c] }

/-- What the soft-clause branch of the conflict loop of `tWeighted` (tsolver.cpp 190-259)
reads and writes.  `coreMapping` is the `std::map<Lit, int>`: `none` where the key is
absent. -/
structure SoftState where
  formula : Formula
  solver : SatSolver
  activeSoft : List Bool
  coreMapping : Lit → Option Nat
  soft_relax : List Lit

/-- The loop `while (maxsat_formula->nVars() < solver->nVars()) maxsat_formula->newLiteral();`
(tsolver.cpp 210-211), with the number of remaining iterations as fuel. -/
def syncVars : Nat → Formula → Nat → Formula
  | 0, f, _ => f
  | k + 1, f, n => if f.nVars < n then syncVars k f.newLiteral.2 n else f

/-- Write access `getSoftClause(i).weight = w`. -/
def Formula.setWeight (f : Formula) (i : Nat) (w : Nat) : Formula :=
  { f with soft := f.soft.modify (fun S => { S with weight := w }) i }

/-- Write access `getSoftClause(i).assumption_var = l`. -/
def Formula.setAssumption (f : Formula) (i : Nat) (l : Lit) : Formula :=
  { f with soft := f.soft.modify (fun S => { S with assumption_var := some l }) i }

/-- The split branch of `tWeighted` (tsolver.cpp 194-247) for the soft clause at
`indexSoft`, current value `S`.  A failed `assert` gives `none`. -/
def splitClause (s : SoftState) (indexSoft : Nat) (S : Soft) (min_core : Nat) :
    Option SoftState :=
  -- assert(!activeSoft[coreMapping[p]])
  if s.activeSoft[indexSoft]? != some false then none else
  -- assert(weight - min_core > 0)
  if ¬ (u64sub S.weight min_core > 0) then none else
  let f1 := s.formula.setWeight indexSoft (u64sub S.weight min_core)
  let clause := S.clause
  let f2 := syncVars (s.solver.nVars - f1.nVars) f1 s.solver.nVars
  let r := f2.newLiteral
  let l := r.1
  let vars := [l]
  let f3 := r.2.addSoftClauseVars min_core clause vars
  let activeSoft := s.activeSoft ++ [true]
  let solver1 := newSATVariable s.solver
  let clause1 := clause ++ [l]
  let solver2 := solver1.addClause clause1
  -- assert(clause.size() - 1 == getSoftClause(indexSoft).clause.size())
  if f3.soft[indexSoft]?.map (fun T => T.clause.length) != some (clause1.length - 1) then none else
  -- assert(getSoftClause(nSoft() - 1).relaxation_vars.size() == 1)
  if f3.soft[f3.soft.length - 1]?.map (fun T => T.relaxation_vars.length) != some 1 then none else
  let f4 := f3.setAssumption (f3.soft.length - 1) l
  -- assert(assumption_var == relaxation_vars[0]) on the new soft clause
  if f4.soft[f4.soft.length - 1]?.map (fun T => T.assumption_var) !=
      f4.soft[f4.soft.length - 1]?.map (fun T => T.relaxation_vars.head?) then none else
  let coreMapping := fun k => if k = l then some (f4.soft.length - 1) else s.coreMapping k
  let soft_relax := s.soft_relax ++ [l]
  -- assert(getSoftClause(coreMapping[l]).weight == min_core)
  if f4.soft[f4.soft.length - 1]?.map (fun T => T.weight) != some min_core then none else
  -- assert(activeSoft.size() == nSoft())
  if activeSoft.length != f4.soft.length then none else
  some { formula := f4, solver := solver2, activeSoft := activeSoft,
         coreMapping := coreMapping, soft_relax := soft_relax }

/-- The branch without a split (tsolver.cpp 249-258). -/
def keepClause (s : SoftState) (p : Lit) (indexSoft : Nat) (S : Soft) (min_core : Nat) :
    Option SoftState :=
  -- assert(weight == min_core)
  if S.weight != min_core then none else
  -- assert(!activeSoft[coreMapping[p]])
  if s.activeSoft[indexSoft]? != some false then none else
  some { s with soft_relax := s.soft_relax ++ [p],
                activeSoft := s.activeSoft.set indexSoft true }

/-- The soft-clause block of the conflict loop of `tWeighted` for one conflict literal `p`
(tsolver.cpp 192-259): nothing happens when `p` is no key of `coreMapping`; otherwise
the soft clause is split when its weight exceeds `min_core`.  An index past the soft
clauses gives `none`. -/
def relaxSoft (s : SoftState) (p : Lit) (min_core : Nat) : Option SoftState :=
  match s.coreMapping p with
  | none => some s
  | some indexSoft =>
    match s.formula.soft[indexSoft]? with
    | none => none
    | some S =>
      if S.weight > min_core then splitClause s indexSoft S min_core
      else keepClause s p indexSoft S min_core

/-- Penalty of a soft clause under an assignment: its weight when the body is false. -/
def Soft.penalty (a : Nat → Bool) (S : Soft) : Nat :=
  if CClause.eval a S.clause then 0 else S.weight

/-- Sum of the weights of all soft clauses of the formula. -/
def Formula.totalWeight (f : Formula) : Nat := (f.soft.map (fun S => S.weight)).sum

/-- A formula with two variables, `a` (variable 0) and `b` (variable 1), and no clauses. -/
def formula2 : Formula := { nVars := 2, hard := [], soft := [] }

/-- A state in which soft clause 0, `(a)` of weight 5 with assumption literal 1, can be
split: two soft clauses, none active, the SAT solver two variables ahead of the formula. -/
def splitExample : SoftState :=
  { formula :=
      { nVars := 3, hard := [],
        soft := [{ clause := [mkLit 0 false], weight := 5,
                   assumption_var := some (mkLit 1 false),
                   relaxation_vars := [mkLit 1 false] },
                 { clause := [mkLit 0 true], weight := 2,
                   assumption_var := some (mkLit 2 false),
                   relaxation_vars := [mkLit 2 false] }] },
    solver := { nVars := 5, clauses := [] },
    activeSoft := [false, false],
    coreMapping := fun k =>
      if k = mkLit 1 false then some 0 else if k = mkLit 2 false then some 1 else none,
    soft_relax := [] }

/-! ## TSolver: state of the weighted search -/

/-- MiniSat `lbool`: the value of a variable in a model. -/
inductive lbool where
  | l_True
  | l_False
  | l_Undef
deriving DecidableEq

/-- The value `UINT64_MAX`. -/
def UINT64_MAX : Nat := 2 ^ 64 - 1

/-- Addition of `uint64_t` values, with wrap-around. -/
def u64add (a b : Nat) : Nat := (a + b) % 2 ^ 64

/-- Modelled from the spec: a totalizer `Encoder` (section 4.5), of which the search uses
the input literals `lits()`, the ordered output literals `outputs()` and
`hasCardEncoding()`. -/
structure Encoder where
  lits : List Lit
  outputs : List Lit
  hasCardEncoding : Bool
deriving DecidableEq

/-- The library calls of the search whose bodies are not among the sources, taken as
parameters: `buildCardinality(solver, lits, rhs)` on a new encoder,
`incUpdateCardinality(solver, lits, rhs)` on an existing one, and
`findNextWeightDiversity(weight, cardinality_assumptions)`, which also reads the soft
clauses and `boundMapping`. -/
structure Library where
  buildCardinality : SatSolver → List Lit → Nat → SatSolver × Encoder
  incUpdateCardinality : SatSolver → Encoder → Nat → SatSolver × Encoder
  findNextWeightDiversity :
    Nat → List Lit → Formula → (Lit → Option ((Nat × Nat) × Nat)) → Nat

/-- Key of a literal in the order of `std::set<Lit>` and `std::map<Lit, _>`:
MiniSat's `2 * var + sign`. -/
def Lit.toInt (l : Lit) : Nat := 2 * l.var + (if l.sign then 1 else 0)

/-- Insertion into a `std::set<Lit>`, kept as a list in increasing key order without
repetition. -/
def setInsert (l : Lit) : List Lit → List Lit
  | [] => [l]
  | x :: xs =>
    if l.toInt < x.toInt then l :: x :: xs
    else if l = x then x :: xs
    else x :: setInsert l xs

/-- Removal from a `std::set<Lit>`. -/
def setErase (l : Lit) (xs : List Lit) : List Lit := xs.filter (fun x => x != l)

/-- The state of `TSolver::tWeighted` between two calls of the SAT backend.
`coreMapping` and `boundMapping` are the two `std::map`s (`none`: key absent);
`boundMapping` sends an output literal to `((encoder index, bound), weight)`;
`assumptions` holds `~assumption_var` of soft clauses (`none`: of `lit_Undef`) and
negated output literals; `model` is the saved model. -/
structure WState where
  formula : Formula
  solver : SatSolver
  activeSoft : List Bool
  coreMapping : Lit → Option Nat
  boundMapping : Lit → Option ((Nat × Nat) × Nat)
  cardinality_assumptions : List Lit
  soft_cardinality : List Encoder
  assumptions : List (Option Lit)
  min_weight : Nat
  lbCost : Nat
  ubCost : Nat
  nbSatisfiable : Nat
  nbCores : Nat
  sumSizeCores : Nat
  model : List lbool

/-- How one pass through the loop body of the search ends: the loop goes on, the
function returns, an `assert` fails, or the process exits with `_UNSATISFIABLE_`. -/
inductive Result where
  | next (s : WState)
  | ret (s : WState)
  | abort
  | exitUnsatisfiable

/-- What `searchSATSolver` answers: `l_True` with `solver->model`, or `l_False` with
`solver->conflict`. -/
inductive Answer where
  | sat (model : List lbool)
  | unsat (conflict : List Lit)

/-! ## TSolver: pieces of the loop body of `tWeighted` -/

/-- Library test used by `computeCostModel`: the literal is true in the model. -/
def litSatisfied (m : List lbool) (l : Lit) : Bool :=
  (l.sign && m.getD l.var lbool.l_Undef == lbool.l_False) ||
    (!l.sign && m.getD l.var lbool.l_Undef == lbool.l_True)

/-- Modelled from the spec: `computeCostModel`, the cost of a model over the soft clauses:
the `uint64_t` sum of the weights of the soft clauses none of whose body literals is true
in the model. -/
def computeCostModel (f : Formula) (m : List lbool) : Nat :=
  f.soft.foldl (fun c S => if S.clause.any (litSatisfied m) then c else u64add c S.weight) 0

/-- The loop over the soft clauses that fills `assumptions` after an UNSAT answer or a
later SAT answer (tsolver.cpp 111-120 and 468-475): `~assumption_var` of every soft
clause that is not active and has weight at least `min_weight`. -/
def softAssumptions (min_weight : Nat) : List Soft → List Bool → List (Option Lit)
  | [], _ => []
  | S :: rest, activeSoft =>
    if !(activeSoft.headD false) && decide (S.weight ≥ min_weight) then
      S.assumption_var.map Lit.neg :: softAssumptions min_weight rest activeSoft.tail
    else softAssumptions min_weight rest activeSoft.tail

/-- The loop over the soft clauses after the first SAT answer (tsolver.cpp 80-82), which
does not look at `activeSoft`. -/
def firstAssumptions (min_weight : Nat) : List Soft → List (Option Lit)
  | [] => []
  | S :: rest =>
    if S.weight ≥ min_weight then
      S.assumption_var.map Lit.neg :: firstAssumptions min_weight rest
    else firstAssumptions min_weight rest

/-- The loop over `cardinality_assumptions` that fills `assumptions` (tsolver.cpp 123-131
and 478-486): the negation of every member whose `boundMapping` weight is at least
`min_weight`; `none` when the `assert` on a member fails. -/
def cardAssumptions (boundMapping : Lit → Option ((Nat × Nat) × Nat)) (min_weight : Nat) :
    List Lit → Option (List (Option Lit))
  | [] => some []
  | o :: os =>
    match boundMapping o with
    | none => none
    | some soft_id =>
      match cardAssumptions boundMapping min_weight os with
      | none => none
      | some r => if soft_id.2 ≥ min_weight then some (some o.neg :: r) else some r

/-- The count of `cardinality_assumptions` members of weight below `min_weight`
(tsolver.cpp 93-100); `none` when the `assert` on a member fails. -/
def cardNotConsidered (boundMapping : Lit → Option ((Nat × Nat) × Nat)) (min_weight : Nat) :
    List Lit → Option Nat
  | [] => some 0
  | o :: os =>
    match boundMapping o with
    | none => none
    | some soft_id =>
      match cardNotConsidered boundMapping min_weight os with
      | none => none
      | some n => if soft_id.2 < min_weight then some (n + 1) else some n

/-- The count of soft clauses of weight below `min_weight` (tsolver.cpp 85-89). -/
def softNotConsidered (min_weight : Nat) (soft : List Soft) : Nat :=
  (soft.filter (fun S => S.weight < min_weight)).length

/-- The loop that computes `min_core` (tsolver.cpp 145-162), started with the current
value; `none` when the `assert` fails or an index is out of range. -/
def minCoreLoop (s : WState) : List Lit → Nat → Option Nat
  | [], min_core => some min_core
  | p :: ps, min_core =>
    let afterSoft : Option Nat :=
      match s.coreMapping p with
      | none => some min_core
      | some idx =>
        -- assert(!activeSoft[coreMapping[p]])
        if s.activeSoft[idx]? != some false then none else
        match s.formula.soft[idx]? with
        | none => none
        | some S => if S.weight < min_core then some S.weight else some min_core
    match afterSoft with
    | none => none
    | some m1 =>
      let m2 :=
        match s.boundMapping p with
        | none => m1
        | some soft_id => if soft_id.2 < m1 then soft_id.2 else m1
      minCoreLoop s ps m2

/-- Assignment `map[key] = value` on a `std::map<Lit, _>`. -/
def mapInsert {β : Type} (m : Lit → Option β) (key : Lit) (value : β) : Lit → Option β :=
  fun k => if k = key then some value else m k

/-- The fields of the search state that the soft-clause block works on, with the local
vector `soft_relax`. -/
def WState.toSoftState (s : WState) (soft_relax : List Lit) : SoftState :=
  { formula := s.formula, solver := s.solver, activeSoft := s.activeSoft,
    coreMapping := s.coreMapping, soft_relax := soft_relax }

/-- The search state after the soft-clause block. -/
def WState.withSoftState (s : WState) (t : SoftState) : WState :=
  { s with formula := t.formula, solver := t.solver, activeSoft := t.activeSoft,
           coreMapping := t.coreMapping }

/-- The step shared by both cardinality cases (tsolver.cpp 280-302 and 335-356): tighten
encoder `enc` to bound `k + 1` and, when it has an output at index `k + 1`, register that
output with weight `min_core` and assume it.  `none` when `enc` is no encoder index. -/
def raiseBound (lib : Library) (s : WState) (enc k min_core : Nat) : Option WState :=
  match s.soft_cardinality[enc]? with
  | none => none
  | some e =>
    let r := lib.incUpdateCardinality s.solver e (k + 1)
    let s1 := { s with solver := r.1, soft_cardinality := s.soft_cardinality.set enc r.2 }
    if k + 1 < r.2.outputs.length then
      match r.2.outputs[k + 1]? with
      | none => none
      | some out =>
        some { s1 with
          boundMapping := mapInsert s1.boundMapping out ((enc, k + 1), min_core),
          cardinality_assumptions := setInsert out s1.cardinality_assumptions }
    else some s1

/-- The cardinality block of the conflict loop of `tWeighted` for one conflict literal `p`
(tsolver.cpp 261-418, the `#if 1` text), with the local vector `cardinality_relax`.
`none` when an `assert` fails. -/
def relaxCard (lib : Library) (s : WState) (cardinality_relax : List Lit) (p : Lit)
    (min_core : Nat) : Option (WState × List Lit) :=
  match s.boundMapping p with
  | none => some (s, cardinality_relax)
  | some soft_id =>
    -- assert(it != cardinality_assumptions.end())
    if ¬ (p ∈ s.cardinality_assumptions) then none else
    -- assert(soft_id.first.first < soft_cardinality.size())
    match s.soft_cardinality[soft_id.1.1]? with
    | none => none
    | some enc =>
      -- assert(soft_cardinality[soft_id.first.first]->hasCardEncoding())
      if !enc.hasCardEncoding then none else
      if soft_id.2 = min_core then
        let s1 := { s with cardinality_assumptions := setErase p s.cardinality_assumptions }
        match raiseBound lib s1 soft_id.1.1 soft_id.1.2 min_core with
        | none => none
        | some s2 => some (s2, cardinality_relax ++ [p])
      else
        let r := lib.buildCardinality s.solver enc.lits soft_id.1.2
        -- assert(e->outputs().size() > soft_id.first.second)
        match r.2.outputs[soft_id.1.2]? with
        | none => none
        | some out =>
          let encs := s.soft_cardinality ++ [r.2]
          let bm1 := mapInsert s.boundMapping out ((encs.length - 1, soft_id.1.2), min_core)
          -- assert(soft_id.second - min_core > 0)
          if ¬ (u64sub soft_id.2 min_core > 0) then none else
          let bm2 := mapInsert bm1 p ((soft_id.1.1, soft_id.1.2), u64sub soft_id.2 min_core)
          let s1 := { s with solver := r.1, soft_cardinality := encs, boundMapping := bm2 }
          -- soft_core_id = boundMapping[out]
          match bm2 out with
          | none => none
          | some soft_core_id =>
            match raiseBound lib s1 soft_core_id.1.1 soft_core_id.1.2 min_core with
            | none => none
            | some s2 => some (s2, cardinality_relax ++ [out])

/-- The conflict loop of `tWeighted` (tsolver.cpp 190-419): for every conflict literal the
soft-clause block, then the cardinality block. -/
def coreLoop (lib : Library) (min_core : Nat) :
    List Lit → WState → List Lit → List Lit → Option (WState × List Lit × List Lit)
  | [], s, soft_relax, cardinality_relax => some (s, soft_relax, cardinality_relax)
  | p :: ps, s, soft_relax, cardinality_relax =>
    match relaxSoft (s.toSoftState soft_relax) p min_core with
    | none => none
    | some t =>
      match relaxCard lib (s.withSoftState t) cardinality_relax p min_core with
      | none => none
      | some r => coreLoop lib min_core ps r.1 t.soft_relax r.2

/-- The unit-core case of the harden step (tsolver.cpp 423-427): when `soft_relax` has
exactly one literal and `cardinality_relax` none, that literal becomes a unit clause of
the SAT solver. -/
def unitCore (s : WState) (soft_relax cardinality_relax : List Lit) : WState :=
  match soft_relax with
  | [u] => if cardinality_relax.length = 0 then
             { s with solver := s.solver.addClause [u] } else s
  | _ => s

/-- The harden step of `tWeighted` (tsolver.cpp 423-463). -/
def harden (lib : Library) (s : WState) (soft_relax cardinality_relax : List Lit)
    (min_core : Nat) : Option WState :=
  let s1 := unitCore s soft_relax cardinality_relax
  if soft_relax.length + cardinality_relax.length > 1 then
    let relax_harden := soft_relax ++ cardinality_relax
    let r := lib.buildCardinality s1.solver relax_harden 1
    let encs := s1.soft_cardinality ++ [r.2]
    -- assert(e->outputs().size() > 1)
    match r.2.outputs[1]? with
    | none => none
    | some out =>
      some { s1 with
        solver := r.1, soft_cardinality := encs,
        boundMapping := mapInsert s1.boundMapping out ((encs.length - 1, 1), min_core),
        cardinality_assumptions := setInsert out s1.cardinality_assumptions }
  else some s1

/-- The rebuilding of `assumptions` (tsolver.cpp 109-131 and 466-486). -/
def resetAssumptions (s : WState) : Option WState :=
  match cardAssumptions s.boundMapping s.min_weight s.cardinality_assumptions with
  | none => none
  | some ca =>
    some { s with assumptions :=
      softAssumptions s.min_weight s.formula.soft s.activeSoft ++ ca }

/-! ## TSolver: the loop body of `tWeighted` and its prologue -/

/-- The SAT branch of the loop body of `tWeighted` (tsolver.cpp 60-139), `m` being
`solver->model`.  `saveModel` keeps the model in the state. -/
def satStep (lib : Library) (s : WState) (m : List lbool) : Result :=
  let nb := s.nbSatisfiable + 1
  let newCost := computeCostModel s.formula m
  let save : Bool := decide (newCost < s.ubCost) || decide (nb = 1)
  let s1 := { s with nbSatisfiable := nb,
                     model := if save then m else s.model,
                     ubCost := if save then newCost else s.ubCost }
  if nb = 1 then
    let mw := lib.findNextWeightDiversity s1.min_weight s1.cardinality_assumptions
      s1.formula s1.boundMapping
    Result.next { s1 with min_weight := mw,
                          assumptions := s1.assumptions ++ firstAssumptions mw s1.formula.soft }
  else
    match cardNotConsidered s1.boundMapping s1.min_weight s1.cardinality_assumptions with
    | none => Result.abort
    | some c =>
      let not_considered := softNotConsidered s1.min_weight s1.formula.soft + c
      if not_considered ≠ 0 then
        let mw := lib.findNextWeightDiversity s1.min_weight s1.cardinality_assumptions
          s1.formula s1.boundMapping
        match resetAssumptions { s1 with min_weight := mw } with
        | none => Result.abort
        | some s2 => Result.next s2
      else
        -- assert(lbCost == newCost)
        if s1.lbCost = newCost then Result.ret s1 else Result.abort

/-- The UNSAT branch of the loop body of `tWeighted` (tsolver.cpp 141-494), `conflict`
being `solver->conflict`.  The branch for `nbSatisfiable == 0` (an `assert(false)`
followed by `exit(_UNSATISFIABLE_)`) is `exitUnsatisfiable`. -/
def unsatStep (lib : Library) (s : WState) (conflict : List Lit) : Result :=
  match minCoreLoop s conflict UINT64_MAX with
  | none => Result.abort
  | some min_core =>
    let s1 := { s with lbCost := u64add s.lbCost min_core, nbCores := s.nbCores + 1 }
    if s1.nbSatisfiable = 0 then Result.exitUnsatisfiable
    else if s1.lbCost = s1.ubCost then Result.ret s1
    else
      let s2 := { s1 with sumSizeCores := s1.sumSizeCores + conflict.length }
      match coreLoop lib min_core conflict s2 [] [] with
      | none => Result.abort
      | some r =>
        -- assert(soft_relax.size() + cardinality_relax.size() > 0)
        if r.2.1.length + r.2.2.length = 0 then Result.abort else
        match harden lib r.1 r.2.1 r.2.2 min_core with
        | none => Result.abort
        | some s3 =>
          match resetAssumptions s3 with
          | none => Result.abort
          | some s4 => Result.next s4

/-- One pass through the loop body of `tWeighted` (tsolver.cpp 57-495). -/
def tWeightedStep (lib : Library) (s : WState) (ans : Answer) : Result :=
  match ans with
  | Answer.sat m => satStep lib s m
  | Answer.unsat conflict => unsatStep lib s conflict

/-- The loop of `initRelaxation` over the soft clauses, `n` being the next free variable:
each soft clause gets the positive literal of a new variable as relaxation literal and as
assumption literal. -/
def relaxFrom : Nat → List Soft → List Soft
  | _, [] => []
  | n, S :: rest =>
    { S with assumption_var := some (mkLit n false),
             relaxation_vars := S.relaxation_vars ++ [mkLit n false] } :: relaxFrom (n + 1) rest

/-- Modelled from the spec: `initRelaxation`, which gives every soft clause a fresh
relaxation literal that is also its assumption literal. -/
def initRelaxation (f : Formula) : Formula :=
  { nVars := f.nVars + f.soft.length, hard := f.hard, soft := relaxFrom f.nVars f.soft }

/-- Modelled from the spec: `rebuildSolver`, the working SAT solver built from the hard
clauses and the soft bodies with their relaxation literals. -/
def rebuildSolver (f : Formula) : SatSolver :=
  { nVars := f.nVars,
    clauses := f.hard ++ f.soft.map (fun S => S.clause ++ S.relaxation_vars) }

/-- The loop that fills `coreMapping` (tsolver.cpp 48-49), from soft-clause index `i` on. -/
def initCoreMapping : List Soft → Nat → (Lit → Option Nat) → (Lit → Option Nat)
  | [], _, m => m
  | S :: rest, i, m =>
    initCoreMapping rest (i + 1)
      (match S.assumption_var with
       | some a => mapInsert m a i
       | none => m)

/-- Library call `getMaximumWeight`: the largest soft weight. -/
def getMaximumWeight (f : Formula) : Nat := (f.soft.map (fun S => S.weight)).foldl max 0

/-- The state of `tWeighted` at its first call of the SAT backend (tsolver.cpp 36-54), for
the formula `f` loaded into the solver object: bounds and counters have the values the
library constructor gives them (`lbCost = 0`, `ubCost = UINT64_MAX`, no SAT answer yet). -/
def initState (f : Formula) : WState :=
  let g := initRelaxation f
  { formula := g, solver := rebuildSolver g,
    activeSoft := List.replicate g.soft.length false,
    coreMapping := initCoreMapping g.soft 0 (fun _ => none),
    boundMapping := fun _ => none,
    cardinality_assumptions := [], soft_cardinality := [],
    assumptions := [], min_weight := getMaximumWeight g,
    lbCost := 0, ubCost := UINT64_MAX, nbSatisfiable := 0, nbCores := 0,
    sumSizeCores := 0, model := [] }

/-- The states `tWeighted` can be in at a call of the SAT backend, whatever the backend
answers: the first state, and every state a pass through the loop body leads on to. -/
inductive Reach (lib : Library) : WState → Prop where
  | init (f : Formula) : Reach lib (initState f)
  | step (s t : WState) (ans : Answer) :
      Reach lib s → tWeightedStep lib s ans = Result.next t → Reach lib t

/-! ## TSolver: the loop body of `tUnweighted`, and `tSearch` -/

/-- The conflict loop of `tUnweighted` (tsolver.cpp 582-628). -/
def coreLoopUnweighted (lib : Library) :
    List Lit → WState → List Lit → List Lit → Option (WState × List Lit × List Lit)
  | [], s, soft_relax, cardinality_relax => some (s, soft_relax, cardinality_relax)
  | p :: ps, s, soft_relax, cardinality_relax =>
    let afterSoft : Option (WState × List Lit) :=
      match s.coreMapping p with
      | none => some (s, soft_relax)
      | some idx =>
        -- assert(!activeSoft[coreMapping[p]])
        if s.activeSoft[idx]? != some false then none else
        -- assert(p == getSoftClause(coreMapping[p]).relaxation_vars[0])
        if (s.formula.soft[idx]?.map (fun S => S.relaxation_vars.head?)) != some (some p)
        then none else
        some ({ s with activeSoft := s.activeSoft.set idx true }, soft_relax ++ [p])
    match afterSoft with
    | none => none
    | some a =>
      match a.1.boundMapping p with
      | none => coreLoopUnweighted lib ps a.1 a.2 cardinality_relax
      | some soft_id =>
        -- assert(it != cardinality_assumptions.end())
        if ¬ (p ∈ a.1.cardinality_assumptions) then none else
        let s1 := { a.1 with
          cardinality_assumptions := setErase p a.1.cardinality_assumptions }
        -- assert(soft_id.first.first < soft_cardinality.size()), assert(hasCardEncoding())
        if (s1.soft_cardinality[soft_id.1.1]?.map (fun e => e.hasCardEncoding)) != some true
        then none else
        match raiseBound lib s1 soft_id.1.1 soft_id.1.2 1 with
        | none => none
        | some s2 => coreLoopUnweighted lib ps s2 a.2 (cardinality_relax ++ [p])

/-- The rebuilding of `assumptions` in `tUnweighted` (tsolver.cpp 674-686): every soft
clause that is not active, then every member of `cardinality_assumptions`. -/
def resetAssumptionsUnweighted (s : WState) : WState :=
  { s with assumptions :=
      softAssumptions 0 s.formula.soft s.activeSoft ++
        s.cardinality_assumptions.map (fun o => some o.neg) }

/-- The SAT branch of the loop body of `tUnweighted` (tsolver.cpp 522-555). -/
def satStepUnweighted (s : WState) (m : List lbool) : Result :=
  let nb := s.nbSatisfiable + 1
  let newCost := computeCostModel s.formula m
  let s1 := { s with nbSatisfiable := nb, model := m, ubCost := newCost }
  if nb = 1 then
    if newCost = 0 then Result.ret s1
    else Result.next { s1 with
      assumptions := s1.assumptions ++ firstAssumptions 0 s1.formula.soft }
  else
    -- assert(lbCost == newCost)
    if s1.lbCost = newCost then Result.ret s1 else Result.abort

/-- The UNSAT branch of the loop body of `tUnweighted` (tsolver.cpp 557-692). -/
def unsatStepUnweighted (lib : Library) (s : WState) (conflict : List Lit) : Result :=
  let s1 := { s with lbCost := u64add s.lbCost 1, nbCores := s.nbCores + 1 }
  if s1.nbSatisfiable = 0 then Result.exitUnsatisfiable
  else if s1.lbCost = s1.ubCost then Result.ret s1
  else
    let s2 := { s1 with sumSizeCores := s1.sumSizeCores + conflict.length }
    match coreLoopUnweighted lib conflict s2 [] [] with
    | none => Result.abort
    | some r =>
      -- assert(soft_relax.size() + cardinality_relax.size() > 0)
      if r.2.1.length + r.2.2.length = 0 then Result.abort else
      match harden lib r.1 r.2.1 r.2.2 1 with
      | none => Result.abort
      | some s3 => Result.next (resetAssumptionsUnweighted s3)

/-- One pass through the loop body of `tUnweighted` (tsolver.cpp 519-693). -/
def tUnweightedStep (lib : Library) (s : WState) (ans : Answer) : Result :=
  match ans with
  | Answer.sat m => satStepUnweighted s m
  | Answer.unsat conflict => unsatStepUnweighted lib s conflict

/-- How a call of a search function ends as its caller sees it: it returns (with the
saved model), the process exits with a status, an `assert` aborts it, or it runs for
ever. -/
inductive Termination where
  | returns (model : List lbool)
  | exits (status : Nat)
  | aborts
  | diverges
deriving DecidableEq

/-- Library constant: exit status `_UNSATISFIABLE_`. -/
def _UNSATISFIABLE_ : Nat := 20

/-- Library constant: exit status `_ERROR_`. -/
def _ERROR_ : Nat := 50

/-- Library constant: cardinality encoding `_CARD_TOTALIZER_`. -/
def _CARD_TOTALIZER_ : Nat := 1

/-- Library constant: problem type `_WEIGHTED_`. -/
def _WEIGHTED_ : Nat := 1

/-- A run of a search loop against the answers the SAT backend gives, one per pass:
`step` is the loop body; without a further answer the run does not end. -/
def runLoop (step : WState → Answer → Result) : List Answer → WState → Termination
  | [], _ => Termination.diverges
  | ans :: rest, s =>
    match step s ans with
    | Result.next t => runLoop step rest t
    | Result.ret t => Termination.returns t.model
    | Result.abort => Termination.aborts
    | Result.exitUnsatisfiable => Termination.exits _UNSATISFIABLE_

/-- Source `TSolver::tSearch` (tsolver.cpp 15-33).  `weighted` and `unweighted` say how the
calls `tWeighted()` and `tUnweighted()` end on the loaded formula. -/
def tSearch (encoding problemType : Nat) (weighted unweighted : Termination) : Termination :=
  if encoding ≠ _CARD_TOTALIZER_ then
    Termination.exits _ERROR_
  else if problemType = _WEIGHTED_ then
    weighted
  else
    match unweighted with
    | Termination.returns _ => Termination.exits _ERROR_
    | t => t

/-! ## TimeTabler: reading the saved model -/

/-- Source `TimeTabler::isVarTrue` (time_tabler.cpp 97-102); `none` when `v` is no index
of the model. -/
def isVarTrue (model : List lbool) (v : Nat) : Option Bool :=
  match model[v]? with
  | none => none
  | some x => if x = lbool.l_False then some false else some true

/-- Source `TimeTabler::checkAllTrue` (time_tabler.cpp 88-95); `none` when an input read
before the answer is no index of the model. -/
def checkAllTrue (model : List lbool) : List Nat → Option Bool
  | [] => some true
  | v :: rest =>
    match model[v]? with
    | none => none
    | some x => if x = lbool.l_False then some false else checkAllTrue model rest

/-- Source `TimeTabler::solve` (time_tabler.cpp 75-86), after `model = solver->tSearch()`
has returned `model`: `highLevelVars` is `data.highLevelVars`, flattened by
`Utils::flattenVector`. -/
def solve (model : List lbool) (highLevelVars : List (List Nat)) : Option Bool :=
  match checkAllTrue model highLevelVars.flatten with
  | none => none
  | some true => some true
  | some false => some false

/-! ## A concrete library for the examples -/

/-- Modelled from the spec: a totalizer library for the examples.  `buildCardinality` over
`n` input literals makes `n` fresh solver variables the outputs `o[0], ..., o[n-1]`;
`incUpdateCardinality` changes neither the outputs nor the variable count;
`findNextWeightDiversity` answers the largest soft weight below the given one (0 when
there is none). -/
def simpleLibrary : Library :=
  { buildCardinality := fun S lits _ =>
      ({ S with nVars := S.nVars + lits.length },
       { lits := lits,
         outputs := (List.range lits.length).map (fun i => mkLit (S.nVars + i) false),
         hasCardEncoding := true }),
    incUpdateCardinality := fun S e _ => (S, e),
    findNextWeightDiversity := fun w _ f _ =>
      ((f.soft.map (fun S => S.weight)).filter (fun x => x < w)).foldl max 0 }

/-- The second state has the bounds, the SAT counter, the stratum and the saved model of
the first. -/
def SameBounds (s t : WState) : Prop :=
  t.lbCost = s.lbCost ∧ t.ubCost = s.ubCost ∧ t.nbSatisfiable = s.nbSatisfiable ∧
    t.min_weight = s.min_weight ∧ t.model = s.model

/-- The state a search loop is in after the given answers of the SAT backend, when every
one of these passes goes on; `none` when one of them ends the loop. -/
def stateAfter (step : WState → Answer → Result) : List Answer → WState → Option WState
  | [], s => some s
  | ans :: rest, s =>
    match step s ans with
    | Result.next t => stateAfter step rest t
    | _ => none

/-- A formula with hard clauses `(a)`, `(b)`, `(c)` and the soft clauses `(¬a)` and `(¬b)`
of weight `2 ^ 63` each and `(¬c)` of weight 7: the soft weights add up to more than
`UINT64_MAX`. -/
def heavyFormula : Formula :=
  { nVars := 3,
    hard := [[mkLit 0 false], [mkLit 1 false], [mkLit 2 false]],
    soft := [{ clause := [mkLit 0 true], weight := 2 ^ 63, assumption_var := none,
               relaxation_vars := [] },
             { clause := [mkLit 1 true], weight := 2 ^ 63, assumption_var := none,
               relaxation_vars := [] },
             { clause := [mkLit 2 true], weight := 7, assumption_var := none,
               relaxation_vars := [] }] }

/-- The model of `heavyFormula` after relaxation that makes `a`, `b`, `c` and the three
relaxation variables true. -/
def heavyModel : List lbool :=
  [lbool.l_True, lbool.l_True, lbool.l_True, lbool.l_True, lbool.l_True, lbool.l_True]

/-- The weights that count for `min_core`, in the words of the spec: for every conflict
literal, the weight of the soft clause it is the `coreMapping` key of and the weight
`boundMapping` holds for it. -/
def registeredWeights (s : WState) : List Lit → List Nat
  | [] => []
  | p :: ps =>
    (match s.coreMapping p with
     | none => []
     | some idx =>
       match s.formula.soft[idx]? with
       | none => []
       | some S => [S.weight]) ++
    (match s.boundMapping p with
     | none => []
     | some soft_id => [soft_id.2]) ++
    registeredWeights s ps

/-- The second state has the formula, `coreMapping` and `activeSoft` of the first. -/
def SameSoft (s t : WState) : Prop :=
  t.formula = s.formula ∧ t.coreMapping = s.coreMapping ∧ t.activeSoft = s.activeSoft

/-- The state a pass leads on to; `d` when the pass ends the loop. -/
def nextState (r : Result) (d : WState) : WState :=
  match r with
  | Result.next t => t
  | _ => d

/-- The search on `heavyFormula` after the SAT answer `heavyModel`. -/
def heavyAfterSat : WState :=
  nextState (tWeightedStep simpleLibrary (initState heavyFormula) (Answer.sat heavyModel))
    (initState heavyFormula)

/-- The search on `heavyFormula` after the SAT answer `heavyModel` and the core `{3}`,
the assumption literal of soft clause 0. -/
def heavyAfterCore : WState :=
  nextState (tWeightedStep simpleLibrary heavyAfterSat (Answer.unsat [mkLit 3 false]))
    heavyAfterSat

/-- The `coreMapping` invariant: every soft clause has an assumption literal on an
allocated variable that `coreMapping` sends to the index of the clause, and every key of
`coreMapping` is the assumption literal of the soft clause at its value. -/
def CoreInv (f : Formula) (cm : Lit → Option Nat) : Prop :=
  (∀ i S, f.soft[i]? = some S →
    ∃ a, S.assumption_var = some a ∧ a.var < f.nVars ∧ cm a = some i) ∧
  (∀ k i, cm k = some i → ∃ S, f.soft[i]? = some S ∧ S.assumption_var = some k)

/-- The state in which the conflict loop starts: `lbCost`, `nbCores` and `sumSizeCores`
updated (tsolver.cpp 166-167, 185). -/
def afterMinCore (s : WState) (min_core conflictSize : Nat) : WState :=
  { s with lbCost := u64add s.lbCost min_core, nbCores := s.nbCores + 1,
           sumSizeCores := s.sumSizeCores + conflictSize }

/-- Every member of `cardinality_assumptions` is a key of `boundMapping`. -/
def CardInv (s : WState) : Prop :=
  ∀ o, o ∈ s.cardinality_assumptions → s.boundMapping o ≠ none

/-- A formula with the soft clauses `(¬a)`, `(¬b)`, `(¬c)` of weight 2 each and no hard
clause. -/
def pairFormula : Formula :=
  { nVars := 3, hard := [],
    soft := [{ clause := [mkLit 0 true], weight := 2, assumption_var := none,
               relaxation_vars := [] },
             { clause := [mkLit 1 true], weight := 2, assumption_var := none,
               relaxation_vars := [] },
             { clause := [mkLit 2 true], weight := 2, assumption_var := none,
               relaxation_vars := [] }] }

/-- The search on `pairFormula` after the SAT answer `heavyModel` (all six variables
true). -/
def pairAfterSat : WState :=
  nextState (tWeightedStep simpleLibrary (initState pairFormula) (Answer.sat heavyModel))
    (initState pairFormula)

/-- The search on `pairFormula` after the core `{3, 4}`, the assumption literals of soft
clauses 0 and 1. -/
def pairAfterCore : WState :=
  nextState (tWeightedStep simpleLibrary pairAfterSat
    (Answer.unsat [mkLit 3 false, mkLit 4 false])) pairAfterSat

/-- The search on `pairFormula` after the further core `{7}`, the cardinality output
assumed since the first core. -/
def pairAfterCard : WState :=
  nextState (tWeightedStep simpleLibrary pairAfterCore (Answer.unsat [mkLit 7 false]))
    pairAfterCore

/-- Every key of `boundMapping` in the first state is a key in the second. -/
def KeysGrow (s t : WState) : Prop :=
  ∀ o, s.boundMapping o ≠ none → t.boundMapping o ≠ none

/-- The sum of the weights of the soft clauses none of whose body literals is true in the
model, as a natural number. -/
def costSum (m : List lbool) (soft : List Soft) : Nat :=
  (soft.map (fun S => if S.clause.any (litSatisfied m) then 0 else S.weight)).sum

/-- The upper bound is the cost of the saved model over the current soft clauses, once a
SAT answer has come. -/
def SavedInv (s : WState) : Prop :=
  s.nbSatisfiable ≠ 0 → s.ubCost = computeCostModel s.formula s.model

/-- One allocation call of a client of `TimeTabler`: `newVar()` or `newLiteral(sign)`. -/
inductive Alloc where
  | var
  | lit (sign : Bool)

/-- The variable one allocation call issues, and the formula after the call. -/
def allocOne (f : Formula) : Alloc → Nat × Formula
  | Alloc.var => newVar f
  | Alloc.lit sign => ((newLiteral f sign).1.var, (newLiteral f sign).2)

/-- A sequence of allocation calls: the variables issued, in call order, and the formula
after the last call. -/
def allocate : List Alloc → Formula → List Nat × Formula
  | [], f => ([], f)
  | r :: rs, f =>
    let a := allocOne f r
    let rest := allocate rs a.2
    (a.1 :: rest.1, rest.2)

/-- A time segment (`fields/segment.h`): first and last segment number, both `int`. -/
structure Segment where
  startSegment : Int
  endSegment : Int
deriving DecidableEq

/-- Source constructor `Segment::Segment(startSegment, endSegment)` (segment.cpp 7-11);
`none` when the `assert` fails. -/
def Segment.new (startSegment endSegment : Int) : Option Segment :=
  if startSegment ≤ endSegment then
    some { startSegment := startSegment, endSegment := endSegment }
  else none

/-- Source `Segment::operator==` (segment.cpp 13-15).  The second conjunct is
`this->endSegment && other.endSegment`: each `int` converts to `bool`, true when it is not
zero. -/
def Segment.opEq (s other : Segment) : Bool :=
  (s.startSegment == other.startSegment) &&
    ((s.endSegment != 0) && (other.endSegment != 0))

/-- The disjunction in the words of the doc comment of `Clauses::operator|`
(clauses.cpp 119-139): for clauses `A_1..A_m` and `B_1..B_n`, the `m * n` clauses
`A_i ∨ B_j`. -/
def documentedOr (P Q : Clauses) : Clauses :=
  (P.map (fun A => Q.map (fun B => A ++ B))).flatten

/-- The state after the split of soft clause 0 of `splitExample` with `min_core = 2`. -/
def splitExampleAfter : SoftState :=
  (splitClause splitExample 0
    { clause := [mkLit 0 false], weight := 5, assumption_var := some (mkLit 1 false),
      relaxation_vars := [mkLit 1 false] } 2).getD splitExample

/-- The search on `pairFormula` after the SAT answer `heavyModel` and the core `{3, 4, 5}`,
the assumption literals of all three soft clauses. -/
def tripleAfterCore : WState :=
  nextState (tWeightedStep simpleLibrary pairAfterSat
    (Answer.unsat [mkLit 3 false, mkLit 4 false, mkLit 5 false])) pairAfterSat

/-- All weights of the search state are positive `uint64_t` values: the weight of every
soft clause and the weight `boundMapping` holds for every key. -/
def WeightsPos (s : WState) : Prop :=
  (∀ S, S ∈ s.formula.soft → 1 ≤ S.weight ∧ S.weight < 2 ^ 64) ∧
  (∀ o v, s.boundMapping o = some v → 1 ≤ v.2 ∧ v.2 < 2 ^ 64)

/-- A formula with hard clauses `(a)`, `(b)` and the soft clauses `(¬a)` of weight 5 and
`(¬b)` of weight 2. -/
def mixedFormula : Formula :=
  { nVars := 2,
    hard := [[mkLit 0 false], [mkLit 1 false]],
    soft := [{ clause := [mkLit 0 true], weight := 5, assumption_var := none,
               relaxation_vars := [] },
             { clause := [mkLit 1 true], weight := 2, assumption_var := none,
               relaxation_vars := [] }] }

/-- The search on `mixedFormula` after a SAT answer that makes all four variables true. -/
def mixedAfterSat : WState :=
  nextState (tWeightedStep simpleLibrary (initState mixedFormula)
    (Answer.sat [lbool.l_True, lbool.l_True, lbool.l_True, lbool.l_True]))
    (initState mixedFormula)

/-- The search on `mixedFormula` after the core `{2, 3}`, the assumption literals of both
soft clauses: `min_core = 2`, and soft clause 0 is split. -/
def mixedAfterCore : WState :=
  nextState (tWeightedStep simpleLibrary mixedAfterSat
    (Answer.unsat [mkLit 2 false, mkLit 3 false])) mixedAfterSat

/-- Modelled from the spec: the contract of the black-box totalizer (section 4.5) and of
the stratification helper, whose bodies are not among the sources.  `buildCardinality`
over `n` input literals with a bound `1 ≤ k < n` gives an encoder over these inputs with
`n` output literals `o[0], ..., o[n-1]`, distinct and on new variables of the solver;
`incUpdateCardinality` keeps the inputs and the outputs of the encoder and never lowers
the variable count of the solver; `findNextWeightDiversity` answers a weight below the
current one whenever a soft clause or a cardinality assumption has a weight below it
("recompute `min_weight` downward"). -/
def Library.Totalizer (lib : Library) : Prop :=
  (∀ S lits k, 1 ≤ k → k < lits.length →
    (lib.buildCardinality S lits k).2.lits = lits ∧
    (lib.buildCardinality S lits k).2.outputs.length = lits.length ∧
    (lib.buildCardinality S lits k).2.outputs.Nodup ∧
    (∀ o, o ∈ (lib.buildCardinality S lits k).2.outputs →
      S.nVars ≤ o.var ∧ o.var < (lib.buildCardinality S lits k).1.nVars) ∧
    S.nVars ≤ (lib.buildCardinality S lits k).1.nVars) ∧
  (∀ S e k,
    (lib.incUpdateCardinality S e k).2.lits = e.lits ∧
    (lib.incUpdateCardinality S e k).2.outputs = e.outputs ∧
    S.nVars ≤ (lib.incUpdateCardinality S e k).1.nVars) ∧
  (∀ w ca f bm,
    ((∃ S, S ∈ f.soft ∧ S.weight < w) ∨ (∃ o v, o ∈ ca ∧ bm o = some v ∧ v.2 < w)) →
    lib.findNextWeightDiversity w ca f bm < w)

/-- A run of a search loop against a SAT backend that answers from the number of the
pass and the state of the search: `fuel` is the number of passes looked at, and the run
has not ended within them when the result is `diverges`. -/
def runBackend (step : WState → Answer → Result) (backend : Nat → WState → Answer) :
    Nat → Nat → WState → Termination
  | 0, _, _ => Termination.diverges
  | fuel + 1, i, s =>
    match step s (backend i s) with
    | Result.next t => runBackend step backend fuel (i + 1) t
    | Result.ret t => Termination.returns t.model
    | Result.abort => Termination.aborts
    | Result.exitUnsatisfiable => Termination.exits _UNSATISFIABLE_

/-- The number of outputs of the encoder at index `e`; 0 when there is none. -/
def outputsLen (encs : List Encoder) (e : Nat) : Nat :=
  match encs[e]? with
  | some enc => enc.outputs.length
  | none => 0

/-- What an assumed output literal still owes: its weight times the number of bounds its
encoder has left above the registered one. -/
def cardTerm (s : WState) (o : Lit) : Nat :=
  match s.boundMapping o with
  | some v => v.2 * (outputsLen s.soft_cardinality v.1.1 - v.1.2)
  | none => 0

/-- The sum of `cardTerm` over `cardinality_assumptions`. -/
def cardPotential (s : WState) : Nat := (s.cardinality_assumptions.map (cardTerm s)).sum

/-- The sum of the weights of the soft clauses that are not active. -/
def softPotential (soft : List Soft) (activeSoft : List Bool) : Nat :=
  (List.zipWith (fun (S : Soft) (a : Bool) => if a then 0 else S.weight) soft activeSoft).sum

/-- The quantity every UNSAT pass lowers: `softPotential` plus `cardPotential`. -/
def potential (s : WState) : Nat :=
  softPotential s.formula.soft s.activeSoft + cardPotential s

/-- The bookkeeping of the cardinality encoders is consistent: the assumed outputs are
distinct; each is registered in `boundMapping` with an encoder and a bound at least 1 such
that it is the output of that encoder at that bound; the outputs of all encoders are
distinct literals on variables of the solver; no two assumed outputs belong to the same
encoder; every encoder has as many outputs as inputs. -/
structure CardOK (s : WState) : Prop where
  nodup : s.cardinality_assumptions.Nodup
  key : ∀ o, o ∈ s.cardinality_assumptions →
    ∃ (e k w : Nat) (enc : Encoder), s.boundMapping o = some ((e, k), w) ∧ s.soft_cardinality[e]? = some enc ∧
      enc.outputs[k]? = some o ∧ 1 ≤ k
  inj : ∀ (e e2 : Nat) (enc enc2 : Encoder) (k k2 : Nat) (o : Lit), s.soft_cardinality[e]? = some enc →
    s.soft_cardinality[e2]? = some enc2 → enc.outputs[k]? = some o →
    enc2.outputs[k2]? = some o → e = e2 ∧ k = k2
  bound : ∀ (e : Nat) (enc : Encoder) (o : Lit), s.soft_cardinality[e]? = some enc → o ∈ enc.outputs →
    o.var < s.solver.nVars
  one : ∀ (o o2 : Lit) (e k k2 w w2 : Nat), o ∈ s.cardinality_assumptions →
    o2 ∈ s.cardinality_assumptions → s.boundMapping o = some ((e, k), w) →
    s.boundMapping o2 = some ((e, k2), w2) → o = o2
  len : ∀ (e : Nat) (enc : Encoder), s.soft_cardinality[e]? = some enc → enc.outputs.length = enc.lits.length

/-- A SAT backend for the examples: as long as the search assumes a literal, it answers
UNSAT with the core that holds the negation of the first assumption alone; without an
assumption it answers SAT with the model `heavyModel`. -/
def firstCoreBackend (_i : Nat) (s : WState) : Answer :=
  match s.assumptions.filterMap id with
  | a :: _ => Answer.unsat [a.neg]
  | [] => Answer.sat heavyModel

/-- The least value of `int` (32 bits). -/
def INT_MIN : Int := -2147483648

/-- The greatest value of `int` (32 bits). -/
def INT_MAX : Int := 2147483647

/-- The result of an `int` operation whose exact value is `x`: `none` when `x` is outside
the range of `int` (signed overflow, which is undefined behaviour). -/
def intResult (x : Int) : Option Int :=
  if INT_MIN ≤ x ∧ x ≤ INT_MAX then some x else none

/-- Source `Segment::length` (segment.cpp 17-19): `(endSegment - startSegment + 1)`, the
subtraction first, both operations in `int`. -/
def Segment.length (s : Segment) : Option Int :=
  match intResult (s.endSegment - s.startSegment) with
  | none => none
  | some d => intResult (d + 1)

/-- Source `Segment::isIntersecting` (segment.cpp 21-29). -/
def Segment.isIntersecting (s other : Segment) : Bool :=
  if s.startSegment < other.startSegment then
    !(decide (s.endSegment < other.startSegment))
  else if s.startSegment > other.startSegment then
    !(decide (s.startSegment > other.endSegment))
  else true

/-- Every entry of `boundMapping` names an encoder of `soft_cardinality`. -/
def IndexInv (s : WState) : Prop :=
  ∀ o v, s.boundMapping o = some v → v.1.1 < s.soft_cardinality.length

theorem addToFormula_hard (f : Formula) (c : List Lit) :
    addToFormula f c (-1) = { f with hard := f.hard ++ [c] } := by
  simp [addToFormula, Formula.addHardClause]

theorem litLoop_eq (c1 : Lit) (ls : List Lit) (c1rep : CClause) (f : Formula) :
    litLoop c1 ls c1rep f =
      (c1rep ++ ls, { f with hard := f.hard ++ ls.map (fun l => [c1, l.neg]) }) := by
  induction ls generalizing c1rep f with
  | nil => simp [litLoop]
  | cons l ls ih =>
    simp [litLoop, ih, addToFormula_hard, CClause.addLits, List.append_assoc]

theorem selectorLoop_eq (sel : Lit) (cs : List CClause) (f : Formula) (xrep : List Lit) :
    selectorLoop sel cs f xrep =
      ({ nVars := f.nVars + cs.length, hard := f.hard ++ loopHard sel f.nVars cs,
         soft := f.soft }, xrep ++ loopReps f.nVars cs) := by
  induction cs generalizing f xrep with
  | nil => simp [selectorLoop, loopHard, loopReps]
  | cons c cs ih =>
    simp only [selectorLoop, newLiteral, Formula.newVar, addToFormula_hard, litLoop_eq,
      addClauses, List.foldl_cons, List.foldl_nil, ih, loopHard, loopReps, List.length_cons]
    simp [List.append_assoc, Nat.add_assoc, Nat.add_comm 1]

theorem opOr_nil (P : Clauses) (f : Formula) : Clauses.opOr P [] f = ([], f) := by
  simp [Clauses.opOr]

theorem opOr_cons (P : Clauses) (d : CClause) (Q : Clauses) (f : Formula) :
    Clauses.opOr P (d :: Q) f =
      ([[mkLit f.nVars false, mkLit (f.nVars + 1) false]],
       { nVars := f.nVars + 2 + P.length + (Q.length + 1),
         hard := f.hard ++ orHard f.nVars P (d :: Q),
         soft := f.soft }) := by
  simp only [Clauses.opOr, List.length_cons, Nat.add_one_ne_zero, if_false, newLiteral,
    Formula.newVar, selectorLoop_eq, addToFormula_hard, CClause.opOr, orHard]
  simp [List.append_assoc, Nat.add_assoc]

theorem Lit.eval_neg (a : Nat → Bool) (l : Lit) : Lit.eval a l.neg = !(Lit.eval a l) := by
  cases l with
  | mk v sg => cases sg <;> cases h : a v <;> simp [Lit.eval, Lit.neg, h]

theorem Clauses.eval_append (a : Nat → Bool) (A B : Clauses) :
    Clauses.eval a (A ++ B) = (Clauses.eval a A && Clauses.eval a B) := by
  simp [Clauses.eval, List.all_append]

theorem Clauses.eval_cons (a : Nat → Bool) (c : CClause) (A : Clauses) :
    Clauses.eval a (c :: A) = (CClause.eval a c && Clauses.eval a A) := by
  simp [Clauses.eval]

/-- One loop of `operator|`: when the selector is true, the emitted clauses make every
clause of the operand true. -/
theorem loopHard_entails (a : Nat → Bool) (sel : Lit) (n : Nat) (cs : List CClause)
    (h : Clauses.eval a (loopHard sel n cs) = true) (hs : Lit.eval a sel = true) :
    Clauses.eval a cs = true := by
  induction cs generalizing n with
  | nil => simp [Clauses.eval]
  | cons c cs ih =>
    simp only [loopHard, Clauses.eval_cons, Clauses.eval_append, Bool.and_eq_true] at h
    obtain ⟨h1, _, h3, h4⟩ := h
    have hc1 : Lit.eval a (mkLit n false) = true := by
      simpa [CClause.eval, Lit.eval_neg, hs] using h1
    have hc : CClause.eval a c = true := by
      have h3' := h3
      simp only [CClause.eval, List.any_cons, Lit.eval_neg, hc1, Bool.not_true,
        Bool.false_or] at h3'
      simpa [CClause.eval] using h3'
    simp [Clauses.eval_cons, hc, ih (n + 1) h4]

/-- The hard clauses of `P | Q` contain the unit clause `(y)` and so make `Q` true. -/
theorem orHard_entails_right (a : Nat → Bool) (n : Nat) (P Q : Clauses)
    (h : Clauses.eval a (orHard n P Q) = true) : Clauses.eval a Q = true := by
  simp only [orHard, Clauses.eval_cons, Clauses.eval_append, Bool.and_eq_true] at h
  obtain ⟨_, hQ, _, hy, _⟩ := h
  have hy' : Lit.eval a (mkLit (n + 1) false) = true := by
    simpa [CClause.eval] using hy
  exact loopHard_entails a _ _ Q hQ hy'

theorem addedHard_of_append (f g : Formula) (A : List (List Lit))
    (h : g.hard = f.hard ++ A) : addedHard f g = A := by
  simp [addedHard, h]

theorem opOr_hard_grows (P Q : Clauses) (f : Formula) :
    ∃ A, (Clauses.opOr P Q f).2.hard = f.hard ++ A := by
  cases Q with
  | nil => exact ⟨[], by simp [opOr_nil]⟩
  | cons d Q => exact ⟨orHard f.nVars P (d :: Q), by simp [opOr_cons]⟩

theorem notLoop_hard_grows (cs : List CClause) (acc : Clauses) (f : Formula) :
    ∃ A, (notLoop cs acc f).2.hard = f.hard ++ A := by
  induction cs generalizing acc f with
  | nil => exact ⟨[], by simp [notLoop]⟩
  | cons c cs ih =>
    obtain ⟨A, hA⟩ := opOr_hard_grows acc (CClause.opNot c) f
    obtain ⟨B, hB⟩ := ih (Clauses.opOr acc (CClause.opNot c) f).1
      (Clauses.opOr acc (CClause.opNot c) f).2
    exact ⟨A ++ B, by simp [notLoop, hB, hA, List.append_assoc]⟩

theorem opNot_hard_grows (P : Clauses) (f : Formula) :
    ∃ A, (Clauses.opNot P f).2.hard = f.hard ++ A := by
  cases P with
  | nil => exact ⟨[], by simp [Clauses.opNot]⟩
  | cons c cs => simpa [Clauses.opNot] using notLoop_hard_grows cs (CClause.opNot c) f

/-- Every assignment that satisfies the hard clauses added by `P | Q` satisfies `Q`. -/
theorem opOr_hard_entails_right (P Q : Clauses) (f : Formula) (b : Nat → Bool)
    (h : Clauses.eval b (addedHard f (Clauses.opOr P Q f).2) = true) :
    Clauses.eval b Q = true := by
  cases Q with
  | nil => simp [Clauses.eval]
  | cons d Q =>
    rw [addedHard_of_append f _ (orHard f.nVars P (d :: Q)) (by simp [opOr_cons])] at h
    exact orHard_entails_right b _ P _ h

/-- Every assignment that satisfies the hard clauses added by `P >> Q` satisfies `Q`. -/
theorem opImplies_hard_entails_right (P Q : Clauses) (f : Formula) (b : Nat → Bool)
    (h : Clauses.eval b (addedHard f (Clauses.opImplies P Q f).2) = true) :
    Clauses.eval b Q = true := by
  obtain ⟨A, hA⟩ := opNot_hard_grows P f
  obtain ⟨B, hB⟩ := opOr_hard_grows (Clauses.opNot P f).1 Q (Clauses.opNot P f).2
  have hB' : addedHard (Clauses.opNot P f).2
      (Clauses.opOr (Clauses.opNot P f).1 Q (Clauses.opNot P f).2).2 = B :=
    addedHard_of_append _ _ B hB
  have hAB : addedHard f (Clauses.opImplies P Q f).2 = A ++ B := by
    apply addedHard_of_append
    simp [Clauses.opImplies, hB, hA, List.append_assoc]
  rw [hAB, Clauses.eval_append, Bool.and_eq_true] at h
  apply opOr_hard_entails_right (Clauses.opNot P f).1 Q (Clauses.opNot P f).2 b
  rw [hB']
  exact h.2

/-- The hard clauses of `P | Q` make the selector `y` true. -/
theorem orHard_entails_y (a : Nat → Bool) (n : Nat) (P Q : Clauses)
    (h : Clauses.eval a (orHard n P Q) = true) : a (n + 1) = true := by
  simp only [orHard, Clauses.eval_cons, Clauses.eval_append, Bool.and_eq_true] at h
  obtain ⟨_, _, _, hy, _⟩ := h
  simpa [CClause.eval, Lit.eval, mkLit] using hy

/-! ## Disjunction, negation, implication: semantics (C1 - C5) -/

/-- C1 (the code departs from the claim): with `P = (a)`, `Q = (b)` and the assignment
`a = true, b = false`, `P` is true, yet no extension of the assignment to the fresh
variables satisfies the hard clauses that `P | Q` adds together with the returned
clause `(x ∨ y)`. -/
theorem or_true_left_false_right_has_no_model :
    Clauses.eval (fun v => decide (v = 0)) [[mkLit 0 false]] = true ∧
    ¬ ∃ b : Nat → Bool,
        Extends formula2 (fun v => decide (v = 0)) b ∧
        Clauses.eval b (addedHard formula2
          (Clauses.opOr [[mkLit 0 false]] [[mkLit 1 false]] formula2).2) = true ∧
        Clauses.eval b
          (Clauses.opOr [[mkLit 0 false]] [[mkLit 1 false]] formula2).1 = true := by
  refine ⟨by decide, ?_⟩
  rintro ⟨b, hext, hH, _⟩
  have hQ := opOr_hard_entails_right _ _ _ b hH
  have h1 := hext 1 (by decide)
  simp [Clauses.eval, CClause.eval, Lit.eval, mkLit] at hQ
  simp [hQ] at h1

/-- C3 (the code departs from the claim): with `S = (a) ∧ (b)` and the assignment
`a = false, b = true`, `S` is false, yet no extension of the assignment satisfies the
hard clauses added by `~S` together with the returned clause set. -/
theorem not_of_false_set_has_no_model :
    Clauses.eval (fun v => decide (v = 1)) [[mkLit 0 false], [mkLit 1 false]] = false ∧
    ¬ ∃ b : Nat → Bool,
        Extends formula2 (fun v => decide (v = 1)) b ∧
        Clauses.eval b (addedHard formula2
          (Clauses.opNot [[mkLit 0 false], [mkLit 1 false]] formula2).2) = true ∧
        Clauses.eval b
          (Clauses.opNot [[mkLit 0 false], [mkLit 1 false]] formula2).1 = true := by
  refine ⟨by decide, ?_⟩
  rintro ⟨b, hext, hH, _⟩
  have hS : Clauses.opNot [[mkLit 0 false], [mkLit 1 false]] formula2 =
      Clauses.opOr [[(mkLit 0 false).neg]] [[(mkLit 1 false).neg]] formula2 := by
    simp [Clauses.opNot, notLoop, CClause.opNot]
  rw [hS] at hH
  have hQ := opOr_hard_entails_right _ _ _ b hH
  have h1 := hext 1 (by decide)
  simp [Clauses.eval, CClause.eval, Lit.eval, Lit.neg, mkLit] at hQ
  simp [hQ] at h1

/-- C4 (the code departs from the claim): with `P = (a)`, `Q = (b)` and the assignment
`a = false, b = false`, `P` is false, yet no extension of the assignment satisfies the
hard clauses added by `P >> Q` together with the returned clause set. -/
theorem implies_of_false_antecedent_has_no_model :
    Clauses.eval (fun _ => false) [[mkLit 0 false]] = false ∧
    ¬ ∃ b : Nat → Bool,
        Extends formula2 (fun _ => false) b ∧
        Clauses.eval b (addedHard formula2
          (Clauses.opImplies [[mkLit 0 false]] [[mkLit 1 false]] formula2).2) = true ∧
        Clauses.eval b
          (Clauses.opImplies [[mkLit 0 false]] [[mkLit 1 false]] formula2).1 = true := by
  refine ⟨by decide, ?_⟩
  rintro ⟨b, hext, hH, _⟩
  have hQ := opImplies_hard_entails_right _ _ _ b hH
  have h1 := hext 1 (by decide)
  simp [Clauses.eval, CClause.eval, Lit.eval, mkLit] at hQ
  simp [hQ] at h1

/-- C5: every total assignment that satisfies the hard clauses added by `P >> Q`, the
returned clause set and every clause of `P` satisfies every clause of `Q`. -/
theorem implies_forces_consequent (P Q : Clauses) (f : Formula) (b : Nat → Bool)
    (hH : Clauses.eval b (addedHard f (Clauses.opImplies P Q f).2) = true)
    (_hR : Clauses.eval b (Clauses.opImplies P Q f).1 = true)
    (_hP : Clauses.eval b P = true) :
    Clauses.eval b Q = true :=
  opImplies_hard_entails_right P Q f b hH

/-- C5 at `P = (a)`, `Q = (b)`: the assignment that makes exactly the variables other
than `x` (2) and the selector of `(¬a)` (4) true meets all three premises. -/
theorem implies_forces_consequent_witness :
    Clauses.eval (fun v => !(v == 2 || v == 4)) (addedHard formula2
      (Clauses.opImplies [[mkLit 0 false]] [[mkLit 1 false]] formula2).2) = true ∧
    Clauses.eval (fun v => !(v == 2 || v == 4))
      (Clauses.opImplies [[mkLit 0 false]] [[mkLit 1 false]] formula2).1 = true ∧
    Clauses.eval (fun v => !(v == 2 || v == 4)) [[mkLit 0 false]] = true ∧
    Clauses.eval (fun v => !(v == 2 || v == 4)) [[mkLit 1 false]] = true :=
  ⟨by decide, by decide, by decide,
    implies_forces_consequent [[mkLit 0 false]] [[mkLit 1 false]] formula2
      (fun v => !(v == 2 || v == 4)) (by decide) (by decide) (by decide)⟩

/-! ## Shape of the results and empty operands (C6 - C9) -/

/-- C6: when `Q` has at least one clause, `P | Q` returns exactly one clause, made of
exactly two positive literals `x` and `y` whose variables are distinct, were not
allocated before the call and are allocated after it. -/
theorem or_returns_two_fresh_selectors (P Q : Clauses) (f : Formula) (hQ : 0 < Q.length) :
    ∃ x y : Lit, (Clauses.opOr P Q f).1 = [[x, y]] ∧ x.sign = false ∧ y.sign = false ∧
      x.var ≠ y.var ∧ f.nVars ≤ x.var ∧ f.nVars ≤ y.var ∧
      x.var < (Clauses.opOr P Q f).2.nVars ∧ y.var < (Clauses.opOr P Q f).2.nVars := by
  cases Q with
  | nil => simp at hQ
  | cons d Q =>
    refine ⟨mkLit f.nVars false, mkLit (f.nVars + 1) false, ?_⟩
    simp only [opOr_cons, mkLit]
    refine ⟨trivial, trivial, trivial, ?_, ?_, ?_, ?_, ?_⟩ <;> omega

/-- C6 at `P = (a)`, `Q = (b)` over two variables: the result is `(x ∨ y)` on the
variables 2 and 3. -/
theorem or_returns_two_fresh_selectors_witness :
    0 < ([[mkLit 1 false]] : Clauses).length ∧
    ∃ x y : Lit, (Clauses.opOr [[mkLit 0 false]] [[mkLit 1 false]] formula2).1 = [[x, y]] ∧
      x.sign = false ∧ y.sign = false ∧
      x.var ≠ y.var ∧ formula2.nVars ≤ x.var ∧ formula2.nVars ≤ y.var ∧
      x.var < (Clauses.opOr [[mkLit 0 false]] [[mkLit 1 false]] formula2).2.nVars ∧
      y.var < (Clauses.opOr [[mkLit 0 false]] [[mkLit 1 false]] formula2).2.nVars :=
  ⟨by decide,
    or_returns_two_fresh_selectors [[mkLit 0 false]] [[mkLit 1 false]] formula2 (by decide)⟩

/-- C7 fails as stated: with `P = (a)` and an empty right operand the result is not
`P`, and with an empty left operand and `Q = (b)` the result is not `Q` and the formula
is changed. -/
theorem or_empty_operand_rule_fails :
    (Clauses.opOr [[mkLit 0 false]] [] formula2).1 ≠ [[mkLit 0 false]] ∧
    (Clauses.opOr [] [[mkLit 1 false]] formula2).1 ≠ [[mkLit 1 false]] ∧
    (Clauses.opOr [] [[mkLit 1 false]] formula2).2 ≠ formula2 := by
  decide

/-- C7 as amended: with an empty right operand, `P | Q` returns that empty right
operand and leaves the formula as it is (no variable, no hard clause); an empty left
operand gets no special treatment: with a right operand of `k ≥ 1` clauses the call
returns the fresh clause `(x ∨ y)`, allocates `2 + k` variables and adds hard clauses. -/
theorem or_empty_right_returns_right (P : Clauses) (f : Formula) :
    Clauses.opOr P [] f = ([], f) ∧
    ∀ (d : CClause) (Q : Clauses),
      (Clauses.opOr [] (d :: Q) f).1 = [[mkLit f.nVars false, mkLit (f.nVars + 1) false]] ∧
      (Clauses.opOr [] (d :: Q) f).2.nVars = f.nVars + 2 + (d :: Q).length ∧
      addedHard f (Clauses.opOr [] (d :: Q) f).2 ≠ [] := by
  refine ⟨opOr_nil P f, fun d Q => ?_⟩
  rw [addedHard_of_append f _ (orHard f.nVars [] (d :: Q)) (by simp [opOr_cons])]
  simp [opOr_cons, orHard, loopHard]

/-- C8: negating the empty clause set returns exactly one clause, that clause has no
literal (so it is false under every assignment), and the formula is left as it was. -/
theorem not_of_empty_set (f : Formula) :
    Clauses.opNot [] f = ([[]], f) ∧
    (Clauses.opNot [] f).1.length = 1 ∧
    (∀ c ∈ (Clauses.opNot [] f).1, c.length = 0) ∧
    (Clauses.opNot [] f).2 = f ∧
    ∀ a : Nat → Bool, Clauses.eval a (Clauses.opNot [] f).1 = false := by
  simp [Clauses.opNot, Clauses.eval, CClause.eval]

/-- C9: the clauses of `P & Q` are those of `P` followed by those of `Q`; its value is
the conjunction of the values of `P` and `Q`; the empty set is a two-sided identity;
and `&` is associative. -/
theorem and_is_concatenation (P Q R : Clauses) (a : Nat → Bool) :
    Clauses.opAnd P Q = P ++ Q ∧
    Clauses.eval a (Clauses.opAnd P Q) = (Clauses.eval a P && Clauses.eval a Q) ∧
    Clauses.opAnd [] P = P ∧ Clauses.opAnd P [] = P ∧
    Clauses.opAnd (Clauses.opAnd P Q) R = Clauses.opAnd P (Clauses.opAnd Q R) := by
  refine ⟨rfl, ?_, ?_, ?_, ?_⟩
  · exact Clauses.eval_append a P Q
  · simp [Clauses.opAnd]
  · simp [Clauses.opAnd]
  · simp [Clauses.opAnd, List.append_assoc]

/-! ## Weight splitting in the UNSAT step of `tWeighted` (C10) -/

theorem u64sub_of_lt (w m : Nat) (hm : m < w) (hw : w < 2 ^ 64) : u64sub w m = w - m := by
  unfold u64sub
  have h : w + 2 ^ 64 - m = (w - m) + 2 ^ 64 := by omega
  rw [h, Nat.add_mod_right, Nat.mod_eq_of_lt (by omega)]

theorem syncVars_soft (k : Nat) (f : Formula) (n : Nat) : (syncVars k f n).soft = f.soft := by
  induction k generalizing f with
  | zero => simp [syncVars]
  | succ k ih =>
    simp only [syncVars]
    split
    · rw [ih]; simp [Formula.newLiteral, Formula.newVar]
    · rfl

theorem modify_eq_set_of_getElem? {α : Type} (l : List α) (i : Nat) (x : α) (g : α → α)
    (h : l[i]? = some x) : l.modify g i = l.set i (g x) := by
  induction l generalizing i with
  | nil => simp at h
  | cons y ys ih =>
    cases i with
    | zero => simp at h; simp [h]
    | succ i => simp at h; simp [ih i h]

theorem sum_weight_set (l : List Soft) (i : Nat) (S T : Soft) (h : l[i]? = some S) :
    ((l.set i T).map (fun U => U.weight)).sum + S.weight =
      (l.map (fun U => U.weight)).sum + T.weight := by
  induction l generalizing i with
  | nil => simp at h
  | cons y ys ih =>
    cases i with
    | zero => simp at h; simp [h]; omega
    | succ i =>
      simp at h
      have := ih i h
      simp only [List.set_cons_succ, List.map_cons, List.sum_cons]
      omega

theorem modify_last {α : Type} (L : List α) (x : α) (g : α → α) :
    List.modify g ((L ++ [x]).length - 1) (L ++ [x]) = L ++ [g x] := by
  induction L with
  | nil => simp
  | cons y ys ih =>
    have h : (y :: ys ++ [x]).length - 1 = ((ys ++ [x]).length - 1) + 1 := by simp
    rw [h]
    simpa using ih

theorem getElem?_last {α : Type} (L : List α) (x : α) :
    (L ++ [x])[(L ++ [x]).length - 1]? = some x := by
  simp

/-- C10: when the soft-clause block of the UNSAT step meets a conflict literal whose soft
clause `S` has weight `w > min_core`, it succeeds; afterwards the soft clause at that
index is `S` with weight `w - min_core`, every other soft clause is as before, and one
soft clause is appended with the body of `S`, weight `min_core` and the fresh literal `l`
as assumption and relaxation literal.  Under every assignment the penalty of `S` is the
sum of the penalties of these two clauses, and the total soft weight is unchanged. -/
theorem split_preserves_penalty (s : SoftState) (p : Lit) (indexSoft : Nat) (S : Soft)
    (min_core : Nat)
    (hmap : s.coreMapping p = some indexSoft)
    (hS : s.formula.soft[indexSoft]? = some S)
    (hw : S.weight > min_core)
    (h64 : S.weight < 2 ^ 64)
    (hact : s.activeSoft[indexSoft]? = some false)
    (hlen : s.activeSoft.length = s.formula.soft.length) :
    ∃ (s' : SoftState) (l : Lit), relaxSoft s p min_core = some s' ∧
      s'.formula.soft =
        s.formula.soft.set indexSoft { S with weight := S.weight - min_core } ++
          [{ clause := S.clause, weight := min_core, assumption_var := some l,
             relaxation_vars := [l] }] ∧
      (∀ a : Nat → Bool, S.penalty a =
        Soft.penalty a { S with weight := S.weight - min_core } +
        Soft.penalty a { clause := S.clause, weight := min_core, assumption_var := some l,
                         relaxation_vars := [l] }) ∧
      s'.formula.totalWeight = s.formula.totalWeight := by
  have hsub := u64sub_of_lt S.weight min_core hw h64
  have hi : indexSoft < s.formula.soft.length := by
    by_contra hc
    rw [List.getElem?_eq_none (by omega)] at hS
    exact absurd hS (by simp)
  have hL : (s.formula.soft.set indexSoft { S with weight := S.weight - min_core }).length =
      s.formula.soft.length := by simp
  simp only [relaxSoft, hmap, hS, hw, if_true, splitClause, hact, hsub]
  generalize hg : syncVars _ _ _ = g
  have hgs : g.soft = s.formula.soft.set indexSoft { S with weight := S.weight - min_core } := by
    rw [← hg, syncVars_soft]
    simp [Formula.setWeight, modify_eq_set_of_getElem? _ _ _ _ hS]
  have hidx : (s.formula.soft.set indexSoft { S with weight := S.weight - min_core })[indexSoft]? =
      some { S with weight := S.weight - min_core } := by
    simp [List.getElem?_set, hi]
  simp only [Formula.newLiteral, Formula.newVar, Formula.addSoftClauseVars,
    Formula.setAssumption, hgs]
  have hsum := sum_weight_set s.formula.soft indexSoft S
    { S with weight := S.weight - min_core } hS
  generalize s.formula.soft.set indexSoft { S with weight := S.weight - min_core } = L
    at hL hidx hsum ⊢
  have hiL : indexSoft < L.length := by omega
  have hpos : S.weight - min_core > 0 := by omega
  simp only [modify_last, getElem?_last, List.getElem?_append_left hiL, hidx]
  have hlen' : (s.activeSoft ++ [true]).length =
      (L ++ [({ clause := S.clause, weight := min_core,
                assumption_var := some (mkLit g.nVars false),
                relaxation_vars := [mkLit g.nVars false] } : Soft)]).length := by
    simp [hlen, hL]
  simp only [hlen', hpos, bne_self_eq_false, Bool.false_eq_true, if_false, not_true_eq_false,
    Option.map_some', List.length_append, List.length_singleton, Nat.add_sub_cancel,
    List.head?_cons]
  refine ⟨_, mkLit g.nVars false, rfl, rfl, ?_, ?_⟩
  · intro a
    unfold Soft.penalty
    by_cases h : CClause.eval a S.clause = true
    · simp [h]
    · simp [h]
      omega
  · simp only [Formula.totalWeight, List.map_append, List.sum_append, List.map_cons,
      List.map_nil, List.sum_cons, List.sum_nil] at hsum ⊢
    omega

/-- C10 at `splitExample`, conflict literal 1 and `min_core = 2`: soft clause 0 of weight 5
is split into weights 3 and 2. -/
theorem split_preserves_penalty_witness :
    splitExample.coreMapping (mkLit 1 false) = some 0 ∧
    splitExample.formula.soft[0]? =
      some { clause := [mkLit 0 false], weight := 5, assumption_var := some (mkLit 1 false),
             relaxation_vars := [mkLit 1 false] } ∧
    (5 : Nat) > 2 ∧ (5 : Nat) < 2 ^ 64 ∧
    splitExample.activeSoft[0]? = some false ∧
    splitExample.activeSoft.length = splitExample.formula.soft.length ∧
    ∃ (s' : SoftState) (l : Lit), relaxSoft splitExample (mkLit 1 false) 2 = some s' ∧
      s'.formula.soft =
        splitExample.formula.soft.set 0
            { clause := [mkLit 0 false], weight := 5 - 2,
              assumption_var := some (mkLit 1 false), relaxation_vars := [mkLit 1 false] } ++
          [{ clause := [mkLit 0 false], weight := 2, assumption_var := some l,
             relaxation_vars := [l] }] ∧
      (∀ a : Nat → Bool,
        Soft.penalty a { clause := [mkLit 0 false], weight := 5,
                         assumption_var := some (mkLit 1 false),
                         relaxation_vars := [mkLit 1 false] } =
        Soft.penalty a { clause := [mkLit 0 false], weight := 5 - 2,
                         assumption_var := some (mkLit 1 false),
                         relaxation_vars := [mkLit 1 false] } +
        Soft.penalty a { clause := [mkLit 0 false], weight := 2, assumption_var := some l,
                         relaxation_vars := [l] }) ∧
      s'.formula.totalWeight = splitExample.formula.totalWeight :=
  ⟨rfl, rfl, by decide, by norm_num, rfl, rfl,
    split_preserves_penalty splitExample (mkLit 1 false) 0
      { clause := [mkLit 0 false], weight := 5, assumption_var := some (mkLit 1 false),
        relaxation_vars := [mkLit 1 false] } 2 rfl rfl (by decide) (by norm_num) rfl rfl⟩

/-! ## Reading the saved model (C20) -/

/-- C20 fails as stated: on a saved model whose variable 0 is undefined, `isVarTrue`,
`checkAllTrue` and `solve` all answer true although the variable is not true. -/
theorem undefined_variable_counts_as_true :
    ([lbool.l_Undef] : List lbool)[0]? ≠ some lbool.l_True ∧
    isVarTrue [lbool.l_Undef] 0 = some true ∧
    checkAllTrue [lbool.l_Undef] [0] = some true ∧
    solve [lbool.l_Undef] [[0]] = some true := by
  decide

theorem checkAllTrue_iff (model : List lbool) (vs : List Nat) :
    checkAllTrue model vs = some true ↔
      ∀ v ∈ vs, ∃ x, model[v]? = some x ∧ x ≠ lbool.l_False := by
  induction vs with
  | nil => simp [checkAllTrue]
  | cons v rest ih =>
    simp only [checkAllTrue, List.mem_cons, forall_eq_or_imp]
    cases h : model[v]? with
    | none => simp
    | some x =>
      by_cases hx : x = lbool.l_False
      · simp [hx]
      · simp [hx, ih]

/-- C20 as amended: `checkAllTrue` answers true exactly when every input is an index of
the saved model whose value is not `l_False` (an undefined value passes); `solve` is
`checkAllTrue` of the flattened high-level variables; `isVarTrue(v)` answers true exactly
when the value of `v` is not `l_False`; and `checkAllTrue` of the empty list is true. -/
theorem solve_true_iff_none_false (model : List lbool) (highLevelVars : List (List Nat))
    (vs : List Nat) (v : Nat) :
    (checkAllTrue model vs = some true ↔
      ∀ u ∈ vs, ∃ x, model[u]? = some x ∧ x ≠ lbool.l_False) ∧
    (solve model highLevelVars = some true ↔
      ∀ u ∈ highLevelVars.flatten, ∃ x, model[u]? = some x ∧ x ≠ lbool.l_False) ∧
    (isVarTrue model v = some true ↔ ∃ x, model[v]? = some x ∧ x ≠ lbool.l_False) ∧
    checkAllTrue model [] = some true := by
  refine ⟨checkAllTrue_iff model vs, ?_, ?_, rfl⟩
  · rw [← checkAllTrue_iff]
    unfold solve
    cases h : checkAllTrue model highLevelVars.flatten with
    | none => simp
    | some b => cases b <;> simp
  · unfold isVarTrue
    cases h : model[v]? with
    | none => simp
    | some x =>
      by_cases hx : x = lbool.l_False
      · simp [hx]
      · simp [hx]

/-! ## Exits of `tSearch` and of the UNSAT branches (C18, C19) -/

/-- C18 fails as stated: with the totalizer encoding and a problem type that is not
weighted, when the first answer of the SAT backend is UNSAT the unweighted search ends
the process with `_UNSATISFIABLE_`, which is not the error status. -/
theorem tSearch_unweighted_can_exit_unsatisfiable :
    runLoop (tUnweightedStep simpleLibrary) [Answer.unsat []] (initState formula2) =
      Termination.exits _UNSATISFIABLE_ ∧
    tSearch _CARD_TOTALIZER_ 0 Termination.diverges
      (runLoop (tUnweightedStep simpleLibrary) [Answer.unsat []] (initState formula2)) =
      Termination.exits _UNSATISFIABLE_ ∧
    Termination.exits _UNSATISFIABLE_ ≠ Termination.exits _ERROR_ ∧
    (0 : Nat) ≠ _WEIGHTED_ := by
  refine ⟨rfl, rfl, by decide, by decide⟩

/-- C18 as amended: `tSearch` returns a model exactly when the encoding is the totalizer,
the problem type is weighted and the weighted search returns that model; with any other
encoding it exits with `_ERROR_` whatever the searches would do; with the totalizer and a
problem type that is not weighted it never returns a model, and exits with `_ERROR_`
whenever the unweighted search returns. -/
theorem tSearch_outcomes (encoding problemType : Nat) (weighted unweighted : Termination) :
    (∀ m, tSearch encoding problemType weighted unweighted = Termination.returns m ↔
      encoding = _CARD_TOTALIZER_ ∧ problemType = _WEIGHTED_ ∧
        weighted = Termination.returns m) ∧
    (encoding ≠ _CARD_TOTALIZER_ →
      tSearch encoding problemType weighted unweighted = Termination.exits _ERROR_) ∧
    (encoding = _CARD_TOTALIZER_ → problemType ≠ _WEIGHTED_ →
      (∀ m, tSearch encoding problemType weighted unweighted ≠ Termination.returns m) ∧
      (∀ m, unweighted = Termination.returns m →
        tSearch encoding problemType weighted unweighted = Termination.exits _ERROR_)) := by
  unfold tSearch
  by_cases he : encoding = _CARD_TOTALIZER_
  · by_cases hp : problemType = _WEIGHTED_
    · simp [he, hp]
    · cases unweighted <;> simp [he, hp]
  · simp [he]

/-- C18 as amended, at the encoding 0 (not the totalizer) and at the totalizer with
problem type 0 (not weighted) and an unweighted search that returns. -/
theorem tSearch_outcomes_witness :
    (0 : Nat) ≠ _CARD_TOTALIZER_ ∧
    tSearch 0 _WEIGHTED_ (Termination.returns []) Termination.diverges =
      Termination.exits _ERROR_ ∧
    (0 : Nat) ≠ _WEIGHTED_ ∧
    tSearch _CARD_TOTALIZER_ 0 Termination.diverges (Termination.returns []) =
      Termination.exits _ERROR_ :=
  ⟨by decide,
   (tSearch_outcomes 0 _WEIGHTED_ (Termination.returns []) Termination.diverges).2.1
     (by decide),
   by decide,
   ((tSearch_outcomes _CARD_TOTALIZER_ 0 Termination.diverges (Termination.returns [])).2.2
     rfl (by decide)).2 [] rfl⟩

/-- C19: when the SAT backend answers UNSAT while `nbSatisfiable = 0`, the loop body of
`tWeighted` ends in an abort or in the exit with `_UNSATISFIABLE_` and the loop body of
`tUnweighted` ends in the exit with `_UNSATISFIABLE_`; neither returns or goes on,
whatever the conflict and the bounds are. -/
theorem unsat_before_sat_is_fatal (lib : Library) (s : WState) (conflict : List Lit)
    (h0 : s.nbSatisfiable = 0) :
    (tWeightedStep lib s (Answer.unsat conflict) = Result.abort ∨
      tWeightedStep lib s (Answer.unsat conflict) = Result.exitUnsatisfiable) ∧
    tUnweightedStep lib s (Answer.unsat conflict) = Result.exitUnsatisfiable ∧
    (∀ t, tWeightedStep lib s (Answer.unsat conflict) ≠ Result.ret t ∧
      tWeightedStep lib s (Answer.unsat conflict) ≠ Result.next t ∧
      tUnweightedStep lib s (Answer.unsat conflict) ≠ Result.ret t ∧
      tUnweightedStep lib s (Answer.unsat conflict) ≠ Result.next t) := by
  have hu : tUnweightedStep lib s (Answer.unsat conflict) = Result.exitUnsatisfiable := by
    simp [tUnweightedStep, unsatStepUnweighted, h0]
  have hw : tWeightedStep lib s (Answer.unsat conflict) = Result.abort ∨
      tWeightedStep lib s (Answer.unsat conflict) = Result.exitUnsatisfiable := by
    simp only [tWeightedStep, unsatStep]
    cases minCoreLoop s conflict UINT64_MAX with
    | none => exact Or.inl rfl
    | some mc => right; simp [h0]
  refine ⟨hw, hu, fun t => ?_⟩
  rw [hu]
  rcases hw with hw | hw <;> rw [hw] <;> simp

/-- C19 at the first state of the search on `formula2` with an empty conflict. -/
theorem unsat_before_sat_is_fatal_witness :
    (initState formula2).nbSatisfiable = 0 ∧
    tUnweightedStep simpleLibrary (initState formula2) (Answer.unsat []) =
      Result.exitUnsatisfiable :=
  ⟨rfl, (unsat_before_sat_is_fatal simpleLibrary (initState formula2) [] rfl).2.1⟩

/-! ## What the conflict loop leaves alone -/

theorem sameBounds_refl (s : WState) : SameBounds s s := ⟨rfl, rfl, rfl, rfl, rfl⟩

theorem sameBounds_trans {s t u : WState} (h1 : SameBounds s t) (h2 : SameBounds t u) :
    SameBounds s u := by
  obtain ⟨a1, a2, a3, a4, a5⟩ := h1
  obtain ⟨b1, b2, b3, b4, b5⟩ := h2
  exact ⟨b1.trans a1, b2.trans a2, b3.trans a3, b4.trans a4, b5.trans a5⟩

theorem raiseBound_sameBounds (lib : Library) (s t : WState) (enc k mc : Nat)
    (h : raiseBound lib s enc k mc = some t) : SameBounds s t := by
  unfold raiseBound at h
  split at h
  · simp at h
  · dsimp only at h
    split at h
    · split at h
      · simp at h
      · cases h
        exact ⟨rfl, rfl, rfl, rfl, rfl⟩
    · cases h
      exact ⟨rfl, rfl, rfl, rfl, rfl⟩

theorem relaxCard_sameBounds (lib : Library) (s : WState) (cr : List Lit) (p : Lit)
    (mc : Nat) (r : WState × List Lit) (h : relaxCard lib s cr p mc = some r) :
    SameBounds s r.1 := by
  unfold relaxCard at h
  split at h
  · cases h
    exact sameBounds_refl s
  · split at h
    · simp at h
    · split at h
      · simp at h
      · split at h
        · simp at h
        · split at h
          · dsimp only at h
            split at h
            · simp at h
            · rename_i s2 hs2
              cases h
              have h2 := raiseBound_sameBounds _ _ _ _ _ _ hs2
              exact ⟨h2.1, h2.2.1, h2.2.2.1, h2.2.2.2.1, h2.2.2.2.2⟩
          · dsimp only at h
            split at h
            · simp at h
            · split at h
              · simp at h
              · split at h
                · simp at h
                · split at h
                  · simp at h
                  · rename_i s2 hs2
                    cases h
                    have h2 := raiseBound_sameBounds _ _ _ _ _ _ hs2
                    exact ⟨h2.1, h2.2.1, h2.2.2.1, h2.2.2.2.1, h2.2.2.2.2⟩

theorem coreLoop_sameBounds (lib : Library) (mc : Nat) (ps : List Lit) (s : WState)
    (sr cr : List Lit) (r : WState × List Lit × List Lit)
    (h : coreLoop lib mc ps s sr cr = some r) : SameBounds s r.1 := by
  induction ps generalizing s sr cr with
  | nil =>
    simp only [coreLoop, Option.some.injEq] at h
    subst h
    exact sameBounds_refl s
  | cons p ps ih =>
    simp only [coreLoop] at h
    split at h
    · simp at h
    · rename_i t ht
      split at h
      · simp at h
      · rename_i q hq
        have h1 := relaxCard_sameBounds _ _ _ _ _ _ hq
        have h2 := ih _ _ _ h
        exact sameBounds_trans ⟨h1.1, h1.2.1, h1.2.2.1, h1.2.2.2.1, h1.2.2.2.2⟩ h2

theorem unitCore_fields (s : WState) (sr cr : List Lit) :
    (unitCore s sr cr).formula = s.formula ∧
    (unitCore s sr cr).coreMapping = s.coreMapping ∧
    (unitCore s sr cr).activeSoft = s.activeSoft ∧
    (unitCore s sr cr).boundMapping = s.boundMapping ∧
    (unitCore s sr cr).cardinality_assumptions = s.cardinality_assumptions ∧
    (unitCore s sr cr).soft_cardinality = s.soft_cardinality ∧
    (unitCore s sr cr).lbCost = s.lbCost ∧ (unitCore s sr cr).ubCost = s.ubCost ∧
    (unitCore s sr cr).nbSatisfiable = s.nbSatisfiable ∧
    (unitCore s sr cr).min_weight = s.min_weight ∧ (unitCore s sr cr).model = s.model := by
  unfold unitCore
  split
  · split <;> exact ⟨rfl, rfl, rfl, rfl, rfl, rfl, rfl, rfl, rfl, rfl, rfl⟩
  · exact ⟨rfl, rfl, rfl, rfl, rfl, rfl, rfl, rfl, rfl, rfl, rfl⟩

theorem harden_sameBounds (lib : Library) (s t : WState) (sr cr : List Lit) (mc : Nat)
    (h : harden lib s sr cr mc = some t) : SameBounds s t := by
  have hu := unitCore_fields s sr cr
  unfold harden at h
  dsimp only at h
  split at h
  · split at h
    · simp at h
    · cases h
      exact ⟨hu.2.2.2.2.2.2.1, hu.2.2.2.2.2.2.2.1, hu.2.2.2.2.2.2.2.2.1,
        hu.2.2.2.2.2.2.2.2.2.1, hu.2.2.2.2.2.2.2.2.2.2⟩
  · cases h
    exact ⟨hu.2.2.2.2.2.2.1, hu.2.2.2.2.2.2.2.1, hu.2.2.2.2.2.2.2.2.1,
      hu.2.2.2.2.2.2.2.2.2.1, hu.2.2.2.2.2.2.2.2.2.2⟩

theorem resetAssumptions_sameBounds (s t : WState) (h : resetAssumptions s = some t) :
    SameBounds s t := by
  unfold resetAssumptions at h
  split at h
  · simp at h
  · cases h
    exact ⟨rfl, rfl, rfl, rfl, rfl⟩

/-- What an UNSAT pass that goes on or returns does to the bounds: `min_core` is computed,
a SAT answer came before, `lbCost` grows by `min_core` in `uint64_t` arithmetic, and
`ubCost`, the SAT counter, the stratum and the saved model stay. -/
theorem unsatStep_bounds (lib : Library) (s t : WState) (conflict : List Lit)
    (h : unsatStep lib s conflict = Result.next t ∨ unsatStep lib s conflict = Result.ret t) :
    ∃ mc, minCoreLoop s conflict UINT64_MAX = some mc ∧ s.nbSatisfiable ≠ 0 ∧
      t.lbCost = u64add s.lbCost mc ∧ t.ubCost = s.ubCost ∧
      t.nbSatisfiable = s.nbSatisfiable ∧ t.min_weight = s.min_weight ∧
      t.model = s.model := by
  unfold unsatStep at h
  split at h
  · simp at h
  · rename_i mc hmc
    refine ⟨mc, hmc, ?_⟩
    dsimp only at h
    split at h
    · simp at h
    · rename_i hnb
      refine ⟨hnb, ?_⟩
      split at h
      · rcases h with h | h
        · simp at h
        · cases h
          exact ⟨rfl, rfl, rfl, rfl, rfl⟩
      · split at h
        · simp at h
        · rename_i r hr
          have h1 := coreLoop_sameBounds _ _ _ _ _ _ _ hr
          split at h
          · simp at h
          · split at h
            · simp at h
            · rename_i s3 hs3
              have h2 := harden_sameBounds _ _ _ _ _ _ hs3
              split at h
              · simp at h
              · rename_i s4 hs4
                have h3 := resetAssumptions_sameBounds _ _ hs4
                have h4 := sameBounds_trans (sameBounds_trans h1 h2) h3
                rcases h with h | h
                · cases h
                  exact ⟨h4.1, h4.2.1, h4.2.2.1, h4.2.2.2.1, h4.2.2.2.2⟩
                · simp at h

theorem u64add_lt (a b : Nat) : u64add a b < 2 ^ 64 := by
  unfold u64add
  exact Nat.mod_lt _ (by norm_num)

theorem computeCostModel_lt (f : Formula) (m : List lbool) :
    computeCostModel f m < 2 ^ 64 := by
  unfold computeCostModel
  have key : ∀ (l : List Soft) (c : Nat), c < 2 ^ 64 →
      l.foldl (fun c S => if S.clause.any (litSatisfied m) then c else u64add c S.weight) c
        < 2 ^ 64 := by
    intro l
    induction l with
    | nil => intro c hc; simpa using hc
    | cons S l ih =>
      intro c hc
      simp only [List.foldl_cons]
      split
      · exact ih c hc
      · exact ih _ (u64add_lt _ _)
  exact key f.soft 0 (by norm_num)

/-- What a SAT pass that goes on or returns does to the bounds: `lbCost` and the formula
stay, the SAT counter grows by one, and `ubCost` and the saved model are replaced by the
new cost and the new model exactly when the new cost is smaller than `ubCost` or this is
the first SAT answer. -/
theorem satStep_bounds (lib : Library) (s t : WState) (m : List lbool)
    (h : satStep lib s m = Result.next t ∨ satStep lib s m = Result.ret t) :
    t.lbCost = s.lbCost ∧ t.nbSatisfiable = s.nbSatisfiable + 1 ∧
    t.formula = s.formula ∧
    t.ubCost = (if computeCostModel s.formula m < s.ubCost ∨ s.nbSatisfiable = 0
      then computeCostModel s.formula m else s.ubCost) ∧
    t.model = (if computeCostModel s.formula m < s.ubCost ∨ s.nbSatisfiable = 0
      then m else s.model) := by
  unfold satStep at h
  dsimp only at h
  split at h
  · rename_i hnb
    have hnb0 : s.nbSatisfiable = 0 := by omega
    rcases h with h | h
    · cases h
      simp [hnb0]
    · simp at h
  · rename_i hnb
    have hnb0 : s.nbSatisfiable ≠ 0 := by omega
    split at h
    · simp at h
    · split at h
      · split at h
        · simp at h
        · rename_i s2 hs2
          unfold resetAssumptions at hs2
          dsimp only at hs2
          split at hs2
          · simp at hs2
          · cases hs2
            rcases h with h | h
            · cases h
              simp [hnb0, hnb]
            · simp at h
      · split at h
        · rcases h with h | h
          · simp at h
          · cases h
            simp [hnb0, hnb]
        · simp at h

theorem reach_ub_before_first_sat (lib : Library) (s : WState) (hr : Reach lib s)
    (h0 : s.nbSatisfiable = 0) : s.ubCost = UINT64_MAX := by
  induction hr with
  | init f => rfl
  | step s t ans _ hstep _ =>
    cases ans with
    | sat m =>
      have := (satStep_bounds lib s t m (Or.inl hstep)).2.1
      omega
    | unsat conflict =>
      obtain ⟨mc, _, hnb, _, _, hnb', _⟩ := unsatStep_bounds lib s t conflict (Or.inl hstep)
      omega

theorem reach_stateAfter (lib : Library) (answers : List Answer) (s t : WState)
    (hr : Reach lib s) (h : stateAfter (tWeightedStep lib) answers s = some t) :
    Reach lib t := by
  induction answers generalizing s with
  | nil =>
    simp only [stateAfter, Option.some.injEq] at h
    subst h
    exact hr
  | cons ans rest ih =>
    simp only [stateAfter] at h
    split at h
    · rename_i u hu
      exact ih u (Reach.step s u ans hr hu) h
    · simp at h

/-! ## Monotonicity of the bounds (C11, C12) -/

/-- C11 fails as stated: on `heavyFormula`, after a SAT answer and the cores `{3}` and
`{4}` (the assumption literals of the two soft clauses of weight `2 ^ 63`), `lbCost` is
`2 ^ 63` after the first core and 0 after the second: the `uint64_t` sum wraps. -/
theorem lbCost_can_decrease :
    (stateAfter (tWeightedStep simpleLibrary)
      [Answer.sat heavyModel, Answer.unsat [mkLit 3 false]]
      (initState heavyFormula)).map (fun s => s.lbCost) = some (2 ^ 63) ∧
    (stateAfter (tWeightedStep simpleLibrary)
      [Answer.sat heavyModel, Answer.unsat [mkLit 3 false], Answer.unsat [mkLit 4 false]]
      (initState heavyFormula)).map (fun s => s.lbCost) = some 0 := by
  decide

/-- C11 as amended: a SAT pass leaves `lbCost` as it is; an UNSAT pass that goes on or
returns replaces it by the `uint64_t` sum of `lbCost` and `min_core`, which is at least
the previous value whenever the sum `lbCost + min_core` does not exceed `UINT64_MAX`. -/
theorem lbCost_step (lib : Library) (s t : WState) (ans : Answer)
    (h : tWeightedStep lib s ans = Result.next t ∨ tWeightedStep lib s ans = Result.ret t) :
    (∀ m, ans = Answer.sat m → t.lbCost = s.lbCost) ∧
    (∀ conflict, ans = Answer.unsat conflict →
      ∃ mc, minCoreLoop s conflict UINT64_MAX = some mc ∧
        t.lbCost = u64add s.lbCost mc ∧
        (s.lbCost + mc < 2 ^ 64 → s.lbCost ≤ t.lbCost)) := by
  constructor
  · intro m hm
    subst hm
    exact (satStep_bounds lib s t m h).1
  · intro conflict hc
    subst hc
    obtain ⟨mc, hmc, _, hlb, _⟩ := unsatStep_bounds lib s t conflict h
    refine ⟨mc, hmc, hlb, fun hlt => ?_⟩
    rw [hlb, u64add, Nat.mod_eq_of_lt hlt]
    omega

/-- C11 as amended, on `heavyFormula`: the core `{3}` after the first SAT answer goes on,
`min_core` is `2 ^ 63`, and `lbCost` rises from 0 to `2 ^ 63`. -/
theorem lbCost_step_witness :
    tWeightedStep simpleLibrary heavyAfterSat (Answer.unsat [mkLit 3 false]) =
      Result.next heavyAfterCore ∧
    minCoreLoop heavyAfterSat [mkLit 3 false] UINT64_MAX = some (2 ^ 63) ∧
    heavyAfterSat.lbCost + 2 ^ 63 < 2 ^ 64 ∧
    heavyAfterCore.lbCost = u64add heavyAfterSat.lbCost (2 ^ 63) ∧
    heavyAfterSat.lbCost ≤ heavyAfterCore.lbCost := by
  have hmin : minCoreLoop heavyAfterSat [mkLit 3 false] UINT64_MAX = some (2 ^ 63) := by
    decide
  have hlt : heavyAfterSat.lbCost + 2 ^ 63 < 2 ^ 64 := by decide
  obtain ⟨mc, h1, h2, h3⟩ :=
    (lbCost_step simpleLibrary heavyAfterSat heavyAfterCore (Answer.unsat [mkLit 3 false])
      (Or.inl rfl)).2 [mkLit 3 false] rfl
  have hmc : mc = 2 ^ 63 := by
    rw [hmin] at h1
    exact (Option.some.inj h1).symm
  subst hmc
  exact ⟨rfl, hmin, hlt, h2, h3 hlt⟩

/-- C12: in every state the search reaches, a pass that goes on or returns never raises
`ubCost`; an UNSAT pass leaves it as it is, and a SAT pass after the first SAT answer
replaces it by the new model cost exactly when that cost is smaller than `ubCost`. -/
theorem ubCost_never_increases (lib : Library) (s t : WState) (ans : Answer)
    (hr : Reach lib s)
    (h : tWeightedStep lib s ans = Result.next t ∨ tWeightedStep lib s ans = Result.ret t) :
    t.ubCost ≤ s.ubCost ∧
    (∀ conflict, ans = Answer.unsat conflict → t.ubCost = s.ubCost) ∧
    (∀ m, ans = Answer.sat m → 1 ≤ s.nbSatisfiable →
      t.ubCost = (if computeCostModel s.formula m < s.ubCost
        then computeCostModel s.formula m else s.ubCost)) := by
  cases ans with
  | unsat conflict =>
    obtain ⟨mc, _, _, _, hub, _⟩ := unsatStep_bounds lib s t conflict h
    refine ⟨by omega, fun _ _ => hub, fun m hm => by cases hm⟩
  | sat m =>
    obtain ⟨_, _, _, hub, _⟩ := satStep_bounds lib s t m h
    refine ⟨?_, fun c hc => (by cases hc), fun m2 hm hnb => ?_⟩
    · rw [hub]
      split
      · rename_i hc
        rcases hc with hc | hc
        · omega
        · have := reach_ub_before_first_sat lib s hr hc
          have := computeCostModel_lt s.formula m
          unfold UINT64_MAX at *
          omega
      · exact Nat.le_refl _
    · cases hm
      rw [hub]
      have hne : ¬ s.nbSatisfiable = 0 := by omega
      simp [hne]

/-! ## The value of `min_core` (C14) -/

theorem foldl_min_le_init (ws : List Nat) (acc : Nat) : ws.foldl min acc ≤ acc := by
  induction ws generalizing acc with
  | nil => simp
  | cons w ws ih =>
    simp only [List.foldl_cons]
    exact Nat.le_trans (ih _) (Nat.min_le_left _ _)

theorem foldl_min_le_mem (ws : List Nat) (acc : Nat) (w : Nat) (hw : w ∈ ws) :
    ws.foldl min acc ≤ w := by
  induction ws generalizing acc with
  | nil => simp at hw
  | cons x ws ih =>
    simp only [List.foldl_cons]
    rcases List.mem_cons.mp hw with h | h
    · subst h
      exact Nat.le_trans (foldl_min_le_init _ _) (Nat.min_le_right _ _)
    · exact ih _ h

theorem foldl_min_mem (ws : List Nat) (acc : Nat) :
    ws.foldl min acc = acc ∨ ws.foldl min acc ∈ ws := by
  induction ws generalizing acc with
  | nil => simp
  | cons x ws ih =>
    simp only [List.foldl_cons]
    rcases ih (min acc x) with h | h
    · rw [h]
      rcases Nat.le_total acc x with hle | hle
      · left; exact Nat.min_eq_left hle
      · right; rw [Nat.min_eq_right hle]; exact List.mem_cons_self _ _
    · right; exact List.mem_cons_of_mem _ h

theorem minCoreLoop_eq_foldl (s : WState) (ps : List Lit) (acc mc : Nat)
    (h : minCoreLoop s ps acc = some mc) :
    mc = (registeredWeights s ps).foldl min acc := by
  induction ps generalizing acc with
  | nil =>
    simp only [minCoreLoop, Option.some.injEq] at h
    simp [registeredWeights, h]
  | cons p ps ih =>
    simp only [minCoreLoop] at h
    simp only [registeredWeights, List.foldl_append]
    cases hc : s.coreMapping p with
    | none =>
      simp only [hc] at h
      cases hb : s.boundMapping p with
      | none =>
        simp only [hb] at h
        simpa using ih _ h
      | some soft_id =>
        simp only [hb] at h
        rw [ih _ h]
        congr 1
        simp only [List.foldl_nil, List.foldl_cons, Nat.min_def]
        split <;> split <;> omega
    | some idx =>
      simp only [hc] at h
      split at h
      · simp at h
      · rename_i m1 hm1
        split at hm1
        · simp at hm1
        · split at hm1
          · simp at hm1
          · rename_i S hS
            have hm1' : m1 = if acc ≤ S.weight then acc else S.weight := by
              split at hm1 <;> simp only [Option.some.injEq] at hm1 <;> split <;> omega
            cases hb : s.boundMapping p with
            | none =>
              simp only [hb] at h
              rw [ih _ h, hm1']
              simp [Nat.min_def]
            | some soft_id =>
              simp only [hb] at h
              rw [ih _ h, hm1']
              congr 1
              simp only [List.foldl_nil, List.foldl_cons, Nat.min_def]
              split <;> split <;> split <;> omega

theorem registeredWeights_ne_nil (s : WState) (ps : List Lit) (acc mc : Nat)
    (h : minCoreLoop s ps acc = some mc)
    (hreg : ∃ p ∈ ps, s.coreMapping p ≠ none ∨ s.boundMapping p ≠ none) :
    registeredWeights s ps ≠ [] := by
  induction ps generalizing acc with
  | nil => simp at hreg
  | cons p ps ih =>
    simp only [minCoreLoop] at h
    simp only [registeredWeights]
    split at h
    · simp at h
    · rename_i m1 hm1
      obtain ⟨q, hq, hqreg⟩ := hreg
      rcases List.mem_cons.mp hq with hqp | hqps
      · subst hqp
        rcases hqreg with hk | hk
        · cases hc : s.coreMapping q with
          | none => exact absurd hc hk
          | some idx =>
            simp only [hc] at hm1
            split at hm1
            · simp at hm1
            · split at hm1
              · simp at hm1
              · rename_i S hS
                simp [hS]
        · cases hb : s.boundMapping q with
          | none => exact absurd hb hk
          | some soft_id => simp
      · have := ih _ h ⟨q, hqps, hqreg⟩
        simp [this]

/-- C14: in an UNSAT pass that goes on or returns, when the conflict holds a literal
registered in `coreMapping` or `boundMapping` (and the registered weights are `uint64_t`
values), `min_core` is the minimum of the weights of the soft clauses whose assumption
literal is in the conflict and of the bound weights of the cardinality literals in the
conflict, and `lbCost` becomes the `uint64_t` sum of its old value and `min_core`, which
is the exact sum when that does not exceed `UINT64_MAX`. -/
theorem min_core_is_minimum (lib : Library) (s t : WState) (conflict : List Lit)
    (hstep : tWeightedStep lib s (Answer.unsat conflict) = Result.next t ∨
      tWeightedStep lib s (Answer.unsat conflict) = Result.ret t)
    (hreg : ∃ p ∈ conflict, s.coreMapping p ≠ none ∨ s.boundMapping p ≠ none)
    (hW : ∀ w ∈ registeredWeights s conflict, w < 2 ^ 64) :
    ∃ mc, minCoreLoop s conflict UINT64_MAX = some mc ∧
      mc ∈ registeredWeights s conflict ∧
      (∀ w ∈ registeredWeights s conflict, mc ≤ w) ∧
      t.lbCost = u64add s.lbCost mc ∧
      (s.lbCost + mc < 2 ^ 64 → t.lbCost = s.lbCost + mc) := by
  obtain ⟨mc, hmc, _, hlb, _⟩ := unsatStep_bounds lib s t conflict hstep
  have hfold := minCoreLoop_eq_foldl s conflict UINT64_MAX mc hmc
  have hne := registeredWeights_ne_nil s conflict UINT64_MAX mc hmc hreg
  have hle : ∀ w ∈ registeredWeights s conflict, mc ≤ w := by
    intro w hw
    rw [hfold]
    exact foldl_min_le_mem _ _ w hw
  refine ⟨mc, hmc, ?_, hle, hlb, fun hlt => ?_⟩
  · rcases foldl_min_mem (registeredWeights s conflict) UINT64_MAX with h | h
    · obtain ⟨w, hw⟩ := List.exists_mem_of_ne_nil _ hne
      have h1 := hle w hw
      have h2 := hW w hw
      rw [hfold, h] at h1
      have hwe : w = mc := by
        rw [hfold, h]
        unfold UINT64_MAX at *
        omega
      rw [← hwe]
      exact hw
    · rw [hfold]
      exact h
  · rw [hlb, u64add, Nat.mod_eq_of_lt hlt]

/-- C14 on `heavyFormula` after the first SAT answer, with the conflict `{3}`: literal 3
is the `coreMapping` key of soft clause 0, and `min_core` is `2 ^ 63`, its weight. -/
theorem min_core_is_minimum_witness :
    tWeightedStep simpleLibrary heavyAfterSat (Answer.unsat [mkLit 3 false]) =
      Result.next heavyAfterCore ∧
    heavyAfterSat.coreMapping (mkLit 3 false) = some 0 ∧
    registeredWeights heavyAfterSat [mkLit 3 false] = [2 ^ 63] ∧
    ∃ mc, minCoreLoop heavyAfterSat [mkLit 3 false] UINT64_MAX = some mc ∧
      mc ∈ registeredWeights heavyAfterSat [mkLit 3 false] ∧
      (∀ w ∈ registeredWeights heavyAfterSat [mkLit 3 false], mc ≤ w) ∧
      heavyAfterCore.lbCost = u64add heavyAfterSat.lbCost mc ∧
      (heavyAfterSat.lbCost + mc < 2 ^ 64 →
        heavyAfterCore.lbCost = heavyAfterSat.lbCost + mc) := by
  have hkey : heavyAfterSat.coreMapping (mkLit 3 false) = some 0 := by decide
  have hws : registeredWeights heavyAfterSat [mkLit 3 false] = [2 ^ 63] := by decide
  refine ⟨rfl, hkey, hws, ?_⟩
  refine min_core_is_minimum simpleLibrary heavyAfterSat heavyAfterCore [mkLit 3 false]
    (Or.inl rfl) ⟨mkLit 3 false, List.mem_singleton.mpr rfl, Or.inl ?_⟩ ?_
  · rw [hkey]
    exact Option.some_ne_none 0
  · intro w hw
    rw [hws, List.mem_singleton] at hw
    subst hw
    norm_num

/-- C12 on `heavyFormula`: the state after the first SAT answer is reached, and the core
`{3}` leaves `ubCost` at 7. -/
theorem ubCost_never_increases_witness :
    Reach simpleLibrary heavyAfterSat ∧
    tWeightedStep simpleLibrary heavyAfterSat (Answer.unsat [mkLit 3 false]) =
      Result.next heavyAfterCore ∧
    heavyAfterSat.ubCost = 7 ∧ heavyAfterCore.ubCost ≤ heavyAfterSat.ubCost ∧
    heavyAfterCore.ubCost = heavyAfterSat.ubCost := by
  have hr : Reach simpleLibrary heavyAfterSat :=
    Reach.step (initState heavyFormula) heavyAfterSat (Answer.sat heavyModel)
      (Reach.init heavyFormula) rfl
  have h := ubCost_never_increases simpleLibrary heavyAfterSat heavyAfterCore
    (Answer.unsat [mkLit 3 false]) hr (Or.inl rfl)
  exact ⟨hr, rfl, by decide, h.1, h.2.1 _ rfl⟩

/-! ## What the cardinality part leaves alone -/

theorem sameSoft_refl (s : WState) : SameSoft s s := ⟨rfl, rfl, rfl⟩

theorem sameSoft_trans {s t u : WState} (h1 : SameSoft s t) (h2 : SameSoft t u) :
    SameSoft s u := by
  obtain ⟨a1, a2, a3⟩ := h1
  obtain ⟨b1, b2, b3⟩ := h2
  exact ⟨b1.trans a1, b2.trans a2, b3.trans a3⟩

theorem raiseBound_sameSoft (lib : Library) (s t : WState) (enc k mc : Nat)
    (h : raiseBound lib s enc k mc = some t) : SameSoft s t := by
  unfold raiseBound at h
  split at h
  · simp at h
  · dsimp only at h
    split at h
    · split at h
      · simp at h
      · cases h
        exact ⟨rfl, rfl, rfl⟩
    · cases h
      exact ⟨rfl, rfl, rfl⟩

theorem relaxCard_sameSoft (lib : Library) (s : WState) (cr : List Lit) (p : Lit)
    (mc : Nat) (r : WState × List Lit) (h : relaxCard lib s cr p mc = some r) :
    SameSoft s r.1 := by
  unfold relaxCard at h
  split at h
  · cases h
    exact sameSoft_refl s
  · split at h
    · simp at h
    · split at h
      · simp at h
      · split at h
        · simp at h
        · split at h
          · dsimp only at h
            split at h
            · simp at h
            · rename_i s2 hs2
              cases h
              have h2 := raiseBound_sameSoft _ _ _ _ _ _ hs2
              exact ⟨h2.1, h2.2.1, h2.2.2⟩
          · dsimp only at h
            split at h
            · simp at h
            · split at h
              · simp at h
              · split at h
                · simp at h
                · split at h
                  · simp at h
                  · rename_i s2 hs2
                    cases h
                    have h2 := raiseBound_sameSoft _ _ _ _ _ _ hs2
                    exact ⟨h2.1, h2.2.1, h2.2.2⟩

theorem harden_sameSoft (lib : Library) (s t : WState) (sr cr : List Lit) (mc : Nat)
    (h : harden lib s sr cr mc = some t) : SameSoft s t := by
  have hu := unitCore_fields s sr cr
  unfold harden at h
  dsimp only at h
  split at h
  · split at h
    · simp at h
    · cases h
      exact ⟨hu.1, hu.2.1, hu.2.2.1⟩
  · cases h
    exact ⟨hu.1, hu.2.1, hu.2.2.1⟩

theorem resetAssumptions_sameSoft (s t : WState) (h : resetAssumptions s = some t) :
    SameSoft s t := by
  unfold resetAssumptions at h
  split at h
  · simp at h
  · cases h
    exact ⟨rfl, rfl, rfl⟩

theorem syncVars_hard (k : Nat) (f : Formula) (n : Nat) : (syncVars k f n).hard = f.hard := by
  induction k generalizing f with
  | zero => simp [syncVars]
  | succ k ih =>
    simp only [syncVars]
    split
    · rw [ih]; simp [Formula.newLiteral, Formula.newVar]
    · rfl

theorem syncVars_nVars_ge (k : Nat) (f : Formula) (n : Nat) :
    f.nVars ≤ (syncVars k f n).nVars := by
  induction k generalizing f with
  | zero => simp [syncVars]
  | succ k ih =>
    simp only [syncVars]
    split
    · have := ih f.newLiteral.2
      have e : f.newLiteral.2.nVars = f.nVars + 1 := rfl
      omega
    · exact Nat.le_refl _

/-- The split branch in closed form: with `n` the variable count of the formula after the
synchronisation with the SAT solver, the fresh literal is the positive literal of `n`. -/
theorem splitClause_spec (s t : SoftState) (idx : Nat) (S : Soft) (mc : Nat)
    (hS : s.formula.soft[idx]? = some S)
    (h : splitClause s idx S mc = some t) :
    ∃ n, s.formula.nVars ≤ n ∧ t.formula.nVars = n + 1 ∧
      t.formula.hard = s.formula.hard ∧
      t.formula.soft =
        s.formula.soft.set idx { S with weight := u64sub S.weight mc } ++
          [{ clause := S.clause, weight := mc, assumption_var := some (mkLit n false),
             relaxation_vars := [mkLit n false] }] ∧
      t.coreMapping = mapInsert s.coreMapping (mkLit n false) s.formula.soft.length ∧
      t.activeSoft = s.activeSoft ++ [true] ∧
      t.soft_relax = s.soft_relax ++ [mkLit n false] ∧
      s.activeSoft[idx]? = some false ∧
      s.activeSoft.length = s.formula.soft.length := by
  unfold splitClause at h
  split at h
  · simp at h
  · rename_i hact
    split at h
    · simp at h
    · dsimp only at h
      generalize hg : syncVars _ _ _ = g at h
      have hgs : g.soft = s.formula.soft.set idx { S with weight := u64sub S.weight mc } := by
        rw [← hg, syncVars_soft]
        simp [Formula.setWeight, modify_eq_set_of_getElem? _ _ _ _ hS]
      have hgh : g.hard = s.formula.hard := by
        rw [← hg, syncVars_hard]
        simp [Formula.setWeight]
      have hgn : s.formula.nVars ≤ g.nVars := by
        rw [← hg]
        exact syncVars_nVars_ge _ (s.formula.setWeight idx (u64sub S.weight mc)) _
      simp only [Formula.newLiteral, Formula.newVar, Formula.addSoftClauseVars,
        Formula.setAssumption, hgs, modify_last, getElem?_last] at h
      split at h
      · simp at h
      · split at h
        · simp at h
        · split at h
          · simp at h
          · split at h
            · simp at h
            · split at h
              · simp at h
              · rename_i hlen
                cases h
                refine ⟨g.nVars, hgn, rfl, hgh, rfl, ?_, rfl, rfl, ?_, ?_⟩
                · funext k
                  simp [mapInsert]
                · simpa using hact
                · simpa using hlen

theorem relaxSoft_cases (s t : SoftState) (p : Lit) (mc : Nat)
    (h : relaxSoft s p mc = some t) :
    (s.coreMapping p = none ∧ t = s) ∨
    (∃ idx S, s.coreMapping p = some idx ∧ s.formula.soft[idx]? = some S ∧
      mc < S.weight ∧ splitClause s idx S mc = some t) ∨
    (∃ idx S, s.coreMapping p = some idx ∧ s.formula.soft[idx]? = some S ∧
      S.weight = mc ∧ s.activeSoft[idx]? = some false ∧
      t = { s with soft_relax := s.soft_relax ++ [p],
                   activeSoft := s.activeSoft.set idx true }) := by
  unfold relaxSoft at h
  split at h
  · rename_i hc
    cases h
    exact Or.inl ⟨hc, rfl⟩
  · rename_i idx hc
    split at h
    · simp at h
    · rename_i S hS
      split at h
      · rename_i hw
        exact Or.inr (Or.inl ⟨idx, S, hc, hS, hw, h⟩)
      · unfold keepClause at h
        split at h
        · simp at h
        · rename_i hw
          split at h
          · simp at h
          · rename_i hact
            cases h
            refine Or.inr (Or.inr ⟨idx, S, hc, hS, ?_, ?_, rfl⟩)
            · simpa using hw
            · simpa using hact

/-- CoreInv holds after the split branch. -/
theorem coreInv_split (f : Formula) (cm : Lit → Option Nat) (idx : Nat) (S : Soft)
    (w mc n : Nat) (hS : f.soft[idx]? = some S) (hn : f.nVars ≤ n) (h : CoreInv f cm) :
    CoreInv
      { nVars := n + 1, hard := f.hard,
        soft := f.soft.set idx { S with weight := w } ++
          [{ clause := S.clause, weight := mc, assumption_var := some (mkLit n false),
             relaxation_vars := [mkLit n false] }] }
      (mapInsert cm (mkLit n false) f.soft.length) := by
  obtain ⟨ha, hb⟩ := h
  have hidx : idx < f.soft.length := by
    by_contra hc
    rw [List.getElem?_eq_none (by omega)] at hS
    exact absurd hS (by simp)
  constructor
  · intro i T hT
    dsimp only at hT ⊢
    by_cases hi : i < f.soft.length
    · rw [List.getElem?_append_left (by simpa using hi)] at hT
      by_cases hii : idx = i
      · subst hii
        simp only [List.getElem?_set, hidx, if_true, Option.some.injEq] at hT
        subst hT
        obtain ⟨a, h1, h2, h3⟩ := ha idx S hS
        refine ⟨a, h1, by omega, ?_⟩
        have hne : a ≠ mkLit n false := by
          intro e
          rw [e] at h2
          simp [mkLit] at h2
          omega
        simp [mapInsert, hne, h3]
      · simp only [List.getElem?_set, hii, if_false] at hT
        obtain ⟨a, h1, h2, h3⟩ := ha i T hT
        refine ⟨a, h1, by omega, ?_⟩
        have hne : a ≠ mkLit n false := by
          intro e
          rw [e] at h2
          simp [mkLit] at h2
          omega
        simp [mapInsert, hne, h3]
    · have hlen : (f.soft.set idx { S with weight := w }).length ≤ i := by simpa using hi
      rw [List.getElem?_append_right hlen] at hT
      generalize hj : i - (f.soft.set idx { S with weight := w }).length = j at hT
      cases j with
      | zero =>
        simp only [List.getElem?_cons_zero, Option.some.injEq] at hT
        subst hT
        have hieq : i = f.soft.length := by
          simp at hj hlen
          omega
        exact ⟨mkLit n false, rfl, by simp [mkLit], by simp [mapInsert, hieq]⟩
      | succ j => simp at hT
  · intro k i hk
    dsimp only
    by_cases hkl : k = mkLit n false
    · subst hkl
      simp only [mapInsert, if_true, Option.some.injEq] at hk
      subst hk
      refine ⟨Soft.mk S.clause mc (some (mkLit n false)) [mkLit n false], ?_, rfl⟩
      rw [List.getElem?_append_right (by simp)]
      simp
    · simp only [mapInsert, hkl, if_false] at hk
      obtain ⟨T, h1, h2⟩ := hb k i hk
      have hi : i < f.soft.length := by
        by_contra hc
        rw [List.getElem?_eq_none (by omega)] at h1
        exact absurd h1 (by simp)
      by_cases hii : idx = i
      · subst hii
        rw [hS] at h1
        cases h1
        refine ⟨{ S with weight := w }, ?_, h2⟩
        rw [List.getElem?_append_left (by simpa using hi)]
        simp [List.getElem?_set, hidx]
      · refine ⟨T, ?_, h2⟩
        rw [List.getElem?_append_left (by simpa using hi)]
        simp [List.getElem?_set, hii, h1]

theorem relaxSoft_coreInv (s t : SoftState) (p : Lit) (mc : Nat)
    (h : relaxSoft s p mc = some t) (hinv : CoreInv s.formula s.coreMapping) :
    CoreInv t.formula t.coreMapping := by
  rcases relaxSoft_cases s t p mc h with ⟨_, rfl⟩ | ⟨idx, S, _, hS, _, hsplit⟩ |
    ⟨idx, S, _, _, _, _, rfl⟩
  · exact hinv
  · obtain ⟨n, hn, h1, h2, h3, h4, _⟩ := splitClause_spec s t idx S mc hS hsplit
    have := coreInv_split s.formula s.coreMapping idx S (u64sub S.weight mc) mc n hS hn hinv
    have ef : t.formula = Formula.mk (n + 1) s.formula.hard
        (s.formula.soft.set idx { S with weight := u64sub S.weight mc } ++
          [Soft.mk S.clause mc (some (mkLit n false)) [mkLit n false]]) := by
      cases hf : t.formula
      simp only [hf] at h1 h2 h3
      simp [h1, h2, h3]
    rw [ef, h4]
    exact this
  · exact hinv

theorem unsatStep_next (lib : Library) (s t : WState) (conflict : List Lit)
    (h : unsatStep lib s conflict = Result.next t) :
    ∃ mc r s3, minCoreLoop s conflict UINT64_MAX = some mc ∧ s.nbSatisfiable ≠ 0 ∧
      coreLoop lib mc conflict (afterMinCore s mc conflict.length) [] [] = some r ∧
      harden lib r.1 r.2.1 r.2.2 mc = some s3 ∧ resetAssumptions s3 = some t := by
  unfold unsatStep at h
  split at h
  · simp at h
  · rename_i mc hmc
    dsimp only at h
    split at h
    · simp at h
    · rename_i hnb
      split at h
      · simp at h
      · split at h
        · simp at h
        · rename_i r hr
          split at h
          · simp at h
          · split at h
            · simp at h
            · rename_i s3 hs3
              split at h
              · simp at h
              · rename_i s4 hs4
                cases h
                exact ⟨mc, r, s3, hmc, hnb, hr, hs3, hs4⟩

theorem satStep_next (lib : Library) (s t : WState) (m : List lbool)
    (h : satStep lib s m = Result.next t) :
    t.formula = s.formula ∧ t.coreMapping = s.coreMapping ∧ t.activeSoft = s.activeSoft ∧
    t.boundMapping = s.boundMapping ∧
    t.cardinality_assumptions = s.cardinality_assumptions ∧
    t.soft_cardinality = s.soft_cardinality ∧ t.solver = s.solver ∧
    t.nbSatisfiable = s.nbSatisfiable + 1 ∧
    t.min_weight = lib.findNextWeightDiversity s.min_weight s.cardinality_assumptions
      s.formula s.boundMapping ∧
    ((s.nbSatisfiable = 0 ∧
        t.assumptions = s.assumptions ++ firstAssumptions t.min_weight s.formula.soft) ∨
     (s.nbSatisfiable ≠ 0 ∧
        ∃ ca, cardAssumptions s.boundMapping t.min_weight s.cardinality_assumptions = some ca ∧
          t.assumptions = softAssumptions t.min_weight s.formula.soft s.activeSoft ++ ca)) := by
  unfold satStep at h
  dsimp only at h
  split at h
  · rename_i hnb
    cases h
    have hnb0 : s.nbSatisfiable = 0 := by omega
    exact ⟨rfl, rfl, rfl, rfl, rfl, rfl, rfl, rfl, rfl, Or.inl ⟨hnb0, rfl⟩⟩
  · rename_i hnb
    have hnb0 : s.nbSatisfiable ≠ 0 := by omega
    split at h
    · simp at h
    · split at h
      · split at h
        · simp at h
        · rename_i s2 hs2
          unfold resetAssumptions at hs2
          dsimp only at hs2
          split at hs2
          · simp at hs2
          · rename_i ca hca
            cases hs2
            cases h
            exact ⟨rfl, rfl, rfl, rfl, rfl, rfl, rfl, rfl, rfl, Or.inr ⟨hnb0, ca, hca, rfl⟩⟩
      · split at h <;> simp at h

theorem coreLoop_invariant (lib : Library) (I : WState → Prop)
    (hsoft : ∀ (s : WState) (sr : List Lit) (p : Lit) (mc : Nat) (t : SoftState),
      relaxSoft (s.toSoftState sr) p mc = some t → I s → I (s.withSoftState t))
    (hcard : ∀ (s : WState) (cr : List Lit) (p : Lit) (mc : Nat) (r : WState × List Lit),
      relaxCard lib s cr p mc = some r → I s → I r.1)
    (mc : Nat) (ps : List Lit) (s : WState) (sr cr : List Lit)
    (r : WState × List Lit × List Lit)
    (h : coreLoop lib mc ps s sr cr = some r) (hI : I s) : I r.1 := by
  induction ps generalizing s sr cr with
  | nil =>
    simp only [coreLoop, Option.some.injEq] at h
    subst h
    exact hI
  | cons p ps ih =>
    simp only [coreLoop] at h
    split at h
    · simp at h
    · rename_i t ht
      split at h
      · simp at h
      · rename_i q hq
        exact ih _ _ _ h (hcard _ _ _ _ _ hq (hsoft _ _ _ _ _ ht hI))

theorem reach_nbSat_pos_of_step (lib : Library) (s t : WState) (ans : Answer)
    (h : tWeightedStep lib s ans = Result.next t) : t.nbSatisfiable ≠ 0 := by
  cases ans with
  | sat m =>
    have := (satStep_bounds lib s t m (Or.inl h)).2.1
    omega
  | unsat conflict =>
    obtain ⟨mc, _, hnb, _, _, hnb2, _⟩ := unsatStep_bounds lib s t conflict (Or.inl h)
    omega

theorem relaxFrom_length (n : Nat) (l : List Soft) : (relaxFrom n l).length = l.length := by
  induction l generalizing n with
  | nil => rfl
  | cons S rest ih => simp [relaxFrom, ih]

theorem relaxFrom_getElem? (n : Nat) (l : List Soft) (j : Nat) (T : Soft)
    (h : (relaxFrom n l)[j]? = some T) : T.assumption_var = some (mkLit (n + j) false) := by
  induction l generalizing n j with
  | nil => simp [relaxFrom] at h
  | cons S rest ih =>
    cases j with
    | zero =>
      simp only [relaxFrom, List.getElem?_cons_zero, Option.some.injEq] at h
      subst h
      rfl
    | succ j =>
      simp only [relaxFrom, List.getElem?_cons_succ] at h
      have := ih (n + 1) j h
      rw [this]
      congr 2
      omega

theorem initCoreMapping_relaxFrom (l : List Soft) (n i : Nat) (m : Lit → Option Nat)
    (k : Lit) :
    initCoreMapping (relaxFrom n l) i m k =
      if n ≤ k.var ∧ k.var < n + l.length ∧ k.sign = false then some (i + (k.var - n))
      else m k := by
  induction l generalizing n i m with
  | nil =>
    simp only [relaxFrom, initCoreMapping, List.length_nil]
    split
    · omega
    · rfl
  | cons S rest ih =>
    simp only [relaxFrom, initCoreMapping, List.length_cons]
    rw [ih]
    by_cases hk : k = mkLit n false
    · subst hk
      simp [mapInsert, mkLit]
    · have hne : ¬ (k.var = n ∧ k.sign = false) := by
        intro ⟨h1, h2⟩
        apply hk
        cases k
        simp only [mkLit] at *
        simp [h1, h2]
      simp only [mapInsert, hk, if_false]
      by_cases hs : k.sign = false
      · have hv : k.var ≠ n := fun e => hne ⟨e, hs⟩
        by_cases h1 : n + 1 ≤ k.var ∧ k.var < n + 1 + rest.length
        · have h2 : n ≤ k.var ∧ k.var < n + (rest.length + 1) := by omega
          simp only [h1, h2, hs, and_self, if_true, Option.some.injEq]
          omega
        · have h2 : ¬ (n ≤ k.var ∧ k.var < n + (rest.length + 1)) := by omega
          have h1' : ¬ (n + 1 ≤ k.var ∧ k.var < n + 1 + rest.length ∧ k.sign = false) :=
            fun h => h1 ⟨h.1, h.2.1⟩
          have h2' : ¬ (n ≤ k.var ∧ k.var < n + (rest.length + 1) ∧ k.sign = false) :=
            fun h => h2 ⟨h.1, h.2.1⟩
          simp only [h1', h2', if_false]
      · have h1' : ¬ (n + 1 ≤ k.var ∧ k.var < n + 1 + rest.length ∧ k.sign = false) :=
          fun h => hs h.2.2
        have h2' : ¬ (n ≤ k.var ∧ k.var < n + (rest.length + 1) ∧ k.sign = false) :=
          fun h => hs h.2.2
        simp only [h1', h2', if_false]

theorem initState_coreInv (f : Formula) :
    CoreInv (initState f).formula (initState f).coreMapping := by
  have hf : (initState f).formula = initRelaxation f := rfl
  have hc : (initState f).coreMapping =
      initCoreMapping (relaxFrom f.nVars f.soft) 0 (fun _ => none) := rfl
  rw [hf, hc]
  constructor
  · intro i S hS
    have hlt : i < f.soft.length := by
      by_contra hcon
      have : (initRelaxation f).soft[i]? = none := by
        apply List.getElem?_eq_none
        simp only [initRelaxation, relaxFrom_length]
        omega
      rw [this] at hS
      exact absurd hS (by simp)
    have ha := relaxFrom_getElem? f.nVars f.soft i S hS
    refine ⟨mkLit (f.nVars + i) false, ha, ?_, ?_⟩
    · simp only [initRelaxation, mkLit]
      omega
    · rw [initCoreMapping_relaxFrom]
      simp only [mkLit]
      have : f.nVars ≤ f.nVars + i ∧ f.nVars + i < f.nVars + f.soft.length ∧ false = false :=
        ⟨by omega, by omega, rfl⟩
      simp only [this, and_self, if_true, Option.some.injEq]
      omega
  · intro k i hk
    rw [initCoreMapping_relaxFrom] at hk
    split at hk
    · rename_i hcond
      simp only [Option.some.injEq] at hk
      have hi : i < (relaxFrom f.nVars f.soft).length := by
        rw [relaxFrom_length]
        omega
      have hex : (initRelaxation f).soft[i]? = some ((relaxFrom f.nVars f.soft)[i]) := by
        simp only [initRelaxation]
        exact List.getElem?_eq_getElem hi
      refine ⟨_, hex, ?_⟩
      rw [relaxFrom_getElem? f.nVars f.soft i _ hex]
      congr 1
      cases k
      simp only [mkLit] at *
      obtain ⟨h1, h2, h3⟩ := hcond
      simp only [Lit.mk.injEq]
      exact ⟨by omega, h3.symm⟩
    · simp at hk

theorem afterMinCore_sameSoft (s : WState) (mc n : Nat) : SameSoft s (afterMinCore s mc n) :=
  ⟨rfl, rfl, rfl⟩

theorem unsatStep_coreInv (lib : Library) (s t : WState) (conflict : List Lit)
    (h : unsatStep lib s conflict = Result.next t)
    (hinv : CoreInv s.formula s.coreMapping) : CoreInv t.formula t.coreMapping := by
  obtain ⟨mc, r, s3, _, _, hloop, hhard, hreset⟩ := unsatStep_next lib s t conflict h
  have h1 : CoreInv r.1.formula r.1.coreMapping :=
    coreLoop_invariant lib (fun u => CoreInv u.formula u.coreMapping)
      (fun u sr p mc t ht hI => relaxSoft_coreInv (u.toSoftState sr) t p mc ht hI)
      (fun u cr p mc q hq hI => by
        have hs := relaxCard_sameSoft lib u cr p mc q hq
        show CoreInv q.1.formula q.1.coreMapping
        rw [hs.1, hs.2.1]
        exact hI)
      mc conflict _ [] [] r hloop hinv
  have h2 := harden_sameSoft lib r.1 s3 r.2.1 r.2.2 mc hhard
  have h3 := resetAssumptions_sameSoft s3 t hreset
  rw [h3.1, h3.2.1, h2.1, h2.2.1]
  exact h1

theorem reach_coreInv (lib : Library) (s : WState) (hr : Reach lib s) :
    CoreInv s.formula s.coreMapping := by
  induction hr with
  | init f => exact initState_coreInv f
  | step s t ans _ hstep ih =>
    cases ans with
    | sat m =>
      have h := satStep_next lib s t m hstep
      rw [h.1, h.2.1]
      exact ih
    | unsat conflict => exact unsatStep_coreInv lib s t conflict hstep ih

/-- C17: in every state the search reaches, every soft clause has an assumption literal
that `coreMapping` sends to the index of the clause, and every key of `coreMapping` is
the assumption literal of the soft clause at its value, so `coreMapping` is a bijection
between its keys and the soft-clause indices.  The soft-clause block keeps this, and
when it splits, the fresh literal `l` was no key before and is sent to the new last
index. -/
theorem coreMapping_bijection (lib : Library) (s : WState) (hr : Reach lib s) :
    (∀ i, i < s.formula.soft.length →
      ∃ S a, s.formula.soft[i]? = some S ∧ S.assumption_var = some a ∧
        s.coreMapping a = some i) ∧
    (∀ k i, s.coreMapping k = some i →
      i < s.formula.soft.length ∧
        ∃ S, s.formula.soft[i]? = some S ∧ S.assumption_var = some k) ∧
    (∀ k1 k2 i, s.coreMapping k1 = some i → s.coreMapping k2 = some i → k1 = k2) ∧
    (∀ (u t : SoftState) (p : Lit) (mc : Nat),
      CoreInv u.formula u.coreMapping → relaxSoft u p mc = some t →
      CoreInv t.formula t.coreMapping ∧
      (∀ idx S, u.coreMapping p = some idx → u.formula.soft[idx]? = some S →
        mc < S.weight →
        ∃ l, u.coreMapping l = none ∧ t.coreMapping l = some u.formula.soft.length ∧
          t.formula.soft.length = u.formula.soft.length + 1 ∧
          t.soft_relax = u.soft_relax ++ [l])) := by
  have hinv := reach_coreInv lib s hr
  obtain ⟨ha, hb⟩ := hinv
  refine ⟨?_, ?_, ?_, ?_⟩
  · intro i hi
    obtain ⟨a, h1, _, h3⟩ := ha i _ (List.getElem?_eq_getElem hi)
    exact ⟨_, a, List.getElem?_eq_getElem hi, h1, h3⟩
  · intro k i hk
    obtain ⟨S, h1, h2⟩ := hb k i hk
    refine ⟨?_, S, h1, h2⟩
    by_contra hc
    rw [List.getElem?_eq_none (by omega)] at h1
    exact absurd h1 (by simp)
  · intro k1 k2 i h1 h2
    obtain ⟨S1, e1, a1⟩ := hb k1 i h1
    obtain ⟨S2, e2, a2⟩ := hb k2 i h2
    rw [e1] at e2
    cases e2
    rw [a1] at a2
    exact Option.some.inj a2
  · intro u t p mc hu hrel
    refine ⟨relaxSoft_coreInv u t p mc hrel hu, ?_⟩
    intro idx S hc hS hw
    rcases relaxSoft_cases u t p mc hrel with ⟨hnone, _⟩ | ⟨idx2, S2, hc2, hS2, _, hsplit⟩ |
      ⟨idx2, S2, hc2, hS2, hw2, _, _⟩
    · rw [hnone] at hc
      cases hc
    · obtain ⟨n, hn, _, _, hsoft, hcm, _, hsr, _, _⟩ :=
        splitClause_spec u t idx2 S2 mc hS2 hsplit
      refine ⟨mkLit n false, ?_, ?_, ?_, hsr⟩
      · cases hk : u.coreMapping (mkLit n false) with
        | none => rfl
        | some j =>
          exfalso
          obtain ⟨T, hT, hTa⟩ := hu.2 _ _ hk
          obtain ⟨a, hTa2, hlt, _⟩ := hu.1 _ _ hT
          rw [hTa] at hTa2
          cases hTa2
          simp only [mkLit] at hlt
          omega
      · rw [hcm]
        simp [mapInsert]
      · rw [hsoft]
        simp
    · rw [hc] at hc2
      cases hc2
      rw [hS] at hS2
      cases hS2
      omega

/-- C17 on `heavyFormula` after the first SAT answer: the state is reached, and literal 4,
the assumption literal of soft clause 1, is the `coreMapping` key of index 1. -/
theorem coreMapping_bijection_witness :
    Reach simpleLibrary heavyAfterSat ∧
    heavyAfterSat.formula.soft.length = 3 ∧
    heavyAfterSat.coreMapping (mkLit 4 false) = some 1 ∧
    ∀ i, i < heavyAfterSat.formula.soft.length →
      ∃ S a, heavyAfterSat.formula.soft[i]? = some S ∧ S.assumption_var = some a ∧
        heavyAfterSat.coreMapping a = some i := by
  have hr : Reach simpleLibrary heavyAfterSat :=
    Reach.step (initState heavyFormula) heavyAfterSat (Answer.sat heavyModel)
      (Reach.init heavyFormula) rfl
  exact ⟨hr, by decide, by decide, (coreMapping_bijection simpleLibrary heavyAfterSat hr).1⟩

theorem mem_setInsert (l x : Lit) (xs : List Lit) (h : x ∈ setInsert l xs) :
    x = l ∨ x ∈ xs := by
  induction xs with
  | nil =>
    simp only [setInsert, List.mem_singleton] at h
    exact Or.inl h
  | cons y ys ih =>
    simp only [setInsert] at h
    split at h
    · rcases List.mem_cons.mp h with h | h
      · exact Or.inl h
      · exact Or.inr h
    · split at h
      · exact Or.inr h
      · rcases List.mem_cons.mp h with h | h
        · exact Or.inr (List.mem_cons.mpr (Or.inl h))
        · rcases ih h with h | h
          · exact Or.inl h
          · exact Or.inr (List.mem_cons_of_mem _ h)

theorem mem_setErase (l x : Lit) (xs : List Lit) (h : x ∈ setErase l xs) : x ∈ xs := by
  unfold setErase at h
  exact (List.mem_filter.mp h).1

theorem mapInsert_ne_none {β : Type} (m : Lit → Option β) (k o : Lit) (v : β)
    (h : o = k ∨ m o ≠ none) : mapInsert m k v o ≠ none := by
  unfold mapInsert
  split
  · simp
  · rcases h with h | h
    · contradiction
    · exact h

theorem raiseBound_card (lib : Library) (s t : WState) (enc k mc : Nat)
    (h : raiseBound lib s enc k mc = some t) :
    (CardInv s → CardInv t) ∧ KeysGrow s t := by
  unfold raiseBound at h
  split at h
  · simp at h
  · dsimp only at h
    split at h
    · split at h
      · simp at h
      · rename_i out _
        cases h
        constructor
        · intro hinv o ho
          rcases mem_setInsert _ _ _ ho with ho | ho
          · exact mapInsert_ne_none _ _ _ _ (Or.inl ho)
          · exact mapInsert_ne_none _ _ _ _ (Or.inr (hinv o ho))
        · intro o ho
          exact mapInsert_ne_none _ _ _ _ (Or.inr ho)
    · cases h
      exact ⟨fun hinv => hinv, fun o ho => ho⟩

theorem relaxCard_card (lib : Library) (s : WState) (cr : List Lit) (p : Lit) (mc : Nat)
    (r : WState × List Lit) (h : relaxCard lib s cr p mc = some r) :
    (CardInv s → CardInv r.1) ∧ KeysGrow s r.1 := by
  unfold relaxCard at h
  split at h
  · cases h
    exact ⟨fun hinv => hinv, fun o ho => ho⟩
  · split at h
    · simp at h
    · split at h
      · simp at h
      · split at h
        · simp at h
        · split at h
          · dsimp only at h
            split at h
            · simp at h
            · rename_i s2 hs2
              cases h
              have h2 := raiseBound_card _ _ _ _ _ _ hs2
              constructor
              · intro hinv
                apply h2.1
                intro o ho
                exact hinv o (mem_setErase _ _ _ ho)
              · intro o ho
                exact h2.2 o ho
          · dsimp only at h
            split at h
            · simp at h
            · split at h
              · simp at h
              · split at h
                · simp at h
                · split at h
                  · simp at h
                  · rename_i s2 hs2
                    cases h
                    have h2 := raiseBound_card _ _ _ _ _ _ hs2
                    constructor
                    · intro hinv
                      apply h2.1
                      intro o ho
                      exact mapInsert_ne_none _ _ _ _
                        (Or.inr (mapInsert_ne_none _ _ _ _ (Or.inr (hinv o ho))))
                    · intro o ho
                      apply h2.2
                      exact mapInsert_ne_none _ _ _ _
                        (Or.inr (mapInsert_ne_none _ _ _ _ (Or.inr ho)))

theorem harden_card (lib : Library) (s t : WState) (sr cr : List Lit) (mc : Nat)
    (h : harden lib s sr cr mc = some t) :
    (CardInv s → CardInv t) ∧ KeysGrow s t := by
  have hu := unitCore_fields s sr cr
  have hb := hu.2.2.2.1
  have hc := hu.2.2.2.2.1
  unfold harden at h
  dsimp only at h
  split at h
  · split at h
    · simp at h
    · rename_i out _
      cases h
      constructor
      · intro hinv o ho
        rcases mem_setInsert _ _ _ ho with ho | ho
        · exact mapInsert_ne_none _ _ _ _ (Or.inl ho)
        · refine mapInsert_ne_none _ _ _ _ (Or.inr ?_)
          rw [hb]
          rw [hc] at ho
          exact hinv o ho
      · intro o ho
        refine mapInsert_ne_none _ _ _ _ (Or.inr ?_)
        rw [hb]
        exact ho
  · cases h
    constructor
    · intro hinv o ho
      rw [hb]
      rw [hc] at ho
      exact hinv o ho
    · intro o ho
      rw [hb]
      exact ho

theorem unsatStep_card (lib : Library) (s t : WState) (conflict : List Lit)
    (h : unsatStep lib s conflict = Result.next t) :
    (CardInv s → CardInv t) ∧ KeysGrow s t := by
  obtain ⟨mc, r, s3, _, _, hloop, hhard, hreset⟩ := unsatStep_next lib s t conflict h
  have h1 : (CardInv s → CardInv r.1) ∧ KeysGrow s r.1 :=
    coreLoop_invariant lib (fun u => (CardInv s → CardInv u) ∧ KeysGrow s u)
      (fun u sr p mc t _ hI => hI)
      (fun u cr p mc q hq hI => by
        have hq2 := relaxCard_card lib u cr p mc q hq
        exact ⟨fun hinv => hq2.1 (hI.1 hinv), fun o ho => hq2.2 o (hI.2 o ho)⟩)
      mc conflict _ [] [] r hloop ⟨fun hinv => hinv, fun o ho => ho⟩
  have h2 := harden_card lib r.1 s3 r.2.1 r.2.2 mc hhard
  have h3 : t.boundMapping = s3.boundMapping ∧
      t.cardinality_assumptions = s3.cardinality_assumptions := by
    unfold resetAssumptions at hreset
    split at hreset
    · simp at hreset
    · cases hreset
      exact ⟨rfl, rfl⟩
  constructor
  · intro hinv o ho
    rw [h3.1]
    rw [h3.2] at ho
    exact h2.1 (h1.1 hinv) o ho
  · intro o ho
    rw [h3.1]
    exact h2.2 o (h1.2 o ho)

theorem step_card (lib : Library) (s t : WState) (ans : Answer)
    (h : tWeightedStep lib s ans = Result.next t) :
    (CardInv s → CardInv t) ∧ KeysGrow s t := by
  cases ans with
  | sat m =>
    have hs := satStep_next lib s t m h
    constructor
    · intro hinv o ho
      rw [hs.2.2.2.1]
      rw [hs.2.2.2.2.1] at ho
      exact hinv o ho
    · intro o ho
      rw [hs.2.2.2.1]
      exact ho
  | unsat conflict => exact unsatStep_card lib s t conflict h

theorem reach_cardInv (lib : Library) (s : WState) (hr : Reach lib s) : CardInv s := by
  induction hr with
  | init f =>
    intro o ho
    have : (initState f).cardinality_assumptions = [] := rfl
    rw [this] at ho
    cases ho
  | step s t ans _ hstep ih => exact (step_card lib s t ans hstep).1 ih

/-- C16 fails as stated: on `pairFormula`, after a SAT answer, the core `{3, 4}` and the
core `{7}`, literal 7 is still a key of `boundMapping` but no longer a member of
`cardinality_assumptions` (it was one after the first core). -/
theorem boundMapping_key_not_assumed :
    tWeightedStep simpleLibrary (initState pairFormula) (Answer.sat heavyModel) =
      Result.next pairAfterSat ∧
    tWeightedStep simpleLibrary pairAfterSat (Answer.unsat [mkLit 3 false, mkLit 4 false]) =
      Result.next pairAfterCore ∧
    tWeightedStep simpleLibrary pairAfterCore (Answer.unsat [mkLit 7 false]) =
      Result.next pairAfterCard ∧
    pairAfterCore.cardinality_assumptions = [mkLit 7 false] ∧
    pairAfterCore.boundMapping (mkLit 7 false) = some ((0, 1), 2) ∧
    pairAfterCard.boundMapping (mkLit 7 false) = some ((0, 1), 2) ∧
    pairAfterCard.cardinality_assumptions = [] := by
  refine ⟨rfl, rfl, rfl, ?_, ?_, ?_, ?_⟩ <;> decide

/-- C16 as amended: in every state the search reaches, every member of
`cardinality_assumptions` is a key of `boundMapping`; and a pass that goes on never
removes a key of `boundMapping`. -/
theorem cardinality_assumptions_are_keys (lib : Library) (s : WState) (hr : Reach lib s) :
    (∀ o, o ∈ s.cardinality_assumptions → s.boundMapping o ≠ none) ∧
    (∀ (ans : Answer) (t : WState), tWeightedStep lib s ans = Result.next t →
      ∀ o, s.boundMapping o ≠ none → t.boundMapping o ≠ none) :=
  ⟨reach_cardInv lib s hr, fun ans t h => (step_card lib s t ans h).2⟩

/-- C16 as amended, on `pairFormula` after the first core: the state is reached and its
one cardinality assumption, literal 7, is a key of `boundMapping`. -/
theorem cardinality_assumptions_are_keys_witness :
    Reach simpleLibrary pairAfterCore ∧
    mkLit 7 false ∈ pairAfterCore.cardinality_assumptions ∧
    pairAfterCore.boundMapping (mkLit 7 false) ≠ none := by
  have hr : Reach simpleLibrary pairAfterCore :=
    Reach.step pairAfterSat pairAfterCore (Answer.unsat [mkLit 3 false, mkLit 4 false])
      (Reach.step (initState pairFormula) pairAfterSat (Answer.sat heavyModel)
        (Reach.init pairFormula) rfl) rfl
  have hm : mkLit 7 false ∈ pairAfterCore.cardinality_assumptions := by decide
  exact ⟨hr, hm, (cardinality_assumptions_are_keys simpleLibrary pairAfterCore hr).1 _ hm⟩

theorem costFold_eq (m : List lbool) (l : List Soft) (c : Nat) (hc : c < 2 ^ 64) :
    l.foldl (fun c S => if S.clause.any (litSatisfied m) then c else u64add c S.weight) c =
      (c + costSum m l) % 2 ^ 64 := by
  induction l generalizing c with
  | nil =>
    simp only [List.foldl_nil, costSum, List.map_nil, List.sum_nil, Nat.add_zero]
    exact (Nat.mod_eq_of_lt hc).symm
  | cons S l ih =>
    simp only [List.foldl_cons, costSum, List.map_cons, List.sum_cons]
    split
    · rw [ih c hc]
      simp [costSum]
    · rw [ih _ (u64add_lt _ _)]
      unfold u64add costSum
      rw [Nat.mod_add_mod, Nat.add_assoc]

theorem computeCostModel_eq (f : Formula) (m : List lbool) :
    computeCostModel f m = costSum m f.soft % 2 ^ 64 := by
  unfold computeCostModel
  rw [costFold_eq m f.soft 0 (by norm_num)]
  simp

theorem sum_map_set {α : Type} (g : α → Nat) (l : List α) (i : Nat) (x y : α)
    (h : l[i]? = some x) :
    ((l.set i y).map g).sum + g x = (l.map g).sum + g y := by
  induction l generalizing i with
  | nil => simp at h
  | cons z zs ih =>
    cases i with
    | zero =>
      simp only [List.getElem?_cons_zero, Option.some.injEq] at h
      subst h
      simp only [List.set_cons_zero, List.map_cons, List.sum_cons]
      omega
    | succ i =>
      simp only [List.getElem?_cons_succ] at h
      have := ih i h
      simp only [List.set_cons_succ, List.map_cons, List.sum_cons]
      omega

theorem u64sub_add_mod (w mc : Nat) (h : mc ≤ w) :
    (u64sub w mc + mc) % 2 ^ 64 = w % 2 ^ 64 := by
  unfold u64sub
  rw [Nat.mod_add_mod]
  have e : w + 2 ^ 64 - mc + mc = w + 2 ^ 64 := by omega
  rw [e, Nat.add_mod_right]

theorem costSum_split (m : List lbool) (l : List Soft) (idx : Nat) (S : Soft) (mc : Nat)
    (a : Option Lit) (rv : List Lit) (hS : l[idx]? = some S) (hmc : mc ≤ S.weight) :
    costSum m (l.set idx { S with weight := u64sub S.weight mc } ++
        [{ clause := S.clause, weight := mc, assumption_var := a, relaxation_vars := rv }])
      % 2 ^ 64 = costSum m l % 2 ^ 64 := by
  have hset := sum_map_set (fun T : Soft => if T.clause.any (litSatisfied m) then 0 else T.weight)
    l idx S { S with weight := u64sub S.weight mc } hS
  simp only [costSum, List.map_append, List.sum_append, List.map_cons, List.map_nil,
    List.sum_cons, List.sum_nil, Nat.add_zero]
  generalize (List.map (fun T : Soft => if T.clause.any (litSatisfied m) then 0 else T.weight)
    (l.set idx { S with weight := u64sub S.weight mc })).sum = A at hset ⊢
  generalize (List.map (fun T : Soft => if T.clause.any (litSatisfied m) then 0 else T.weight)
    l).sum = B at hset ⊢
  by_cases hsat : S.clause.any (litSatisfied m) = true
  · simp only [hsat, if_true, Nat.add_zero] at hset ⊢
    rw [hset]
  · have hsat2 : S.clause.any (litSatisfied m) = false := by simpa using hsat
    simp only [hsat2, Bool.false_eq_true, if_false] at hset ⊢
    have hmod := u64sub_add_mod S.weight mc hmc
    generalize u64sub S.weight mc = w2 at hset hmod ⊢
    have e : A + mc + S.weight = B + (w2 + mc) := by omega
    have key : (A + mc + S.weight) % 2 ^ 64 = (B + S.weight) % 2 ^ 64 := by
      rw [e, Nat.add_mod, hmod, ← Nat.add_mod]
    exact Nat.ModEq.add_right_cancel' S.weight key

theorem relaxSoft_cost (s t : SoftState) (p : Lit) (mc : Nat) (m : List lbool)
    (h : relaxSoft s p mc = some t) :
    computeCostModel t.formula m = computeCostModel s.formula m := by
  rcases relaxSoft_cases s t p mc h with ⟨_, rfl⟩ | ⟨idx, S, _, hS, hw, hsplit⟩ |
    ⟨idx, S, _, _, _, _, rfl⟩
  · rfl
  · obtain ⟨n, _, _, _, hsoft, _⟩ := splitClause_spec s t idx S mc hS hsplit
    rw [computeCostModel_eq, computeCostModel_eq, hsoft]
    exact costSum_split m s.formula.soft idx S mc _ _ hS (by omega)
  · rfl

theorem unsatStep_cost (lib : Library) (s t : WState) (conflict : List Lit) (m : List lbool)
    (h : unsatStep lib s conflict = Result.next t) :
    computeCostModel t.formula m = computeCostModel s.formula m := by
  obtain ⟨mc, r, s3, _, _, hloop, hhard, hreset⟩ := unsatStep_next lib s t conflict h
  have h1 : computeCostModel r.1.formula m = computeCostModel s.formula m :=
    coreLoop_invariant lib
      (fun u => computeCostModel u.formula m = computeCostModel s.formula m)
      (fun u sr p mc t ht hI => by
        have := relaxSoft_cost (u.toSoftState sr) t p mc m ht
        show computeCostModel t.formula m = computeCostModel s.formula m
        rw [this]
        exact hI)
      (fun u cr p mc q hq hI => by
        have hs := relaxCard_sameSoft lib u cr p mc q hq
        show computeCostModel q.1.formula m = computeCostModel s.formula m
        rw [hs.1]
        exact hI)
      mc conflict _ [] [] r hloop rfl
  have h2 := harden_sameSoft lib r.1 s3 r.2.1 r.2.2 mc hhard
  have h3 := resetAssumptions_sameSoft s3 t hreset
  rw [h3.1, h2.1]
  exact h1

theorem step_savedInv (lib : Library) (s t : WState) (ans : Answer)
    (h : tWeightedStep lib s ans = Result.next t) (hinv : SavedInv s) : SavedInv t := by
  intro _
  cases ans with
  | sat m =>
    obtain ⟨_, _, hf, hub, hmodel⟩ := satStep_bounds lib s t m (Or.inl h)
    rw [hub, hmodel, hf]
    split
    · rfl
    · rename_i hc
      exact hinv (fun h0 => hc (Or.inr h0))
  | unsat conflict =>
    obtain ⟨mc, _, hnb, _, hub, _, _, hmodel⟩ := unsatStep_bounds lib s t conflict (Or.inl h)
    rw [hub, hmodel, unsatStep_cost lib s t conflict s.model h]
    exact hinv hnb

theorem reach_savedInv (lib : Library) (s : WState) (hr : Reach lib s) : SavedInv s := by
  induction hr with
  | init f => exact fun h => absurd rfl h
  | step s t ans _ hstep ih => exact step_savedInv lib s t ans hstep ih

theorem allocate_spec (reqs : List Alloc) (f : Formula) :
    (allocate reqs f).1 = List.range' f.nVars reqs.length ∧
      (allocate reqs f).2.nVars = f.nVars + reqs.length := by
  induction reqs generalizing f with
  | nil => simp [allocate]
  | cons r rs ih =>
    have h1 : (allocOne f r).1 = f.nVars := by cases r <;> rfl
    have h2 : (allocOne f r).2.nVars = f.nVars + 1 := by cases r <;> rfl
    have h := ih (allocOne f r).2
    simp only [allocate, h.1, h.2, h1, h2, List.length_cons, List.range'_succ]
    exact ⟨trivial, by omega⟩

/-- C21: `newVar` returns the current variable count `n` and raises it to `n + 1`;
`newLiteral(sign)` returns the literal of variable `n` with the requested sign and raises
the count to `n + 1`; any sequence of `k` allocation calls starting at count `n` issues
exactly the variables `n, n + 1, ..., n + k - 1`, strictly increasing and without
repetition, and leaves the count at `n + k`. -/
theorem allocation_fresh_dense_monotone (f : Formula) (sign : Bool) (reqs : List Alloc) :
    (newVar f).1 = f.nVars ∧ (newVar f).2.nVars = f.nVars + 1 ∧
    (newLiteral f sign).1 = mkLit f.nVars sign ∧
    (newLiteral f sign).2.nVars = f.nVars + 1 ∧
    (allocate reqs f).1 = List.range' f.nVars reqs.length ∧
    (allocate reqs f).2.nVars = f.nVars + reqs.length ∧
    List.Pairwise (fun a b => a < b) (allocate reqs f).1 ∧ (allocate reqs f).1.Nodup := by
  refine ⟨rfl, rfl, rfl, rfl, (allocate_spec reqs f).1, (allocate_spec reqs f).2, ?_, ?_⟩
  · rw [(allocate_spec reqs f).1]
    exact List.pairwise_lt_range' f.nVars reqs.length
  · rw [(allocate_spec reqs f).1]
    exact List.nodup_range' f.nVars reqs.length

/-- C23: `Segment::operator==` is not structural equality.  The valid segments `(1, 2)` and
`(1, 3)` compare equal although their ends differ, and the valid segment `(0, 0)` does not
compare equal to itself: the source tests `endSegment && other.endSegment`. -/
theorem segment_eq_ignores_end :
    Segment.new 1 2 = some (Segment.mk 1 2) ∧ Segment.new 1 3 = some (Segment.mk 1 3) ∧
    Segment.opEq (Segment.mk 1 2) (Segment.mk 1 3) = true ∧
    (Segment.mk 1 2).endSegment ≠ (Segment.mk 1 3).endSegment ∧
    Segment.new 0 0 = some (Segment.mk 0 0) ∧
    Segment.opEq (Segment.mk 0 0) (Segment.mk 0 0) = false := by
  decide

/-- C29: `Clauses::operator|` does not compute the disjunction its doc comment describes.
For `P = {(a)}` and `Q = {(b)}` over a formula with the two variables `a`, `b`, the
documented result is the one clause `(a ∨ b)`; the source returns `(x ∨ y)` over the new
variables 2 and 3, raises the variable count from 2 to 6 and adds hard clauses. -/
theorem or_is_not_the_documented_cross_product :
    documentedOr [[mkLit 0 false]] [[mkLit 1 false]] = [[mkLit 0 false, mkLit 1 false]] ∧
    (Clauses.opOr [[mkLit 0 false]] [[mkLit 1 false]] formula2).1 =
      [[mkLit 2 false, mkLit 3 false]] ∧
    (Clauses.opOr [[mkLit 0 false]] [[mkLit 1 false]] formula2).1 ≠
      documentedOr [[mkLit 0 false]] [[mkLit 1 false]] ∧
    (Clauses.opOr [[mkLit 0 false]] [[mkLit 1 false]] formula2).2.nVars = 6 ∧
    (Clauses.opOr [[mkLit 0 false]] [[mkLit 1 false]] formula2).2.hard.length = 8 := by
  decide

/-- C30: for every `P` and every `Q` with at least one clause, the hard clauses that
`P | Q` adds contain the unit clause `(y)` and the clause `xrep`, which holds `x` and the
negated per-clause selectors of both operands; every assignment that satisfies the added
hard clauses makes `y` true and satisfies every clause of `Q`. -/
theorem or_hard_clauses_force_right (P Q : Clauses) (f : Formula) (hQ : 0 < Q.length) :
    [mkLit (f.nVars + 1) false] ∈ addedHard f (Clauses.opOr P Q f).2 ∧
    (mkLit f.nVars false ::
        (loopReps (f.nVars + 2) P ++ loopReps (f.nVars + 2 + P.length) Q)) ∈
      addedHard f (Clauses.opOr P Q f).2 ∧
    ∀ a : Nat → Bool, Clauses.eval a (addedHard f (Clauses.opOr P Q f).2) = true →
      Lit.eval a (mkLit (f.nVars + 1) false) = true ∧ Clauses.eval a Q = true := by
  cases Q with
  | nil => simp at hQ
  | cons d Q =>
    have hadd : addedHard f (Clauses.opOr P (d :: Q) f).2 = orHard f.nVars P (d :: Q) := by
      rw [opOr_cons]; simp [addedHard]
    rw [hadd]
    refine ⟨by simp [orHard], by simp [orHard], fun a h => ⟨?_, orHard_entails_right a _ _ _ h⟩⟩
    have := orHard_entails_y a _ _ _ h
    simp [Lit.eval, mkLit, this]

theorem or_hard_clauses_force_right_witness :
    0 < ([[mkLit 1 false]] : Clauses).length ∧
    [mkLit (formula2.nVars + 1) false] ∈
      addedHard formula2 (Clauses.opOr [[mkLit 0 false]] [[mkLit 1 false]] formula2).2 :=
  ⟨by decide,
   (or_hard_clauses_force_right [[mkLit 0 false]] [[mkLit 1 false]] formula2 (by decide)).1⟩

theorem syncVars_nVars_eq (k : Nat) (f : Formula) (n : Nat) (hk : n - f.nVars ≤ k)
    (hle : f.nVars ≤ n) : (syncVars k f n).nVars = n := by
  induction k generalizing f with
  | zero =>
    simp only [syncVars]
    omega
  | succ k ih =>
    simp only [syncVars]
    have e : f.newLiteral.2.nVars = f.nVars + 1 := rfl
    split
    · exact ih f.newLiteral.2 (by omega) (by omega)
    · omega

theorem splitClause_vars (s t : SoftState) (idx : Nat) (S : Soft) (mc : Nat)
    (hS : s.formula.soft[idx]? = some S)
    (h : splitClause s idx S mc = some t) :
    t.formula.nVars =
      (syncVars (s.solver.nVars - s.formula.nVars)
        (s.formula.setWeight idx (u64sub S.weight mc)) s.solver.nVars).nVars + 1 ∧
    t.solver = (newSATVariable s.solver).addClause
      (S.clause ++ [mkLit (syncVars (s.solver.nVars - s.formula.nVars)
        (s.formula.setWeight idx (u64sub S.weight mc)) s.solver.nVars).nVars false]) := by
  unfold splitClause at h
  split at h
  · simp at h
  · split at h
    · simp at h
    · dsimp only at h
      have e0 : (s.formula.setWeight idx (u64sub S.weight mc)).nVars = s.formula.nVars := rfl
      rw [e0] at h
      generalize hg : syncVars _ _ _ = g at h ⊢
      have hgs : g.soft = s.formula.soft.set idx { S with weight := u64sub S.weight mc } := by
        rw [← hg, syncVars_soft]
        simp [Formula.setWeight, modify_eq_set_of_getElem? _ _ _ _ hS]
      simp only [Formula.newLiteral, Formula.newVar, Formula.addSoftClauseVars,
        Formula.setAssumption, hgs, modify_last, getElem?_last] at h
      split at h
      · simp at h
      · split at h
        · simp at h
        · split at h
          · simp at h
          · split at h
            · simp at h
            · split at h
              · simp at h
              · cases h
                exact ⟨rfl, rfl⟩

/-- C25: when a split begins with `formula.nVars ≤ solver.nVars`, the synchronisation loop
brings the formula to the solver's count; the new relaxation literal `l` is the positive
literal of the variable `solver.nVars` (before the split), the variable `newSATVariable`
creates; afterwards both counts are `solver.nVars + 1`, the solver holds the body with
`l`, and `formula.nVars ≤ solver.nVars` holds again. -/
theorem split_keeps_variable_counts_in_step (s t : SoftState) (idx : Nat) (S : Soft)
    (mc : Nat) (hS : s.formula.soft[idx]? = some S)
    (hle : s.formula.nVars ≤ s.solver.nVars)
    (h : splitClause s idx S mc = some t) :
    t.formula.nVars = t.solver.nVars ∧
    t.solver.nVars = s.solver.nVars + 1 ∧
    (newSATVariable s.solver).nVars = s.solver.nVars + 1 ∧
    t.soft_relax = s.soft_relax ++ [mkLit s.solver.nVars false] ∧
    t.formula.soft.getLast? =
      some { clause := S.clause, weight := mc,
             assumption_var := some (mkLit s.solver.nVars false),
             relaxation_vars := [mkLit s.solver.nVars false] } ∧
    t.solver.clauses = s.solver.clauses ++ [S.clause ++ [mkLit s.solver.nVars false]] ∧
    t.formula.nVars ≤ t.solver.nVars := by
  have hv := splitClause_vars s t idx S mc hS h
  have hn : (syncVars (s.solver.nVars - s.formula.nVars)
      (s.formula.setWeight idx (u64sub S.weight mc)) s.solver.nVars).nVars =
      s.solver.nVars :=
    syncVars_nVars_eq _ _ _ (Nat.le_refl _) hle
  rw [hn] at hv
  obtain ⟨n, hn1, hn2, -, hsoft, -, -, hsr, -, -⟩ := splitClause_spec s t idx S mc hS h
  have hnn : n = s.solver.nVars := by omega
  subst hnn
  have hsol : t.solver.nVars = s.solver.nVars + 1 := by
    rw [hv.2]; rfl
  refine ⟨by omega, hsol, rfl, hsr, ?_, ?_, by omega⟩
  · rw [hsoft]; simp
  · rw [hv.2]; rfl

theorem split_keeps_variable_counts_in_step_witness :
    splitExample.formula.soft[0]? =
      some { clause := [mkLit 0 false], weight := 5, assumption_var := some (mkLit 1 false),
             relaxation_vars := [mkLit 1 false] } ∧
    splitExample.formula.nVars ≤ splitExample.solver.nVars ∧
    splitClause splitExample 0
        { clause := [mkLit 0 false], weight := 5, assumption_var := some (mkLit 1 false),
          relaxation_vars := [mkLit 1 false] } 2 = some splitExampleAfter ∧
    splitExampleAfter.formula.nVars = splitExampleAfter.solver.nVars ∧
    splitExampleAfter.solver.nVars = splitExample.solver.nVars + 1 ∧
    splitExampleAfter.soft_relax = [mkLit 5 false] :=
  ⟨rfl, by decide, rfl,
   (split_keeps_variable_counts_in_step splitExample splitExampleAfter 0 _ 2 rfl
      (by decide) rfl).1,
   (split_keeps_variable_counts_in_step splitExample splitExampleAfter 0 _ 2 rfl
      (by decide) rfl).2.1,
   (split_keeps_variable_counts_in_step splitExample splitExampleAfter 0 _ 2 rfl
      (by decide) rfl).2.2.2.1⟩

theorem mem_setInsert_self (l : Lit) (xs : List Lit) : l ∈ setInsert l xs := by
  induction xs with
  | nil => simp [setInsert]
  | cons x xs ih =>
    simp only [setInsert]
    split
    · simp
    · split
      · rename_i h; simp [h]
      · exact List.mem_cons_of_mem _ ih

theorem mem_setInsert_of_mem (l x : Lit) (xs : List Lit) (h : x ∈ xs) :
    x ∈ setInsert l xs := by
  induction xs with
  | nil => cases h
  | cons y ys ih =>
    simp only [setInsert]
    split
    · exact List.mem_cons_of_mem _ h
    · split
      · exact h
      · rcases List.mem_cons.mp h with h1 | h1
        · simp [h1]
        · exact List.mem_cons_of_mem _ (ih h1)

theorem not_mem_setErase_self (p : Lit) (xs : List Lit) : p ∉ setErase p xs := by
  simp [setErase]

theorem mem_setErase_of_ne (p x : Lit) (xs : List Lit) (h : x ∈ xs) (hne : x ≠ p) :
    x ∈ setErase p xs := by
  simp [setErase, h, hne]

theorem unitCore_of_many (s : WState) (sr cr : List Lit) (h : 1 < sr.length + cr.length) :
    unitCore s sr cr = s := by
  unfold unitCore
  split
  · split
    · rename_i h0
      simp only [List.length_singleton] at h
      omega
    · rfl
  · rfl

theorem raiseBound_some (lib : Library) (s : WState) (enc k mc : Nat) (e : Encoder)
    (out : Lit) (he : s.soft_cardinality[enc]? = some e)
    (ho : (lib.incUpdateCardinality s.solver e (k + 1)).2.outputs[k + 1]? = some out) :
    raiseBound lib s enc k mc =
      some { s with
        solver := (lib.incUpdateCardinality s.solver e (k + 1)).1,
        soft_cardinality :=
          s.soft_cardinality.set enc (lib.incUpdateCardinality s.solver e (k + 1)).2,
        boundMapping := mapInsert s.boundMapping out ((enc, k + 1), mc),
        cardinality_assumptions := setInsert out s.cardinality_assumptions } := by
  have hlt : k + 1 < (lib.incUpdateCardinality s.solver e (k + 1)).2.outputs.length := by
    by_contra hc
    rw [List.getElem?_eq_none (by omega)] at ho
    cases ho
  simp only [raiseBound, he, hlt, if_true, ho]

theorem raiseBound_none (lib : Library) (s : WState) (enc k mc : Nat) (e : Encoder)
    (he : s.soft_cardinality[enc]? = some e)
    (ho : (lib.incUpdateCardinality s.solver e (k + 1)).2.outputs[k + 1]? = none) :
    raiseBound lib s enc k mc =
      some { s with
        solver := (lib.incUpdateCardinality s.solver e (k + 1)).1,
        soft_cardinality :=
          s.soft_cardinality.set enc (lib.incUpdateCardinality s.solver e (k + 1)).2 } := by
  have hlt : ¬ k + 1 < (lib.incUpdateCardinality s.solver e (k + 1)).2.outputs.length := by
    intro hc
    rw [List.getElem?_eq_getElem hc] at ho
    cases ho
  simp only [raiseBound, he, hlt, if_false]

/-- C26: the harden step.  (i) With `soft_relax = [u]` and no `cardinality_relax`, `(u)`
becomes a unit clause of the SAT solver and nothing else changes: no encoder is made.
(ii) With more than one relaxed literal, one encoder is built by
`buildCardinality(solver, soft_relax ++ cardinality_relax, 1)` and appended to
`soft_cardinality`; its output at index 1 is registered in `boundMapping` as
`((index of the new encoder, 1), min_core)` and inserted into
`cardinality_assumptions` (the `assert` on the outputs fails when there is no output 1).
(iii) With no `soft_relax` and `cardinality_relax = [c]`, the state does not change. -/
theorem harden_step (lib : Library) (s : WState) (sr cr : List Lit) (mc : Nat) :
    (∀ u, sr = [u] → cr = [] →
      harden lib s sr cr mc = some { s with solver := s.solver.addClause [u] }) ∧
    (1 < sr.length + cr.length →
      (∀ out, (lib.buildCardinality s.solver (sr ++ cr) 1).2.outputs[1]? = some out →
        ∃ t, harden lib s sr cr mc = some t ∧
          t.solver = (lib.buildCardinality s.solver (sr ++ cr) 1).1 ∧
          t.soft_cardinality =
            s.soft_cardinality ++ [(lib.buildCardinality s.solver (sr ++ cr) 1).2] ∧
          t.soft_cardinality.length = s.soft_cardinality.length + 1 ∧
          t.boundMapping = mapInsert s.boundMapping out ((s.soft_cardinality.length, 1), mc) ∧
          t.boundMapping out = some ((s.soft_cardinality.length, 1), mc) ∧
          t.cardinality_assumptions = setInsert out s.cardinality_assumptions ∧
          out ∈ t.cardinality_assumptions ∧
          t.formula = s.formula ∧ t.activeSoft = s.activeSoft ∧
          t.coreMapping = s.coreMapping) ∧
      ((lib.buildCardinality s.solver (sr ++ cr) 1).2.outputs[1]? = none →
        harden lib s sr cr mc = none)) ∧
    (∀ c, sr = [] → cr = [c] → harden lib s sr cr mc = some s) := by
  refine ⟨?_, ?_, ?_⟩
  · intro u hsr hcr
    subst hsr hcr
    simp [harden, unitCore]
  · intro hR
    have hu := unitCore_of_many s sr cr hR
    refine ⟨?_, ?_⟩
    · intro out ho
      refine ⟨{ s with
          solver := (lib.buildCardinality s.solver (sr ++ cr) 1).1,
          soft_cardinality :=
            s.soft_cardinality ++ [(lib.buildCardinality s.solver (sr ++ cr) 1).2],
          boundMapping := mapInsert s.boundMapping out ((s.soft_cardinality.length, 1), mc),
          cardinality_assumptions := setInsert out s.cardinality_assumptions },
        ?_, rfl, rfl, by simp, rfl, by simp [mapInsert], rfl,
        mem_setInsert_self _ _, rfl, rfl, rfl⟩
      simp only [harden, hu, hR, if_true, ho, List.length_append, List.length_singleton,
        Nat.add_sub_cancel]
    · intro ho
      simp only [harden, hu, hR, if_true, ho]
  · intro c hsr hcr
    subst hsr hcr
    simp [harden, unitCore]

/-- C26 on the search on `pairFormula`: the core `{3, 4}` gives `soft_relax = [3, 4]`; the
harden step appends the first encoder, over the literals 3 and 4, whose output 7 at
index 1 is registered with `min_core = 2` and assumed. -/
theorem harden_step_witness :
    (1 : Nat) < [mkLit 3 false, mkLit 4 false].length + ([] : List Lit).length ∧
    (simpleLibrary.buildCardinality pairAfterSat.solver
        ([mkLit 3 false, mkLit 4 false] ++ []) 1).2.outputs[1]? = some (mkLit 7 false) ∧
    ∃ t, harden simpleLibrary pairAfterSat [mkLit 3 false, mkLit 4 false] [] 2 = some t ∧
      t.soft_cardinality.length = 1 ∧
      t.boundMapping (mkLit 7 false) = some ((0, 1), 2) ∧
      mkLit 7 false ∈ t.cardinality_assumptions := by
  have h := ((harden_step simpleLibrary pairAfterSat [mkLit 3 false, mkLit 4 false] [] 2).2.1
    (by decide)).1 (mkLit 7 false) (by decide)
  obtain ⟨t, h1, -, -, h3, -, h5, -, h7, -⟩ := h
  exact ⟨by decide, by decide, t, h1, h3, h5, h7⟩

/-- C28: the weight-equal cardinality case.  For a conflict literal `p` with
`boundMapping[p] = ((enc, k), min_core)` that is assumed and whose encoder exists, the
block ends without a failed `assert`: `p` goes to `cardinality_relax`, encoder `enc` is
tightened by `incUpdateCardinality` to `k + 1`, and then, exactly when the tightened
encoder has an output at index `k + 1`, that output is registered as
`((enc, k + 1), min_core)` and inserted into `cardinality_assumptions`; otherwise
`boundMapping` is left alone.  With the outputs of an encoder distinct (output `k + 1` is
not `p`), `p` is no longer in `cardinality_assumptions`. -/
theorem weight_equal_case (lib : Library) (s : WState) (cr : List Lit) (p : Lit)
    (mc enc k : Nat) (e : Encoder)
    (hbm : s.boundMapping p = some ((enc, k), mc))
    (hp : p ∈ s.cardinality_assumptions)
    (he : s.soft_cardinality[enc]? = some e) (hc : e.hasCardEncoding = true)
    (hout : (lib.incUpdateCardinality s.solver e (k + 1)).2.outputs[k + 1]? ≠ some p) :
    ∃ t, relaxCard lib s cr p mc = some (t, cr ++ [p]) ∧
      p ∉ t.cardinality_assumptions ∧
      t.solver = (lib.incUpdateCardinality s.solver e (k + 1)).1 ∧
      t.soft_cardinality =
        s.soft_cardinality.set enc (lib.incUpdateCardinality s.solver e (k + 1)).2 ∧
      (∀ out, (lib.incUpdateCardinality s.solver e (k + 1)).2.outputs[k + 1]? = some out →
        k + 1 < (lib.incUpdateCardinality s.solver e (k + 1)).2.outputs.length ∧
        t.boundMapping = mapInsert s.boundMapping out ((enc, k + 1), mc) ∧
        t.boundMapping out = some ((enc, k + 1), mc) ∧
        t.cardinality_assumptions = setInsert out (setErase p s.cardinality_assumptions) ∧
        out ∈ t.cardinality_assumptions) ∧
      (¬ k + 1 < (lib.incUpdateCardinality s.solver e (k + 1)).2.outputs.length →
        t.boundMapping = s.boundMapping ∧
        t.cardinality_assumptions = setErase p s.cardinality_assumptions) := by
  cases ho : (lib.incUpdateCardinality s.solver e (k + 1)).2.outputs[k + 1]? with
  | none =>
    have hr := raiseBound_none lib
      { s with cardinality_assumptions := setErase p s.cardinality_assumptions }
      enc k mc e he ho
    refine ⟨{ s with
        cardinality_assumptions := setErase p s.cardinality_assumptions,
        solver := (lib.incUpdateCardinality s.solver e (k + 1)).1,
        soft_cardinality :=
          s.soft_cardinality.set enc (lib.incUpdateCardinality s.solver e (k + 1)).2 },
      ?_, ?_, rfl, rfl, ?_, ?_⟩
    · simp only [relaxCard, hbm, hp, not_true_eq_false, if_false, he, hc, Bool.not_true,
        Bool.false_eq_true, if_true, hr]
    · exact not_mem_setErase_self p _
    · intro out h; cases h
    · intro _; exact ⟨rfl, rfl⟩
  | some out =>
    have hr := raiseBound_some lib
      { s with cardinality_assumptions := setErase p s.cardinality_assumptions }
      enc k mc e out he ho
    have hne : out ≠ p := by
      intro h; rw [ho, h] at hout; exact hout rfl
    refine ⟨{ s with
        solver := (lib.incUpdateCardinality s.solver e (k + 1)).1,
        soft_cardinality :=
          s.soft_cardinality.set enc (lib.incUpdateCardinality s.solver e (k + 1)).2,
        boundMapping := mapInsert s.boundMapping out ((enc, k + 1), mc),
        cardinality_assumptions := setInsert out (setErase p s.cardinality_assumptions) },
      ?_, ?_, rfl, rfl, ?_, ?_⟩
    · simp only [relaxCard, hbm, hp, not_true_eq_false, if_false, he, hc, Bool.not_true,
        Bool.false_eq_true, if_true, hr]
    · intro hmem
      rcases mem_setInsert out p _ hmem with h | h
      · exact hne h.symm
      · exact not_mem_setErase_self p _ h
    · intro out2 h2
      cases h2
      refine ⟨?_, rfl, by simp [mapInsert], rfl, mem_setInsert_self _ _⟩
      by_contra hc2
      rw [List.getElem?_eq_none (by omega)] at ho
      cases ho
    · intro hlt
      exfalso
      apply hlt
      by_contra hc2
      rw [List.getElem?_eq_none (by omega)] at ho
      cases ho

/-- C28 on the search on `pairFormula` after the core `{3, 4, 5}`: output 7 (index 1 of
encoder 0, weight 2) comes back in a core with `min_core = 2`; it leaves
`cardinality_assumptions`, and output 8 at index 2 is registered and assumed. -/
theorem weight_equal_case_witness :
    tripleAfterCore.boundMapping (mkLit 7 false) = some ((0, 1), 2) ∧
    mkLit 7 false ∈ tripleAfterCore.cardinality_assumptions ∧
    ∃ t, relaxCard simpleLibrary tripleAfterCore [] (mkLit 7 false) 2 =
        some (t, [] ++ [mkLit 7 false]) ∧
      mkLit 7 false ∉ t.cardinality_assumptions ∧
      t.boundMapping (mkLit 8 false) = some ((0, 2), 2) ∧
      mkLit 8 false ∈ t.cardinality_assumptions := by
  have h := weight_equal_case simpleLibrary tripleAfterCore [] (mkLit 7 false) 2 0 1
    { lits := [mkLit 3 false, mkLit 4 false, mkLit 5 false],
      outputs := [mkLit 6 false, mkLit 7 false, mkLit 8 false], hasCardEncoding := true }
    (by decide) (by decide) (by decide) rfl (by decide)
  obtain ⟨t, h1, h2, -, -, h5, -⟩ := h
  have h6 := h5 (mkLit 8 false) (by decide)
  exact ⟨by decide, by decide, t, h1, h2, h6.2.2.1, h6.2.2.2.2⟩

theorem set_append_last {α : Type} (l : List α) (a b : α) :
    (l ++ [a]).set l.length b = l ++ [b] := by
  induction l with
  | nil => rfl
  | cons x xs ih => simp [ih]

/-- C27: the weight-greater cardinality case.  For a conflict literal `p` with
`boundMapping[p] = ((enc, k), w)`, `w > min_core`, that is assumed and whose encoder
exists, a new encoder is built by `buildCardinality` over `lits()` of encoder `enc` with
bound `k` and appended; its output `out` at index `k` is registered as
`((index of the new encoder, k), min_core)` and pushed to `cardinality_relax`; `p` stays
in `cardinality_assumptions` with `boundMapping[p] = ((enc, k), w - min_core)`, so the two
weights add up to `w`; the new encoder is tightened to `k + 1` and its output at `k + 1`,
when there is one, is registered with `min_core` and assumed.  The outputs of the new
encoder are taken to be distinct from `p` and from each other. -/
theorem weight_greater_case (lib : Library) (s : WState) (cr : List Lit) (p out : Lit)
    (mc enc k w : Nat) (e : Encoder)
    (hbm : s.boundMapping p = some ((enc, k), w))
    (hw : mc < w) (hw64 : w < 2 ^ 64)
    (hp : p ∈ s.cardinality_assumptions)
    (he : s.soft_cardinality[enc]? = some e) (hc : e.hasCardEncoding = true)
    (ho : (lib.buildCardinality s.solver e.lits k).2.outputs[k]? = some out)
    (hne : out ≠ p)
    (hnext : ∀ o, (lib.incUpdateCardinality (lib.buildCardinality s.solver e.lits k).1
        (lib.buildCardinality s.solver e.lits k).2 (k + 1)).2.outputs[k + 1]? = some o →
      o ≠ p ∧ o ≠ out) :
    ∃ t, relaxCard lib s cr p mc = some (t, cr ++ [out]) ∧
      p ∈ t.cardinality_assumptions ∧
      t.boundMapping p = some ((enc, k), w - mc) ∧
      t.soft_cardinality = s.soft_cardinality ++
        [(lib.incUpdateCardinality (lib.buildCardinality s.solver e.lits k).1
          (lib.buildCardinality s.solver e.lits k).2 (k + 1)).2] ∧
      t.boundMapping out = some ((s.soft_cardinality.length, k), mc) ∧
      (w - mc) + mc = w ∧
      (∀ o, (lib.incUpdateCardinality (lib.buildCardinality s.solver e.lits k).1
          (lib.buildCardinality s.solver e.lits k).2 (k + 1)).2.outputs[k + 1]? = some o →
        t.boundMapping o = some ((s.soft_cardinality.length, k + 1), mc) ∧
        o ∈ t.cardinality_assumptions) := by
  have hsub : u64sub w mc = w - mc := u64sub_of_lt w mc hw hw64
  have hwne : ¬ w = mc := by omega
  have hpos : w - mc > 0 := by omega
  have hlen : (s.soft_cardinality ++ [(lib.buildCardinality s.solver e.lits k).2]).length - 1
      = s.soft_cardinality.length := by simp
  have hget : (s.soft_cardinality ++
      [(lib.buildCardinality s.solver e.lits k).2])[s.soft_cardinality.length]? =
      some (lib.buildCardinality s.solver e.lits k).2 := by simp
  have hbm2 : mapInsert (mapInsert s.boundMapping out ((s.soft_cardinality.length, k), mc))
      p ((enc, k), w - mc) out = some ((s.soft_cardinality.length, k), mc) := by
    simp [mapInsert, hne]
  cases hnx : (lib.incUpdateCardinality (lib.buildCardinality s.solver e.lits k).1
      (lib.buildCardinality s.solver e.lits k).2 (k + 1)).2.outputs[k + 1]? with
  | none =>
    have hr := raiseBound_none lib
      { s with solver := (lib.buildCardinality s.solver e.lits k).1,
               soft_cardinality :=
                 s.soft_cardinality ++ [(lib.buildCardinality s.solver e.lits k).2],
               boundMapping :=
                 mapInsert (mapInsert s.boundMapping out ((s.soft_cardinality.length, k), mc))
                   p ((enc, k), w - mc) }
      s.soft_cardinality.length k mc _ hget hnx
    refine ⟨{ s with
        solver := (lib.incUpdateCardinality (lib.buildCardinality s.solver e.lits k).1
          (lib.buildCardinality s.solver e.lits k).2 (k + 1)).1,
        soft_cardinality :=
          (s.soft_cardinality ++ [(lib.buildCardinality s.solver e.lits k).2]).set
            s.soft_cardinality.length
            (lib.incUpdateCardinality (lib.buildCardinality s.solver e.lits k).1
              (lib.buildCardinality s.solver e.lits k).2 (k + 1)).2,
        boundMapping :=
          mapInsert (mapInsert s.boundMapping out ((s.soft_cardinality.length, k), mc))
            p ((enc, k), w - mc) }, ?_, ?_⟩
    · simp only [relaxCard, hbm, hp, not_true_eq_false, if_false, he, hc, Bool.not_true,
        Bool.false_eq_true, hwne, ho, hsub, hlen, hbm2, hr]
      rw [if_neg (not_not.mpr hpos)]
    · refine ⟨hp, by simp [mapInsert], by simp [set_append_last], hbm2, by omega, ?_⟩
      intro o h; cases h
  | some o =>
    have hr := raiseBound_some lib
      { s with solver := (lib.buildCardinality s.solver e.lits k).1,
               soft_cardinality :=
                 s.soft_cardinality ++ [(lib.buildCardinality s.solver e.lits k).2],
               boundMapping :=
                 mapInsert (mapInsert s.boundMapping out ((s.soft_cardinality.length, k), mc))
                   p ((enc, k), w - mc) }
      s.soft_cardinality.length k mc _ o hget hnx
    have hn := hnext o hnx
    refine ⟨{ s with
        solver := (lib.incUpdateCardinality (lib.buildCardinality s.solver e.lits k).1
          (lib.buildCardinality s.solver e.lits k).2 (k + 1)).1,
        soft_cardinality :=
          (s.soft_cardinality ++ [(lib.buildCardinality s.solver e.lits k).2]).set
            s.soft_cardinality.length
            (lib.incUpdateCardinality (lib.buildCardinality s.solver e.lits k).1
              (lib.buildCardinality s.solver e.lits k).2 (k + 1)).2,
        boundMapping :=
          mapInsert (mapInsert (mapInsert s.boundMapping out
            ((s.soft_cardinality.length, k), mc)) p ((enc, k), w - mc))
            o ((s.soft_cardinality.length, k + 1), mc),
        cardinality_assumptions := setInsert o s.cardinality_assumptions }, ?_, ?_⟩
    · simp only [relaxCard, hbm, hp, not_true_eq_false, if_false, he, hc, Bool.not_true,
        Bool.false_eq_true, hwne, ho, hsub, hlen, hbm2, hr]
      rw [if_neg (not_not.mpr hpos)]
    · refine ⟨mem_setInsert_of_mem _ _ _ hp, ?_, by simp [set_append_last], ?_, by omega, ?_⟩
      · simp [mapInsert, Ne.symm hn.1]
      · simp [mapInsert, Ne.symm hn.2, hne]
      · intro o2 h2
        cases h2
        exact ⟨by simp [mapInsert], mem_setInsert_self _ _⟩

/-- C27 on the search on `pairFormula` after the core `{3, 4}`: output 7 (index 1 of
encoder 0, weight 2) in a core with `min_core = 1` keeps weight 1; the new encoder 1
over the literals 3 and 4 has output 9 at index 1, registered with weight 1. -/
theorem weight_greater_case_witness :
    pairAfterCore.boundMapping (mkLit 7 false) = some ((0, 1), 2) ∧
    mkLit 7 false ∈ pairAfterCore.cardinality_assumptions ∧
    ∃ t, relaxCard simpleLibrary pairAfterCore [] (mkLit 7 false) 1 =
        some (t, [] ++ [mkLit 9 false]) ∧
      mkLit 7 false ∈ t.cardinality_assumptions ∧
      t.boundMapping (mkLit 7 false) = some ((0, 1), 2 - 1) ∧
      t.boundMapping (mkLit 9 false) = some ((1, 1), 1) := by
  have h := weight_greater_case simpleLibrary pairAfterCore [] (mkLit 7 false)
    (mkLit 9 false) 1 0 1 2
    { lits := [mkLit 3 false, mkLit 4 false],
      outputs := [mkLit 6 false, mkLit 7 false], hasCardEncoding := true }
    (by decide) (by decide) (by norm_num) (by decide) (by decide) rfl (by decide)
    (by decide) (by decide)
  obtain ⟨t, h1, h2, h3, -, h5, -⟩ := h
  exact ⟨by decide, by decide, t, h1, h2, h3, h5⟩

theorem raiseBound_cases (lib : Library) (s t : WState) (enc k mc : Nat)
    (h : raiseBound lib s enc k mc = some t) :
    ∃ e, s.soft_cardinality[enc]? = some e ∧
      ((¬ k + 1 < (lib.incUpdateCardinality s.solver e (k + 1)).2.outputs.length ∧
        t = { s with
          solver := (lib.incUpdateCardinality s.solver e (k + 1)).1,
          soft_cardinality :=
            s.soft_cardinality.set enc (lib.incUpdateCardinality s.solver e (k + 1)).2 }) ∨
       (∃ out, (lib.incUpdateCardinality s.solver e (k + 1)).2.outputs[k + 1]? = some out ∧
        t = { s with
          solver := (lib.incUpdateCardinality s.solver e (k + 1)).1,
          soft_cardinality :=
            s.soft_cardinality.set enc (lib.incUpdateCardinality s.solver e (k + 1)).2,
          boundMapping := mapInsert s.boundMapping out ((enc, k + 1), mc),
          cardinality_assumptions := setInsert out s.cardinality_assumptions })) := by
  unfold raiseBound at h
  split at h
  · simp at h
  · rename_i e he
    refine ⟨e, he, ?_⟩
    dsimp only at h
    split at h
    · split at h
      · simp at h
      · rename_i out hout
        cases h
        exact Or.inr ⟨out, hout, rfl⟩
    · rename_i hlt
      cases h
      exact Or.inl ⟨hlt, rfl⟩

theorem relaxCard_cases (lib : Library) (s : WState) (cr : List Lit) (p : Lit) (mc : Nat)
    (r : WState × List Lit) (h : relaxCard lib s cr p mc = some r) :
    (s.boundMapping p = none ∧ r = (s, cr)) ∨
    (∃ enc k e, s.boundMapping p = some ((enc, k), mc) ∧ p ∈ s.cardinality_assumptions ∧
      s.soft_cardinality[enc]? = some e ∧
      raiseBound lib { s with cardinality_assumptions := setErase p s.cardinality_assumptions }
        enc k mc = some r.1 ∧ r.2 = cr ++ [p]) ∨
    (∃ enc k w e out, s.boundMapping p = some ((enc, k), w) ∧ w ≠ mc ∧
      p ∈ s.cardinality_assumptions ∧ s.soft_cardinality[enc]? = some e ∧
      (lib.buildCardinality s.solver e.lits k).2.outputs[k]? = some out ∧
      0 < u64sub w mc ∧
      ∃ id2, mapInsert (mapInsert s.boundMapping out ((s.soft_cardinality.length, k), mc))
          p ((enc, k), u64sub w mc) out = some id2 ∧
        raiseBound lib
          { s with
            solver := (lib.buildCardinality s.solver e.lits k).1,
            soft_cardinality :=
              s.soft_cardinality ++ [(lib.buildCardinality s.solver e.lits k).2],
            boundMapping :=
              mapInsert (mapInsert s.boundMapping out ((s.soft_cardinality.length, k), mc))
                p ((enc, k), u64sub w mc) }
          id2.1.1 id2.1.2 mc = some r.1 ∧ r.2 = cr ++ [out]) := by
  unfold relaxCard at h
  split at h
  · rename_i hbm
    cases h
    exact Or.inl ⟨hbm, rfl⟩
  · rename_i soft_id hbm
    obtain ⟨⟨enc, k⟩, w⟩ := soft_id
    split at h
    · simp at h
    · rename_i hp
      split at h
      · simp at h
      · rename_i e he
        split at h
        · simp at h
        · split at h
          · rename_i hw
            dsimp only at h hw
            split at h
            · simp at h
            · rename_i s2 hs2
              cases h
              subst hw
              exact Or.inr (Or.inl ⟨enc, k, e, hbm, not_not.mp hp, he, hs2, rfl⟩)
          · rename_i hw
            dsimp only at h hw
            split at h
            · simp at h
            · rename_i out hout
              split at h
              · simp at h
              · rename_i hpos
                split at h
                · simp at h
                · rename_i id2 hid2
                  split at h
                  · simp at h
                  · rename_i s2 hs2
                    cases h
                    simp only [List.length_append, List.length_singleton,
                      Nat.add_sub_cancel] at hid2 hs2
                    exact Or.inr (Or.inr ⟨enc, k, w, e, out, hbm, hw, not_not.mp hp, he,
                      hout, not_not.mp hpos, id2, hid2, hs2, rfl⟩)

theorem u64sub_lt_pow (a b : Nat) : u64sub a b < 2 ^ 64 := by
  unfold u64sub
  exact Nat.mod_lt _ (by norm_num)

theorem mem_registeredWeights (s : WState) (ps : List Lit) (w : Nat)
    (h : w ∈ registeredWeights s ps) :
    (∃ S, S ∈ s.formula.soft ∧ w = S.weight) ∨ (∃ o v, s.boundMapping o = some v ∧ w = v.2) := by
  induction ps with
  | nil => simp [registeredWeights] at h
  | cons p ps ih =>
    simp only [registeredWeights, List.mem_append] at h
    rcases h with (h | h) | h
    · split at h
      · simp at h
      · split at h
        · simp at h
        · rename_i idx _ S hS
          simp only [List.mem_singleton] at h
          exact Or.inl ⟨S, List.getElem?_mem hS, h⟩
    · split at h
      · simp at h
      · rename_i v hv
        simp only [List.mem_singleton] at h
        exact Or.inr ⟨p, v, hv, h⟩
    · exact ih h

theorem minCoreLoop_bounds (s : WState) (hW : WeightsPos s) (ps : List Lit) (mc : Nat)
    (h : minCoreLoop s ps UINT64_MAX = some mc) : 1 ≤ mc ∧ mc < 2 ^ 64 := by
  have h1 := minCoreLoop_eq_foldl s ps UINT64_MAX mc h
  rcases foldl_min_mem (registeredWeights s ps) UINT64_MAX with h2 | h2
  · rw [h1, h2]
    unfold UINT64_MAX
    norm_num
  · rw [← h1] at h2
    rcases mem_registeredWeights s ps mc h2 with ⟨S, hS, e⟩ | ⟨o, v, hv, e⟩
    · rw [e]; exact hW.1 S hS
    · rw [e]; exact hW.2 o v hv

theorem relaxSoft_weights (s t : SoftState) (p : Lit) (mc : Nat)
    (h : relaxSoft s p mc = some t) (h1 : 1 ≤ mc) (h2 : mc < 2 ^ 64)
    (hW : ∀ S, S ∈ s.formula.soft → 1 ≤ S.weight ∧ S.weight < 2 ^ 64) :
    ∀ S, S ∈ t.formula.soft → 1 ≤ S.weight ∧ S.weight < 2 ^ 64 := by
  rcases relaxSoft_cases s t p mc h with ⟨-, e⟩ | ⟨idx, S0, -, hS0, hlt, hsp⟩ | ⟨idx, S0, -, -, -, -, e⟩
  · subst e; exact hW
  · obtain ⟨n, -, -, -, hsoft, -⟩ := splitClause_spec s t idx S0 mc hS0 hsp
    have hb := hW S0 (List.getElem?_mem hS0)
    have hsub := u64sub_of_lt S0.weight mc hlt hb.2
    intro S hS
    rw [hsoft, List.mem_append] at hS
    rcases hS with hS | hS
    · rcases List.mem_or_eq_of_mem_set hS with hS | hS
      · exact hW S hS
      · subst hS
        simp only [hsub]
        omega
    · simp only [List.mem_singleton] at hS
      subst hS
      exact ⟨h1, h2⟩
  · subst e; exact hW

theorem raiseBound_weights (lib : Library) (s t : WState) (enc k mc : Nat)
    (h : raiseBound lib s enc k mc = some t) (h1 : 1 ≤ mc) (h2 : mc < 2 ^ 64)
    (hW : WeightsPos s) : WeightsPos t := by
  obtain ⟨e, -, ⟨-, rfl⟩ | ⟨out, -, rfl⟩⟩ := raiseBound_cases lib s t enc k mc h
  · exact hW
  · refine ⟨hW.1, ?_⟩
    intro o v hv
    simp only [mapInsert] at hv
    split at hv
    · cases hv; exact ⟨h1, h2⟩
    · exact hW.2 o v hv

theorem relaxCard_weights (lib : Library) (s : WState) (cr : List Lit) (p : Lit) (mc : Nat)
    (r : WState × List Lit) (h : relaxCard lib s cr p mc = some r)
    (h1 : 1 ≤ mc) (h2 : mc < 2 ^ 64) (hW : WeightsPos s) : WeightsPos r.1 := by
  rcases relaxCard_cases lib s cr p mc r h with ⟨-, e⟩ | ⟨enc, k, e, -, -, -, hr, -⟩ |
    ⟨enc, k, w, e, out, -, -, -, -, -, hpos, id2, -, hr, -⟩
  · subst e; exact hW
  · exact raiseBound_weights lib _ _ _ _ _ hr h1 h2 hW
  · refine raiseBound_weights lib _ _ _ _ _ hr h1 h2 ⟨hW.1, ?_⟩
    intro o v hv
    simp only [mapInsert] at hv
    split at hv
    · cases hv; exact ⟨hpos, u64sub_lt_pow _ _⟩
    · split at hv
      · cases hv; exact ⟨h1, h2⟩
      · exact hW.2 o v hv

theorem coreLoop_weights (lib : Library) (mc : Nat) (h1 : 1 ≤ mc) (h2 : mc < 2 ^ 64)
    (ps : List Lit) (s : WState) (sr cr : List Lit) (r : WState × List Lit × List Lit)
    (h : coreLoop lib mc ps s sr cr = some r) (hW : WeightsPos s) : WeightsPos r.1 := by
  induction ps generalizing s sr cr with
  | nil =>
    simp only [coreLoop, Option.some.injEq] at h
    subst h
    exact hW
  | cons p ps ih =>
    simp only [coreLoop] at h
    split at h
    · simp at h
    · rename_i t ht
      split at h
      · simp at h
      · rename_i q hq
        refine ih _ _ _ h (relaxCard_weights lib _ _ _ _ _ hq h1 h2 ⟨?_, hW.2⟩)
        exact relaxSoft_weights _ _ _ _ ht h1 h2 hW.1

theorem harden_weights (lib : Library) (s t : WState) (sr cr : List Lit) (mc : Nat)
    (h : harden lib s sr cr mc = some t) (h1 : 1 ≤ mc) (h2 : mc < 2 ^ 64)
    (hW : WeightsPos s) : WeightsPos t := by
  have hu := unitCore_fields s sr cr
  have hf := (harden_sameSoft lib s t sr cr mc h).1
  refine ⟨by rw [hf]; exact hW.1, ?_⟩
  unfold harden at h
  dsimp only at h
  split at h
  · split at h
    · simp at h
    · cases h
      intro o v hv
      simp only [mapInsert] at hv
      split at hv
      · cases hv; exact ⟨h1, h2⟩
      · rw [hu.2.2.2.1] at hv
        exact hW.2 o v hv
  · cases h
    intro o v hv
    rw [hu.2.2.2.1] at hv
    exact hW.2 o v hv

theorem resetAssumptions_boundMapping (s t : WState) (h : resetAssumptions s = some t) :
    t.boundMapping = s.boundMapping := by
  unfold resetAssumptions at h
  split at h
  · simp at h
  · cases h; rfl

theorem step_weights (lib : Library) (s t : WState) (ans : Answer)
    (h : tWeightedStep lib s ans = Result.next t) (hW : WeightsPos s) : WeightsPos t := by
  cases ans with
  | sat m =>
    have hs := satStep_next lib s t m h
    exact ⟨by rw [hs.1]; exact hW.1, by rw [hs.2.2.2.1]; exact hW.2⟩
  | unsat conflict =>
    obtain ⟨mc, r, s3, hmc, -, hcl, hh, hra⟩ := unsatStep_next lib s t conflict h
    have hb := minCoreLoop_bounds s hW conflict mc hmc
    have h0 : WeightsPos (afterMinCore s mc conflict.length) := hW
    have h3 := harden_weights lib _ _ _ _ _ hh hb.1 hb.2
      (coreLoop_weights lib mc hb.1 hb.2 _ _ _ _ _ hcl h0)
    refine ⟨?_, ?_⟩
    · rw [(resetAssumptions_sameSoft s3 t hra).1]; exact h3.1
    · rw [resetAssumptions_boundMapping s3 t hra]; exact h3.2

theorem relaxFrom_weights (n : Nat) (l : List Soft) (S : Soft) (h : S ∈ relaxFrom n l) :
    ∃ S0, S0 ∈ l ∧ S.weight = S0.weight := by
  induction l generalizing n with
  | nil => simp [relaxFrom] at h
  | cons T rest ih =>
    simp only [relaxFrom, List.mem_cons] at h
    rcases h with h | h
    · exact ⟨T, List.mem_cons_self _ _, by rw [h]⟩
    · obtain ⟨S0, h0, e⟩ := ih _ h
      exact ⟨S0, List.mem_cons_of_mem _ h0, e⟩

theorem initState_weights (f : Formula)
    (hf : ∀ S, S ∈ f.soft → 1 ≤ S.weight ∧ S.weight < 2 ^ 64) : WeightsPos (initState f) := by
  refine ⟨?_, ?_⟩
  · intro S hS
    obtain ⟨S0, h0, e⟩ := relaxFrom_weights f.nVars f.soft S hS
    rw [e]; exact hf S0 h0
  · intro o v hv
    cases hv

theorem stateAfter_weights (lib : Library) (answers : List Answer) (s t : WState)
    (hW : WeightsPos s) (h : stateAfter (tWeightedStep lib) answers s = some t) :
    WeightsPos t := by
  induction answers generalizing s with
  | nil =>
    simp only [stateAfter, Option.some.injEq] at h
    subst h
    exact hW
  | cons ans rest ih =>
    simp only [stateAfter] at h
    split at h
    · rename_i u hu
      exact ih u (step_weights lib s u ans hu hW) h
    · simp at h

theorem setInsert_perm (x : Lit) (l : List Lit) (h : x ∉ l) :
    (setInsert x l).Perm (x :: l) := by
  induction l with
  | nil => simp [setInsert]
  | cons y ys ih =>
    simp only [setInsert]
    split
    · exact List.Perm.refl _
    · split
      · rename_i e
        exact absurd (by simp [e]) h
      · have hy : x ∉ ys := fun hm => h (List.mem_cons_of_mem _ hm)
        exact ((ih hy).cons y).trans (List.Perm.swap x y ys)

theorem setErase_perm (p : Lit) (l : List Lit) (hn : l.Nodup) (hp : p ∈ l) :
    l.Perm (p :: setErase p l) := by
  have e : setErase p l = l.erase p := by
    rw [List.Nodup.erase_eq_filter hn]
    rfl
  rw [e]
  exact List.perm_cons_erase hp

theorem sum_map_setInsert (g : Lit → Nat) (x : Lit) (l : List Lit) (h : x ∉ l) :
    ((setInsert x l).map g).sum = g x + (l.map g).sum := by
  have := ((setInsert_perm x l h).map g).sum_eq
  simpa using this

theorem sum_map_setErase (g : Lit → Nat) (p : Lit) (l : List Lit) (hn : l.Nodup)
    (hp : p ∈ l) : (l.map g).sum = g p + ((setErase p l).map g).sum := by
  have := ((setErase_perm p l hn hp).map g).sum_eq
  simpa using this

theorem nodup_setInsert (x : Lit) (l : List Lit) (h : x ∉ l) (hn : l.Nodup) :
    (setInsert x l).Nodup :=
  (setInsert_perm x l h).nodup_iff.mpr (List.nodup_cons.mpr ⟨h, hn⟩)

theorem nodup_setErase (p : Lit) (l : List Lit) (hn : l.Nodup) : (setErase p l).Nodup :=
  hn.filter _

theorem sum_map_congr_mem (g g2 : Lit → Nat) (l : List Lit)
    (h : ∀ o, o ∈ l → g o = g2 o) : (l.map g).sum = (l.map g2).sum := by
  rw [List.map_congr_left h]

theorem nodup_getElem?_inj {α : Type} (l : List α) (hn : l.Nodup) (i j : Nat) (a : α)
    (hi : l[i]? = some a) (hj : l[j]? = some a) : i = j := by
  have hi2 : i < l.length := by
    rcases Nat.lt_or_ge i l.length with h | h
    · exact h
    · rw [List.getElem?_eq_none h] at hi; cases hi
  have hj2 : j < l.length := by
    rcases Nat.lt_or_ge j l.length with h | h
    · exact h
    · rw [List.getElem?_eq_none h] at hj; cases hj
  rw [List.getElem?_eq_getElem hi2] at hi
  rw [List.getElem?_eq_getElem hj2] at hj
  have := (@List.Nodup.getElem_inj_iff _ l hn i hi2 j hj2).mp
    (by rw [Option.some.inj hi, Option.some.inj hj])
  exact this

theorem getElem?_lt_length {α : Type} (l : List α) (i : Nat) (a : α) (h : l[i]? = some a) :
    i < l.length := by
  rcases Nat.lt_or_ge i l.length with h1 | h1
  · exact h1
  · rw [List.getElem?_eq_none h1] at h; cases h

theorem sum_map_update (g g2 : Lit → Nat) (l : List Lit) (p : Lit) (hn : l.Nodup)
    (hp : p ∈ l) (h : ∀ o, o ∈ l → o ≠ p → g2 o = g o) :
    (l.map g2).sum + g p = (l.map g).sum + g2 p := by
  rw [sum_map_setErase g p l hn hp, sum_map_setErase g2 p l hn hp]
  have e : ((setErase p l).map g2).sum = ((setErase p l).map g).sum := by
    apply sum_map_congr_mem
    intro o ho
    have h1 := mem_setErase p o l ho
    have h2 : o ≠ p := by
      intro e
      subst e
      exact not_mem_setErase_self o l ho
    exact h o h1 h2
  omega

theorem outputsLen_of_getElem? (encs : List Encoder) (e : Nat) (enc : Encoder)
    (h : encs[e]? = some enc) : outputsLen encs e = enc.outputs.length := by
  simp [outputsLen, h]

theorem outputsLen_append (encs : List Encoder) (x : Encoder) (e : Nat) (enc : Encoder)
    (h : encs[e]? = some enc) : outputsLen (encs ++ [x]) e = outputsLen encs e := by
  have hl := getElem?_lt_length encs e enc h
  simp [outputsLen, List.getElem?_append_left hl]

/-- The bookkeeping stays consistent, and `cardPotential` the same, when the assumed
outputs and their registrations stay and the encoders keep their outputs and inputs. -/
theorem cardOK_of_similar (s t : WState) (hok : CardOK s)
    (hca : t.cardinality_assumptions = s.cardinality_assumptions)
    (hbm : ∀ o, o ∈ s.cardinality_assumptions → t.boundMapping o = s.boundMapping o)
    (henc : ∀ (i : Nat) (x : Encoder), t.soft_cardinality[i]? = some x →
      ∃ y, s.soft_cardinality[i]? = some y ∧ y.outputs = x.outputs ∧ y.lits = x.lits)
    (henc2 : ∀ (i : Nat) (y : Encoder), s.soft_cardinality[i]? = some y →
      ∃ x, t.soft_cardinality[i]? = some x ∧ x.outputs = y.outputs)
    (hn : s.solver.nVars ≤ t.solver.nVars) :
    CardOK t ∧ cardPotential t = cardPotential s := by
  refine ⟨⟨?_, ?_, ?_, ?_, ?_, ?_⟩, ?_⟩
  · rw [hca]; exact hok.nodup
  · intro o ho
    rw [hca] at ho
    obtain ⟨e, k, w, enc, h1, h2, h3, h4⟩ := hok.key o ho
    obtain ⟨x, hx, hxo⟩ := henc2 e enc h2
    exact ⟨e, k, w, x, by rw [hbm o ho]; exact h1, hx, by rw [hxo]; exact h3, h4⟩
  · intro e e2 enc enc2 k k2 o h1 h2 h3 h4
    obtain ⟨y, hy, hyo, -⟩ := henc e enc h1
    obtain ⟨y2, hy2, hyo2, -⟩ := henc e2 enc2 h2
    exact hok.inj e e2 y y2 k k2 o hy hy2 (by rw [hyo]; exact h3) (by rw [hyo2]; exact h4)
  · intro e enc o h1 h2
    obtain ⟨y, hy, hyo, -⟩ := henc e enc h1
    have := hok.bound e y o hy (by rw [hyo]; exact h2)
    omega
  · intro o o2 e k k2 w w2 h1 h2 h3 h4
    rw [hca] at h1 h2
    rw [hbm o h1] at h3
    rw [hbm o2 h2] at h4
    exact hok.one o o2 e k k2 w w2 h1 h2 h3 h4
  · intro e enc h1
    obtain ⟨y, hy, hyo, hyl⟩ := henc e enc h1
    rw [← hyo, ← hyl]
    exact hok.len e y hy
  · unfold cardPotential
    rw [hca]
    apply sum_map_congr_mem
    intro o ho
    obtain ⟨e, k, w, enc, h1, h2, h3, h4⟩ := hok.key o ho
    obtain ⟨x, hx, hxo⟩ := henc2 e enc h2
    simp only [cardTerm, hbm o ho, h1, outputsLen, hx, h2, hxo]

/-- A further output is registered and assumed: `out`, the output at bound `k` of encoder
`e`, which has no assumed output yet. -/
theorem cardOK_insert (s : WState) (hok : CardOK s) (out : Lit) (e k w : Nat) (enc : Encoder)
    (henc : s.soft_cardinality[e]? = some enc) (hk : enc.outputs[k]? = some out)
    (h1 : 1 ≤ k)
    (hfree : ∀ o v, o ∈ s.cardinality_assumptions → s.boundMapping o = some v →
      v.1.1 ≠ e) :
    out ∉ s.cardinality_assumptions ∧
    CardOK { s with boundMapping := mapInsert s.boundMapping out ((e, k), w),
                    cardinality_assumptions := setInsert out s.cardinality_assumptions } ∧
    cardPotential { s with boundMapping := mapInsert s.boundMapping out ((e, k), w),
                           cardinality_assumptions := setInsert out s.cardinality_assumptions } =
      cardPotential s + w * (outputsLen s.soft_cardinality e - k) := by
  have hout : out ∉ s.cardinality_assumptions := by
    intro hm
    obtain ⟨e0, k0, w0, enc0, a1, a2, a3, -⟩ := hok.key out hm
    have := (hok.inj e0 e enc0 enc k0 k out a2 henc a3 hk).1
    exact hfree out _ hm a1 this
  have hne : ∀ o, o ∈ s.cardinality_assumptions → o ≠ out := by
    intro o ho e0
    subst e0
    exact hout ho
  refine ⟨hout, ⟨?_, ?_, ?_, ?_, ?_, ?_⟩, ?_⟩
  · exact nodup_setInsert out _ hout hok.nodup
  · intro o ho
    rcases mem_setInsert out o _ ho with h | h
    · subst h
      exact ⟨e, k, w, enc, by simp [mapInsert], henc, hk, h1⟩
    · obtain ⟨e0, k0, w0, enc0, a1, a2, a3, a4⟩ := hok.key o h
      exact ⟨e0, k0, w0, enc0, by simp [mapInsert, hne o h, a1], a2, a3, a4⟩
  · exact hok.inj
  · exact hok.bound
  · intro o o2 e0 k0 k2 w0 w2 m1 m2 b1 b2
    have n1 := mem_setInsert out o _ m1
    have n2 := mem_setInsert out o2 _ m2
    simp only [mapInsert] at b1 b2
    rcases n1 with n1 | n1 <;> rcases n2 with n2 | n2
    · rw [n1, n2]
    · rw [if_pos n1] at b1
      simp only [Option.some.injEq, Prod.mk.injEq] at b1
      rw [if_neg (hne o2 n2)] at b2
      exact absurd b1.1.1.symm (hfree o2 _ n2 b2)
    · rw [if_pos n2] at b2
      simp only [Option.some.injEq, Prod.mk.injEq] at b2
      rw [if_neg (hne o n1)] at b1
      exact absurd b2.1.1.symm (hfree o _ n1 b1)
    · rw [if_neg (hne o n1)] at b1
      rw [if_neg (hne o2 n2)] at b2
      exact hok.one o o2 e0 k0 k2 w0 w2 n1 n2 b1 b2
  · exact hok.len
  · have hkey : ∀ t : WState, t.boundMapping = mapInsert s.boundMapping out ((e, k), w) →
        t.soft_cardinality = s.soft_cardinality →
        t.cardinality_assumptions = setInsert out s.cardinality_assumptions →
        cardPotential t = cardPotential s + w * (outputsLen s.soft_cardinality e - k) := by
      intro t hb hs hc
      unfold cardPotential
      rw [hc, sum_map_setInsert _ out _ hout]
      have e2 : (s.cardinality_assumptions.map (cardTerm t)).sum =
          (s.cardinality_assumptions.map (cardTerm s)).sum := by
        apply sum_map_congr_mem
        intro o ho
        simp [cardTerm, hb, hs, mapInsert, hne o ho]
      have e1 : cardTerm t out = w * (outputsLen s.soft_cardinality e - k) := by
        simp [cardTerm, hb, hs, mapInsert]
      rw [e1, e2]
      omega
    refine hkey _ ?_ ?_ ?_ <;> rfl

/-- A new encoder with new, distinct output literals is appended. -/
theorem cardOK_append (s : WState) (hok : CardOK s) (S2 : SatSolver) (x : Encoder)
    (hfresh : ∀ o, o ∈ x.outputs → s.solver.nVars ≤ o.var ∧ o.var < S2.nVars)
    (hnd : x.outputs.Nodup) (hlen : x.outputs.length = x.lits.length)
    (hn : s.solver.nVars ≤ S2.nVars) :
    CardOK { s with solver := S2, soft_cardinality := s.soft_cardinality ++ [x] } ∧
    cardPotential { s with solver := S2, soft_cardinality := s.soft_cardinality ++ [x] } =
      cardPotential s ∧
    (∀ o, o ∈ x.outputs → o ∉ s.cardinality_assumptions) ∧
    (∀ o v, o ∈ s.cardinality_assumptions → s.boundMapping o = some v →
      v.1.1 ≠ s.soft_cardinality.length) := by
  have hcases : ∀ (i : Nat) (y : Encoder), (s.soft_cardinality ++ [x])[i]? = some y →
      s.soft_cardinality[i]? = some y ∨ (i = s.soft_cardinality.length ∧ y = x) := by
    intro i y hy
    rcases Nat.lt_or_ge i s.soft_cardinality.length with h | h
    · rw [List.getElem?_append_left h] at hy
      exact Or.inl hy
    · rw [List.getElem?_append_right h] at hy
      rcases Nat.eq_or_lt_of_le h with h2 | h2
      · right
        rw [← h2] at hy
        simp at hy
        exact ⟨h2.symm, hy.symm⟩
      · have : i - s.soft_cardinality.length ≥ 1 := by omega
        rw [List.getElem?_eq_none (by simpa using this)] at hy
        cases hy
  have hold : ∀ (i : Nat) (y : Encoder) (o : Lit), s.soft_cardinality[i]? = some y → o ∈ y.outputs →
      o ∉ x.outputs := by
    intro i y o hy ho hx
    have := hok.bound i y o hy ho
    have := (hfresh o hx).1
    omega
  have hmem : ∀ o, o ∈ x.outputs → o ∉ s.cardinality_assumptions := by
    intro o hx hm
    obtain ⟨e0, k0, w0, enc0, a1, a2, a3, -⟩ := hok.key o hm
    exact hold e0 enc0 o a2 (List.getElem?_mem a3) hx
  have hidx : ∀ o v, o ∈ s.cardinality_assumptions → s.boundMapping o = some v →
      v.1.1 ≠ s.soft_cardinality.length := by
    intro o v hm hv
    obtain ⟨e0, k0, w0, enc0, a1, a2, a3, -⟩ := hok.key o hm
    rw [a1] at hv
    cases hv
    have := getElem?_lt_length _ _ _ a2
    simp only
    omega
  refine ⟨⟨hok.nodup, ?_, ?_, ?_, hok.one, ?_⟩, ?_, hmem, hidx⟩
  · intro o ho
    obtain ⟨e0, k0, w0, enc0, a1, a2, a3, a4⟩ := hok.key o ho
    refine ⟨e0, k0, w0, enc0, a1, ?_, a3, a4⟩
    simp only
    rw [List.getElem?_append_left (getElem?_lt_length _ _ _ a2)]
    exact a2
  · intro e e2 enc enc2 k k2 o h1 h2 h3 h4
    rcases hcases e enc h1 with c1 | ⟨c1, d1⟩ <;> rcases hcases e2 enc2 h2 with c2 | ⟨c2, d2⟩
    · exact hok.inj e e2 enc enc2 k k2 o c1 c2 h3 h4
    · subst d2
      exact absurd (List.getElem?_mem h4) (hold e enc o c1 (List.getElem?_mem h3))
    · subst d1
      exact absurd (List.getElem?_mem h3) (hold e2 enc2 o c2 (List.getElem?_mem h4))
    · subst d1 d2
      exact ⟨by rw [c1, c2], nodup_getElem?_inj _ hnd k k2 o h3 h4⟩
  · intro e enc o h1 h2
    rcases hcases e enc h1 with c1 | ⟨c1, d1⟩
    · have := hok.bound e enc o c1 h2
      simp only
      omega
    · subst d1
      exact (hfresh o h2).2
  · intro e enc h1
    rcases hcases e enc h1 with c1 | ⟨c1, d1⟩
    · exact hok.len e enc c1
    · subst d1
      exact hlen
  · unfold cardPotential
    simp only
    apply sum_map_congr_mem
    intro o ho
    obtain ⟨e0, k0, w0, enc0, a1, a2, a3, a4⟩ := hok.key o ho
    simp only [cardTerm, a1, outputsLen_append _ x e0 enc0 a2]

theorem getElem?_set_cases (encs : List Encoder) (enc : Nat) (e x : Encoder)
    (he : encs[enc]? = some e) (i : Nat) :
    (i = enc ∧ (encs.set enc x)[i]? = some x) ∨ (i ≠ enc ∧ (encs.set enc x)[i]? = encs[i]?) := by
  have hl := getElem?_lt_length encs enc e he
  rcases Nat.decEq i enc with h | h
  · right
    exact ⟨h, by rw [List.getElem?_set_ne (Ne.symm h)]⟩
  · left
    subst h
    exact ⟨rfl, by rw [List.getElem?_set_self hl]⟩

/-- The state after `raiseBound`: the bookkeeping stays consistent and `cardPotential`
grows by the weight times the bounds left above `k + 1`. -/
theorem raiseBound_potential (lib : Library) (hlib : lib.Totalizer) (s t : WState)
    (enc k mc : Nat) (h : raiseBound lib s enc k mc = some t) (hok : CardOK s)
    (hfree : ∀ o v, o ∈ s.cardinality_assumptions → s.boundMapping o = some v →
      v.1.1 ≠ enc) :
    CardOK t ∧
    cardPotential t = cardPotential s + mc * (outputsLen s.soft_cardinality enc - (k + 1)) := by
  obtain ⟨e, he, hcase⟩ := raiseBound_cases lib s t enc k mc h
  obtain ⟨hul, huo, hun⟩ := hlib.2.1 s.solver e (k + 1)
  have hlenE : outputsLen s.soft_cardinality enc = e.outputs.length :=
    outputsLen_of_getElem? _ _ _ he
  have hA := cardOK_of_similar s
    { s with
      solver := (lib.incUpdateCardinality s.solver e (k + 1)).1,
      soft_cardinality :=
        s.soft_cardinality.set enc (lib.incUpdateCardinality s.solver e (k + 1)).2 }
    hok rfl (fun _ _ => rfl)
    (by
      intro i x hx
      rcases getElem?_set_cases s.soft_cardinality enc e
        (lib.incUpdateCardinality s.solver e (k + 1)).2 he i with ⟨h1, h2⟩ | ⟨h1, h2⟩
      · have hx2 : (s.soft_cardinality.set enc
            (lib.incUpdateCardinality s.solver e (k + 1)).2)[i]? = some x := hx
        rw [h2] at hx2
        cases hx2
        exact ⟨e, by rw [h1]; exact he, huo.symm, hul.symm⟩
      · have hx2 : (s.soft_cardinality.set enc
            (lib.incUpdateCardinality s.solver e (k + 1)).2)[i]? = some x := hx
        rw [h2] at hx2
        exact ⟨x, hx2, rfl, rfl⟩)
    (by
      intro i y hy
      rcases getElem?_set_cases s.soft_cardinality enc e
        (lib.incUpdateCardinality s.solver e (k + 1)).2 he i with ⟨h1, h2⟩ | ⟨h1, h2⟩
      · refine ⟨_, h2, ?_⟩
        rw [h1, he] at hy
        cases hy
        exact huo
      · exact ⟨y, by rw [← hy]; exact h2, rfl⟩)
    hun
  have hencA : (s.soft_cardinality.set enc
      (lib.incUpdateCardinality s.solver e (k + 1)).2)[enc]? =
      some (lib.incUpdateCardinality s.solver e (k + 1)).2 := by
    rw [List.getElem?_set_self (getElem?_lt_length _ _ _ he)]
  rcases hcase with ⟨hlt, rfl⟩ | ⟨out, hout, rfl⟩
  · refine ⟨hA.1, ?_⟩
    rw [hA.2, hlenE]
    rw [huo] at hlt
    have : e.outputs.length - (k + 1) = 0 := by omega
    rw [this]
    simp
  · have hI := cardOK_insert _ hA.1 out enc (k + 1) mc
      (lib.incUpdateCardinality s.solver e (k + 1)).2 hencA hout (by omega)
      (fun o v ho hv => hfree o v ho hv)
    refine ⟨hI.2.1, ?_⟩
    rw [hI.2.2, hA.2]
    have : outputsLen (s.soft_cardinality.set enc
        (lib.incUpdateCardinality s.solver e (k + 1)).2) enc = e.outputs.length := by
      rw [outputsLen_of_getElem? _ _ _ hencA, huo]
    simp only [this, hlenE]

theorem raiseBound_bm (lib : Library) (s t : WState) (enc k mc : Nat)
    (h : raiseBound lib s enc k mc = some t) (q : Lit) (v : (Nat × Nat) × Nat)
    (hv : t.boundMapping q = some v) : s.boundMapping q = some v ∨ v.2 = mc := by
  obtain ⟨e, -, ⟨-, rfl⟩ | ⟨out, -, rfl⟩⟩ := raiseBound_cases lib s t enc k mc h
  · exact Or.inl hv
  · simp only [mapInsert] at hv
    split at hv
    · cases hv; exact Or.inr rfl
    · exact Or.inl hv

theorem relaxCard_bm (lib : Library) (s : WState) (cr : List Lit) (p : Lit) (mc : Nat)
    (r : WState × List Lit) (h : relaxCard lib s cr p mc = some r)
    (q : Lit) (hq : q ≠ p) (v : (Nat × Nat) × Nat) (hv : r.1.boundMapping q = some v) :
    s.boundMapping q = some v ∨ v.2 = mc := by
  rcases relaxCard_cases lib s cr p mc r h with ⟨-, e⟩ | ⟨enc, k, e, -, -, -, hr, -⟩ |
    ⟨enc, k, w, e, out, -, -, -, -, -, -, id2, -, hr, -⟩
  · subst e; exact Or.inl hv
  · exact raiseBound_bm lib _ _ _ _ _ hr q v hv
  · rcases raiseBound_bm lib _ _ _ _ _ hr q v hv with h1 | h1
    · simp only [mapInsert] at h1
      rw [if_neg hq] at h1
      split at h1
      · cases h1; exact Or.inr rfl
      · exact Or.inl h1
    · exact Or.inr h1

theorem cardOK_erase (s : WState) (hok : CardOK s) (p : Lit) :
    CardOK { s with cardinality_assumptions := setErase p s.cardinality_assumptions } := by
  refine ⟨nodup_setErase p _ hok.nodup, ?_, hok.inj, hok.bound, ?_, hok.len⟩
  · intro o ho
    exact hok.key o (mem_setErase p o _ ho)
  · intro o o2 e k k2 w w2 h1 h2 h3 h4
    exact hok.one o o2 e k k2 w w2 (mem_setErase p o _ h1) (mem_setErase p o2 _ h2) h3 h4

theorem cardOK_bm (s : WState) (hok : CardOK s) (bm2 : Lit → Option ((Nat × Nat) × Nat))
    (h : ∀ o, o ∈ s.cardinality_assumptions → ∀ e k w, bm2 o = some ((e, k), w) →
      ∃ w0, s.boundMapping o = some ((e, k), w0))
    (h2 : ∀ o, o ∈ s.cardinality_assumptions → ∀ e k w, s.boundMapping o = some ((e, k), w) →
      ∃ w0, bm2 o = some ((e, k), w0)) :
    CardOK { s with boundMapping := bm2 } := by
  refine ⟨hok.nodup, ?_, hok.inj, hok.bound, ?_, hok.len⟩
  · intro o ho
    obtain ⟨e, k, w, enc, a1, a2, a3, a4⟩ := hok.key o ho
    obtain ⟨w0, hw0⟩ := h2 o ho e k w a1
    exact ⟨e, k, w0, enc, hw0, a2, a3, a4⟩
  · intro o o2 e k k2 w w2 m1 m2 b1 b2
    obtain ⟨w0, c1⟩ := h o m1 e k w b1
    obtain ⟨w3, c2⟩ := h o2 m2 e k2 w2 b2
    exact hok.one o o2 e k k2 w0 w3 m1 m2 c1 c2

theorem mul_pred_add (mc d : Nat) (hd : 1 ≤ d) : mc * (d - 1) + mc = mc * d := by
  have e : d = (d - 1) + 1 := by omega
  conv => rhs; rw [e]
  rw [Nat.mul_succ]

theorem mul_split (w mc d : Nat) (h : mc ≤ w) : w * d = (w - mc) * d + mc * d := by
  rw [← Nat.add_mul, Nat.sub_add_cancel h]

/-- The cardinality block for one conflict literal keeps the bookkeeping consistent and
moves `min_core` from `cardPotential` to the relaxed literals: `cardPotential` plus
`min_core` times the length of `cardinality_relax` stays the same. -/
theorem relaxCard_potential (lib : Library) (hlib : lib.Totalizer) (s : WState)
    (cr : List Lit) (p : Lit) (mc : Nat) (r : WState × List Lit)
    (h : relaxCard lib s cr p mc = some r) (hok : CardOK s) (hW : WeightsPos s)
    (hmc : ∀ v, s.boundMapping p = some v → mc ≤ v.2) :
    CardOK r.1 ∧ cardPotential r.1 + mc * r.2.length = cardPotential s + mc * cr.length := by
  rcases relaxCard_cases lib s cr p mc r h with ⟨-, e⟩ | ⟨enc, k, e, hbm, hp, he, hr, hr2⟩ |
    ⟨enc, k, w, e, out, hbm, hw, hp, he, hout, -, id2, hid2, hr, hr2⟩
  · subst e
    exact ⟨hok, rfl⟩
  · -- weight-equal
    obtain ⟨e0, k0, w0, enc0, a1, a2, a3, a4⟩ := hok.key p hp
    rw [hbm] at a1
    cases a1
    rw [he] at a2
    cases a2
    have hk : k < e.outputs.length := getElem?_lt_length _ _ _ a3
    have hE := cardOK_erase s hok p
    have hfree : ∀ o v, o ∈ setErase p s.cardinality_assumptions →
        s.boundMapping o = some v → v.1.1 ≠ enc := by
      intro o v ho hv hc
      obtain ⟨⟨e1, k1⟩, w1⟩ := v
      simp only at hc
      subst hc
      have := hok.one o p e1 k1 k w1 mc (mem_setErase p o _ ho) hp hv hbm
      subst this
      exact not_mem_setErase_self o _ ho
    have hR := raiseBound_potential lib hlib _ _ _ _ _ hr hE hfree
    refine ⟨hR.1, ?_⟩
    have hsum : cardPotential s = cardTerm s p +
        cardPotential { s with
          cardinality_assumptions := setErase p s.cardinality_assumptions } :=
      sum_map_setErase (cardTerm s) p _ hok.nodup hp
    have hterm : cardTerm s p = mc * (e.outputs.length - k) := by
      simp [cardTerm, hbm, outputsLen_of_getElem? _ _ _ he]
    have hlen : outputsLen s.soft_cardinality enc = e.outputs.length :=
      outputsLen_of_getElem? _ _ _ he
    have hd := mul_pred_add mc (e.outputs.length - k) (by omega)
    have hd2 : e.outputs.length - k - 1 = e.outputs.length - (k + 1) := by omega
    rw [hd2] at hd
    rw [hR.2, hsum, hterm, hr2, List.length_append, List.length_singleton, Nat.mul_succ]
    simp only [hlen]
    omega
  · -- weight-greater
    obtain ⟨e0, k0, w0, enc0, a1, a2, a3, a4⟩ := hok.key p hp
    rw [hbm] at a1
    cases a1
    rw [he] at a2
    cases a2
    have hk : k < e.outputs.length := getElem?_lt_length _ _ _ a3
    have hkl : k < e.lits.length := by rw [← hok.len enc e he]; exact hk
    have hwb := hW.2 p _ hbm
    have hlt : mc < w := by
      have := hmc _ hbm
      simp only at this
      omega
    have hsub : u64sub w mc = w - mc := u64sub_of_lt w mc hlt hwb.2
    obtain ⟨b1, b2, b3, b4, b5⟩ := hlib.1 s.solver e.lits k a4 hkl
    have hApp := cardOK_append s hok (lib.buildCardinality s.solver e.lits k).1
      (lib.buildCardinality s.solver e.lits k).2 b4 b3 (by rw [b2, b1]) b5
    obtain ⟨hokA, hpotA, hnew, hidx⟩ := hApp
    have houtmem : out ∈ (lib.buildCardinality s.solver e.lits k).2.outputs :=
      List.getElem?_mem hout
    have houtCA : out ∉ s.cardinality_assumptions := hnew out houtmem
    have hop : out ≠ p := by
      intro hc
      subst hc
      exact houtCA hp
    have hne : ∀ o, o ∈ s.cardinality_assumptions → o ≠ out := by
      intro o ho hc
      subst hc
      exact houtCA ho
    have hbm2 : ∀ o, o ∈ s.cardinality_assumptions → o ≠ p →
        mapInsert (mapInsert s.boundMapping out ((s.soft_cardinality.length, k), mc))
          p ((enc, k), u64sub w mc) o = s.boundMapping o := by
      intro o ho hc
      simp [mapInsert, hc, hne o ho]
    have hbm2p : mapInsert (mapInsert s.boundMapping out ((s.soft_cardinality.length, k), mc))
          p ((enc, k), u64sub w mc) p = some ((enc, k), w - mc) := by
      simp [mapInsert, hsub]
    have hok1 := cardOK_bm _ hokA
      (mapInsert (mapInsert s.boundMapping out ((s.soft_cardinality.length, k), mc))
          p ((enc, k), u64sub w mc))
      (by
        intro o ho e1 k1 w1 hv
        by_cases hc : o = p
        · subst hc
          rw [hbm2p] at hv
          cases hv
          exact ⟨w, hbm⟩
        · rw [hbm2 o ho hc] at hv
          exact ⟨w1, hv⟩)
      (by
        intro o ho e1 k1 w1 hv
        by_cases hc : o = p
        · subst hc
          have hv2 : s.boundMapping o = some ((e1, k1), w1) := hv
          rw [hbm] at hv2
          cases hv2
          exact ⟨w - mc, hbm2p⟩
        · exact ⟨w1, by rw [hbm2 o ho hc]; exact hv⟩)
    have hid : id2 = ((s.soft_cardinality.length, k), mc) := by
      simp [mapInsert, hop] at hid2
      exact hid2.symm
    subst hid
    have hfree : ∀ o v, o ∈ s.cardinality_assumptions →
        mapInsert (mapInsert s.boundMapping out ((s.soft_cardinality.length, k), mc))
          p ((enc, k), u64sub w mc) o = some v → v.1.1 ≠ s.soft_cardinality.length := by
      intro o v ho hv
      by_cases hc : o = p
      · subst hc
        rw [hbm2p] at hv
        cases hv
        exact hidx o ((enc, k), w) ho hbm
      · rw [hbm2 o ho hc] at hv
        exact hidx o v ho hv
    have hR := raiseBound_potential lib hlib _ _ _ _ _ hr hok1 hfree
    refine ⟨hR.1, ?_⟩
    have hlenE : outputsLen (s.soft_cardinality ++
        [(lib.buildCardinality s.solver e.lits k).2]) enc = e.outputs.length := by
      rw [outputsLen_append _ _ _ _ he, outputsLen_of_getElem? _ _ _ he]
    have hlenN : outputsLen (s.soft_cardinality ++
        [(lib.buildCardinality s.solver e.lits k).2]) s.soft_cardinality.length =
        e.outputs.length := by
      have : (s.soft_cardinality ++
          [(lib.buildCardinality s.solver e.lits k).2])[s.soft_cardinality.length]? =
          some (lib.buildCardinality s.solver e.lits k).2 := by simp
      rw [outputsLen_of_getElem? _ _ _ this, b2, hok.len enc e he]
    -- the term of `p` changes from `w * d` to `(w - mc) * d`
    have hupd := sum_map_update
      (cardTerm { s with
        solver := (lib.buildCardinality s.solver e.lits k).1,
        soft_cardinality :=
          s.soft_cardinality ++ [(lib.buildCardinality s.solver e.lits k).2] })
      (cardTerm { s with
        solver := (lib.buildCardinality s.solver e.lits k).1,
        soft_cardinality :=
          s.soft_cardinality ++ [(lib.buildCardinality s.solver e.lits k).2],
        boundMapping :=
          mapInsert (mapInsert s.boundMapping out ((s.soft_cardinality.length, k), mc))
            p ((enc, k), u64sub w mc) })
      s.cardinality_assumptions p hok.nodup hp
      (by
        intro o ho hc
        simp only [cardTerm, hbm2 o ho hc])
    have hg : cardTerm { s with
        solver := (lib.buildCardinality s.solver e.lits k).1,
        soft_cardinality :=
          s.soft_cardinality ++ [(lib.buildCardinality s.solver e.lits k).2] } p =
        w * (e.outputs.length - k) := by
      simp only [cardTerm, hbm, hlenE]
    have hg2 : cardTerm { s with
        solver := (lib.buildCardinality s.solver e.lits k).1,
        soft_cardinality :=
          s.soft_cardinality ++ [(lib.buildCardinality s.solver e.lits k).2],
        boundMapping :=
          mapInsert (mapInsert s.boundMapping out ((s.soft_cardinality.length, k), mc))
            p ((enc, k), u64sub w mc) } p =
        (w - mc) * (e.outputs.length - k) := by
      simp only [cardTerm, hbm2p, hlenE]
    rw [hg, hg2] at hupd
    have hpot1 : cardPotential { s with
        solver := (lib.buildCardinality s.solver e.lits k).1,
        soft_cardinality :=
          s.soft_cardinality ++ [(lib.buildCardinality s.solver e.lits k).2],
        boundMapping :=
          mapInsert (mapInsert s.boundMapping out ((s.soft_cardinality.length, k), mc))
            p ((enc, k), u64sub w mc) } + w * (e.outputs.length - k) =
        cardPotential s + (w - mc) * (e.outputs.length - k) := by
      rw [← hpotA]
      exact hupd
    have hsplit := mul_split w mc (e.outputs.length - k) (by omega)
    have hd := mul_pred_add mc (e.outputs.length - k) (by omega)
    have hd2 : e.outputs.length - k - 1 = e.outputs.length - (k + 1) := by omega
    rw [hd2] at hd
    rw [hR.2, hr2, List.length_append, List.length_singleton, Nat.mul_succ]
    simp only [hlenN]
    omega

theorem cardOK_solver (s : WState) (hok : CardOK s) (S2 : SatSolver)
    (hn : s.solver.nVars ≤ S2.nVars) :
    CardOK { s with solver := S2 } ∧ cardPotential { s with solver := S2 } = cardPotential s :=
  cardOK_of_similar s { s with solver := S2 } hok rfl
    (fun _ _ => rfl) (fun _ x hx => ⟨x, hx, rfl, rfl⟩) (fun _ y hy => ⟨y, hy, rfl⟩) hn

theorem unitCore_cardOK (s : WState) (sr cr : List Lit) (hok : CardOK s) :
    CardOK (unitCore s sr cr) ∧ cardPotential (unitCore s sr cr) = cardPotential s := by
  unfold unitCore
  split
  · rename_i u
    split
    · exact cardOK_solver s hok (s.solver.addClause [u]) (Nat.le_refl _)
    · exact ⟨hok, rfl⟩
  · exact ⟨hok, rfl⟩

/-- The harden step keeps the bookkeeping consistent; with `n ≥ 1` relaxed literals it
puts back `min_core * (n - 1)` into `cardPotential`. -/
theorem harden_potential (lib : Library) (hlib : lib.Totalizer) (s t : WState)
    (sr cr : List Lit) (mc : Nat) (h : harden lib s sr cr mc = some t) (hok : CardOK s)
    (hR : 1 ≤ sr.length + cr.length) :
    CardOK t ∧ cardPotential t + mc = cardPotential s + mc * (sr.length + cr.length) := by
  obtain ⟨hok1, hpot1⟩ := unitCore_cardOK s sr cr hok
  have hu := unitCore_fields s sr cr
  unfold harden at h
  dsimp only at h
  split at h
  · rename_i hmany
    have hlen : 1 < (sr ++ cr).length := by simpa using hmany
    obtain ⟨b1, b2, b3, b4, b5⟩ := hlib.1 (unitCore s sr cr).solver (sr ++ cr) 1
      (Nat.le_refl _) hlen
    obtain ⟨hokA, hpotA, hnew, hidx⟩ := cardOK_append (unitCore s sr cr) hok1
      (lib.buildCardinality (unitCore s sr cr).solver (sr ++ cr) 1).1
      (lib.buildCardinality (unitCore s sr cr).solver (sr ++ cr) 1).2 b4 b3
      (by rw [b2, b1]) b5
    split at h
    · simp at h
    · rename_i out hout
      cases h
      have hget : ((unitCore s sr cr).soft_cardinality ++
          [(lib.buildCardinality (unitCore s sr cr).solver (sr ++ cr) 1).2])[
            (unitCore s sr cr).soft_cardinality.length]? =
          some (lib.buildCardinality (unitCore s sr cr).solver (sr ++ cr) 1).2 := by simp
      have hI := cardOK_insert _ hokA out (unitCore s sr cr).soft_cardinality.length 1 mc
        (lib.buildCardinality (unitCore s sr cr).solver (sr ++ cr) 1).2 hget hout
        (Nat.le_refl _) (fun o v ho hv => hidx o v ho hv)
      have hl : ((unitCore s sr cr).soft_cardinality ++
          [(lib.buildCardinality (unitCore s sr cr).solver (sr ++ cr) 1).2]).length - 1 =
          (unitCore s sr cr).soft_cardinality.length := by simp
      rw [hl]
      refine ⟨hI.2.1, ?_⟩
      rw [hI.2.2, hpotA, hpot1, outputsLen_of_getElem? _ _ _ hget, b2]
      have hd := mul_pred_add mc (sr ++ cr).length (by omega)
      rw [List.length_append] at hd ⊢
      omega
  · rename_i hone
    cases h
    refine ⟨hok1, ?_⟩
    rw [hpot1]
    have : sr.length + cr.length = 1 := by omega
    rw [this]
    simp

theorem softPotential_set (soft : List Soft) (active : List Bool) (idx : Nat) (S T : Soft)
    (hS : soft[idx]? = some S) (ha : active[idx]? = some false) :
    softPotential (soft.set idx T) active + S.weight = softPotential soft active + T.weight := by
  induction soft generalizing active idx with
  | nil => simp at hS
  | cons X rest ih =>
    cases active with
    | nil => simp at ha
    | cons a as =>
      cases idx with
      | zero =>
        simp only [List.getElem?_cons_zero, Option.some.injEq] at hS ha
        subst hS ha
        simp only [softPotential, List.set_cons_zero, List.zipWith_cons_cons, List.sum_cons]
        simp
        omega
      | succ i =>
        simp only [List.getElem?_cons_succ] at hS ha
        have := ih as i hS ha
        simp only [softPotential, List.set_cons_succ, List.zipWith_cons_cons,
          List.sum_cons] at this ⊢
        omega

theorem softPotential_activate (soft : List Soft) (active : List Bool) (idx : Nat) (S : Soft)
    (hS : soft[idx]? = some S) (ha : active[idx]? = some false) :
    softPotential soft (active.set idx true) + S.weight = softPotential soft active := by
  induction soft generalizing active idx with
  | nil => simp at hS
  | cons X rest ih =>
    cases active with
    | nil => simp at ha
    | cons a as =>
      cases idx with
      | zero =>
        simp only [List.getElem?_cons_zero, Option.some.injEq] at hS ha
        subst hS ha
        simp only [softPotential, List.set_cons_zero, List.zipWith_cons_cons, List.sum_cons]
        simp
        omega
      | succ i =>
        simp only [List.getElem?_cons_succ] at hS ha
        have := ih as i hS ha
        simp only [softPotential, List.set_cons_succ, List.zipWith_cons_cons,
          List.sum_cons] at this ⊢
        omega

theorem softPotential_append (soft : List Soft) (active : List Bool) (S : Soft)
    (h : active.length = soft.length) :
    softPotential (soft ++ [S]) (active ++ [true]) = softPotential soft active := by
  unfold softPotential
  rw [List.zipWith_append _ _ _ _ _ h.symm]
  simp

/-- The soft-clause block for one conflict literal moves `min_core` from `softPotential`
to the relaxed literals and never lowers the variable count of the solver. -/
theorem relaxSoft_potential (s t : SoftState) (p : Lit) (mc : Nat)
    (h : relaxSoft s p mc = some t)
    (hW : ∀ S, S ∈ s.formula.soft → 1 ≤ S.weight ∧ S.weight < 2 ^ 64) :
    softPotential t.formula.soft t.activeSoft + mc * t.soft_relax.length =
      softPotential s.formula.soft s.activeSoft + mc * s.soft_relax.length ∧
    s.solver.nVars ≤ t.solver.nVars := by
  rcases relaxSoft_cases s t p mc h with ⟨-, e⟩ | ⟨idx, S0, -, hS0, hlt, hsp⟩ |
    ⟨idx, S0, -, hS0, heq, hact, e⟩
  · subst e; exact ⟨rfl, Nat.le_refl _⟩
  · obtain ⟨n, -, -, -, hsoft, -, hactive, hsr, ha, hl⟩ := splitClause_spec s t idx S0 mc hS0 hsp
    have hv := (splitClause_vars s t idx S0 mc hS0 hsp).2
    have hb := hW S0 (List.getElem?_mem hS0)
    have hsub := u64sub_of_lt S0.weight mc hlt hb.2
    refine ⟨?_, ?_⟩
    · rw [hsoft, hactive, hsr, softPotential_append _ _ _ (by simpa using hl),
        List.length_append, List.length_singleton, Nat.mul_succ]
      have := softPotential_set s.formula.soft s.activeSoft idx S0
        { S0 with weight := u64sub S0.weight mc } hS0 ha
      simp only [hsub] at this ⊢
      omega
    · rw [hv]
      show s.solver.nVars ≤ s.solver.nVars + 1
      omega
  · subst e
    refine ⟨?_, Nat.le_refl _⟩
    have := softPotential_activate s.formula.soft s.activeSoft idx S0 hS0 hact
    simp only [List.length_append, List.length_singleton, Nat.mul_succ]
    omega

/-- The conflict loop keeps all weights positive and the bookkeeping consistent, and
`potential` plus `min_core` times the number of relaxed literals stays the same. -/
theorem coreLoop_potential (lib : Library) (hlib : lib.Totalizer) (mc : Nat)
    (h1 : 1 ≤ mc) (h2 : mc < 2 ^ 64) (ps : List Lit) (s : WState) (sr cr : List Lit)
    (r : WState × List Lit × List Lit) (h : coreLoop lib mc ps s sr cr = some r)
    (hnd : ps.Nodup) (hW : WeightsPos s) (hok : CardOK s)
    (hJ : ∀ q, q ∈ ps → ∀ v, s.boundMapping q = some v → mc ≤ v.2) :
    WeightsPos r.1 ∧ CardOK r.1 ∧
    potential r.1 + mc * (r.2.1.length + r.2.2.length) =
      potential s + mc * (sr.length + cr.length) := by
  induction ps generalizing s sr cr with
  | nil =>
    simp only [coreLoop, Option.some.injEq] at h
    subst h
    exact ⟨hW, hok, rfl⟩
  | cons p ps ih =>
    simp only [coreLoop] at h
    split at h
    · simp at h
    · rename_i t ht
      split at h
      · simp at h
      · rename_i q hq
        have hsp := relaxSoft_potential _ t p mc ht hW.1
        have hW1 : WeightsPos (s.withSoftState t) :=
          ⟨relaxSoft_weights _ _ _ _ ht h1 h2 hW.1, hW.2⟩
        have hok1 := cardOK_of_similar s (s.withSoftState t) hok rfl (fun _ _ => rfl)
          (fun _ x hx => ⟨x, hx, rfl, rfl⟩) (fun _ y hy => ⟨y, hy, rfl⟩) hsp.2
        have hcard := relaxCard_potential lib hlib _ cr p mc q hq hok1.1 hW1
          (fun v hv => hJ p (List.mem_cons_self _ _) v hv)
        have hWq := relaxCard_weights lib _ _ _ _ _ hq h1 h2 hW1
        have hss := relaxCard_sameSoft lib _ _ _ _ _ hq
        have hJ2 : ∀ q2, q2 ∈ ps → ∀ v, q.1.boundMapping q2 = some v → mc ≤ v.2 := by
          intro q2 hq2 v hv
          have hne : q2 ≠ p := by
            intro e
            subst e
            exact (List.nodup_cons.mp hnd).1 hq2
          rcases relaxCard_bm lib _ _ _ _ _ hq q2 hne v hv with h3 | h3
          · exact hJ q2 (List.mem_cons_of_mem _ hq2) v h3
          · omega
        have hrec := ih q.1 t.soft_relax q.2 h (List.nodup_cons.mp hnd).2 hWq hcard.1 hJ2
        refine ⟨hrec.1, hrec.2.1, ?_⟩
        rw [hrec.2.2]
        have e1 : potential q.1 = softPotential t.formula.soft t.activeSoft +
            cardPotential q.1 := by
          unfold potential
          rw [hss.1, hss.2.2]
          rfl
        have e2 : potential s = softPotential s.formula.soft s.activeSoft +
            cardPotential s := rfl
        have e3 := hsp.1
        have e4 := hcard.2
        have e5 := hok1.2
        have e6 : (s.toSoftState sr).soft_relax.length = sr.length := rfl
        have e7 : (s.toSoftState sr).formula = s.formula := rfl
        have e8 : (s.toSoftState sr).activeSoft = s.activeSoft := rfl
        rw [e6, e7, e8] at e3
        rw [e1, e2, Nat.mul_add, Nat.mul_add]
        omega

theorem unsatStep_next_relaxed (lib : Library) (s t : WState) (conflict : List Lit)
    (h : unsatStep lib s conflict = Result.next t) :
    ∃ mc r s3, minCoreLoop s conflict UINT64_MAX = some mc ∧
      coreLoop lib mc conflict (afterMinCore s mc conflict.length) [] [] = some r ∧
      1 ≤ r.2.1.length + r.2.2.length ∧
      harden lib r.1 r.2.1 r.2.2 mc = some s3 ∧ resetAssumptions s3 = some t := by
  unfold unsatStep at h
  split at h
  · simp at h
  · rename_i mc hmc
    dsimp only at h
    split at h
    · simp at h
    · split at h
      · simp at h
      · split at h
        · simp at h
        · rename_i r hr
          split at h
          · simp at h
          · rename_i hne
            split at h
            · simp at h
            · rename_i s3 hs3
              split at h
              · simp at h
              · rename_i s4 hs4
                cases h
                exact ⟨mc, r, s3, hmc, hr, by omega, hs3, hs4⟩

theorem resetAssumptions_eq (s t : WState) (h : resetAssumptions s = some t) :
    ∃ a, t = { s with assumptions := a } := by
  unfold resetAssumptions at h
  split at h
  · simp at h
  · cases h
    exact ⟨_, rfl⟩

theorem cardOK_assumptions (s : WState) (hok : CardOK s) (a : List (Option Lit)) :
    CardOK { s with assumptions := a } ∧ potential { s with assumptions := a } = potential s := by
  have h := cardOK_of_similar s { s with assumptions := a } hok rfl (fun _ _ => rfl)
    (fun _ x hx => ⟨x, hx, rfl, rfl⟩) (fun _ y hy => ⟨y, hy, rfl⟩) (Nat.le_refl _)
  refine ⟨h.1, ?_⟩
  unfold potential
  rw [h.2]

theorem registeredWeights_bound (s : WState) (ps : List Lit) (q : Lit)
    (v : (Nat × Nat) × Nat) (hq : q ∈ ps) (hv : s.boundMapping q = some v) :
    v.2 ∈ registeredWeights s ps := by
  induction ps with
  | nil => cases hq
  | cons p ps ih =>
    simp only [registeredWeights, List.mem_append]
    rcases List.mem_cons.mp hq with h | h
    · subst h
      left; right
      simp [hv]
    · right
      exact ih h

/-- An UNSAT pass that goes on keeps the bookkeeping consistent and lowers `potential`,
when the conflict has no repeated literal. -/
theorem unsatStep_potential (lib : Library) (hlib : lib.Totalizer) (s t : WState)
    (conflict : List Lit) (h : unsatStep lib s conflict = Result.next t)
    (hnd : conflict.Nodup) (hW : WeightsPos s) (hok : CardOK s) :
    CardOK t ∧ potential t < potential s := by
  obtain ⟨mc, r, s3, hmc, hcl, hR, hh, hra⟩ := unsatStep_next_relaxed lib s t conflict h
  have hb := minCoreLoop_bounds s hW conflict mc hmc
  have hmin := minCoreLoop_eq_foldl s conflict UINT64_MAX mc hmc
  have hW0 : WeightsPos (afterMinCore s mc conflict.length) := hW
  have hok0 := cardOK_of_similar s (afterMinCore s mc conflict.length) hok rfl
    (fun _ _ => rfl) (fun _ x hx => ⟨x, hx, rfl, rfl⟩) (fun _ y hy => ⟨y, hy, rfl⟩)
    (Nat.le_refl _)
  have hJ : ∀ q, q ∈ conflict → ∀ v,
      (afterMinCore s mc conflict.length).boundMapping q = some v → mc ≤ v.2 := by
    intro q hq v hv
    rw [hmin]
    exact foldl_min_le_mem _ _ _ (registeredWeights_bound s conflict q v hq hv)
  have hloop := coreLoop_potential lib hlib mc hb.1 hb.2 conflict _ [] [] r hcl hnd hW0
    hok0.1 hJ
  have hhard := harden_potential lib hlib _ _ _ _ _ hh hloop.2.1 hR
  have hss := harden_sameSoft lib _ _ _ _ _ hh
  obtain ⟨a, rfl⟩ := resetAssumptions_eq s3 t hra
  have hfin := cardOK_assumptions s3 hhard.1 a
  refine ⟨hfin.1, ?_⟩
  rw [hfin.2]
  have e1 : potential s3 = softPotential r.1.formula.soft r.1.activeSoft +
      cardPotential s3 := by
    unfold potential
    rw [hss.1, hss.2.2]
  have e2 : potential r.1 = softPotential r.1.formula.soft r.1.activeSoft +
      cardPotential r.1 := rfl
  have e3 : potential (afterMinCore s mc conflict.length) = potential s := rfl
  have e4 := hloop.2.2
  have e5 := hhard.2
  rw [e3] at e4
  simp only [List.length_nil, Nat.add_zero, Nat.mul_zero] at e4
  have := hb.1
  omega

theorem cardNotConsidered_pos (bm : Lit → Option ((Nat × Nat) × Nat)) (w : Nat)
    (ca : List Lit) (c : Nat) (h : cardNotConsidered bm w ca = some c) (hc : c ≠ 0) :
    ∃ o v, o ∈ ca ∧ bm o = some v ∧ v.2 < w := by
  induction ca generalizing c with
  | nil =>
    simp only [cardNotConsidered, Option.some.injEq] at h
    omega
  | cons o os ih =>
    simp only [cardNotConsidered] at h
    split at h
    · simp at h
    · rename_i v hv
      split at h
      · simp at h
      · rename_i n hn
        split at h
        · rename_i hlt
          exact ⟨o, v, List.mem_cons_self _ _, hv, hlt⟩
        · simp only [Option.some.injEq] at h
          subst h
          obtain ⟨o2, v2, a1, a2, a3⟩ := ih n hn hc
          exact ⟨o2, v2, List.mem_cons_of_mem _ a1, a2, a3⟩

/-- A SAT pass after the first that goes on lowers `min_weight`. -/
theorem satStep_lowers (lib : Library) (hlib : lib.Totalizer) (s t : WState)
    (m : List lbool) (h : satStep lib s m = Result.next t) (hnb : s.nbSatisfiable ≠ 0) :
    t.min_weight < s.min_weight := by
  have hmw := (satStep_next lib s t m h).2.2.2.2.2.2.2.2.1
  rw [hmw]
  apply hlib.2.2
  unfold satStep at h
  dsimp only at h
  split at h
  · rename_i h0
    omega
  · split at h
    · simp at h
    · rename_i c hc
      split at h
      · rename_i hne
        rcases Nat.eq_zero_or_pos (softNotConsidered s.min_weight s.formula.soft) with h0 | h0
        · right
          have : c ≠ 0 := by
            intro e
            apply hne
            rw [h0, e]
          obtain ⟨o, v, a1, a2, a3⟩ := cardNotConsidered_pos _ _ _ c hc this
          exact ⟨o, v, a1, a2, a3⟩
        · left
          unfold softNotConsidered at h0
          obtain ⟨S, hS⟩ := List.exists_mem_of_length_pos h0
          have := List.mem_filter.mp hS
          exact ⟨S, this.1, by simpa using this.2⟩
      · split at h <;> simp at h

theorem satStep_potential (lib : Library) (s t : WState) (m : List lbool)
    (h : satStep lib s m = Result.next t) (hok : CardOK s) :
    CardOK t ∧ potential t = potential s := by
  obtain ⟨a1, -, a3, a4, a5, a6, a7, -⟩ := satStep_next lib s t m h
  have hc := cardOK_of_similar s t hok a5 (fun _ _ => by rw [a4])
    (fun _ x hx => ⟨x, by rw [← a6]; exact hx, rfl, rfl⟩)
    (fun _ y hy => ⟨y, by rw [a6]; exact hy, rfl⟩) (by rw [a7])
  refine ⟨hc.1, ?_⟩
  unfold potential
  rw [hc.2, a1, a3]

theorem initState_cardOK (f : Formula) : CardOK (initState f) := by
  refine ⟨List.nodup_nil, ?_, ?_, ?_, ?_, ?_⟩
  · intro o ho; cases ho
  · intro e e2 enc enc2 k k2 o h1
    simp [initState] at h1
  · intro e enc o h1
    simp [initState] at h1
  · intro o o2 e k k2 w w2 h1
    cases h1
  · intro e enc h1
    simp [initState] at h1

theorem runBackend_succ_next (step : WState → Answer → Result)
    (backend : Nat → WState → Answer) (fuel i : Nat) (s t : WState)
    (h : step s (backend i s) = Result.next t) :
    runBackend step backend (fuel + 1) i s = runBackend step backend fuel (i + 1) t := by
  simp only [runBackend, h]

theorem runBackend_one_halts (step : WState → Answer → Result)
    (backend : Nat → WState → Answer) (i : Nat) (s : WState)
    (h : ∀ t, step s (backend i s) ≠ Result.next t) :
    runBackend step backend 1 i s ≠ Termination.diverges := by
  simp only [runBackend]
  split
  · rename_i t ht
    exact absurd ht (h t)
  · simp
  · simp
  · simp

/-- From a state after the first SAT answer the loop ends within finitely many passes:
every UNSAT pass that goes on lowers `potential`, every SAT pass that goes on keeps it
and lowers `min_weight`. -/
theorem halts_from (lib : Library) (hlib : lib.Totalizer)
    (backend : Nat → WState → Answer)
    (hvalid : ∀ i s conflict, Reach lib s → backend i s = Answer.unsat conflict →
      conflict.Nodup)
    (N : Nat) : ∀ (M : Nat) (s : WState) (i : Nat), Reach lib s → s.nbSatisfiable ≠ 0 →
      WeightsPos s → CardOK s → potential s ≤ N → s.min_weight ≤ M →
      ∃ fuel, runBackend (tWeightedStep lib) backend fuel i s ≠ Termination.diverges := by
  induction N using Nat.strong_induction_on with
  | _ N ihN =>
    intro M
    induction M using Nat.strong_induction_on with
    | _ M ihM =>
      intro s i hr hnb hW hok hN hM
      by_cases hstep : ∃ t, tWeightedStep lib s (backend i s) = Result.next t
      · obtain ⟨t, ht⟩ := hstep
        have hrt : Reach lib t := Reach.step s t _ hr ht
        have hnbt := reach_nbSat_pos_of_step lib s t _ ht
        have hWt := step_weights lib s t _ ht hW
        cases hans : backend i s with
        | sat m =>
          rw [hans] at ht
          have hp := satStep_potential lib s t m ht hok
          have hl := satStep_lowers lib hlib s t m ht hnb
          obtain ⟨fuel, hf⟩ := ihM t.min_weight (by omega) t (i + 1) hrt hnbt hWt hp.1
            (by omega) (Nat.le_refl _)
          refine ⟨fuel + 1, ?_⟩
          rw [runBackend_succ_next _ _ _ _ _ t (by rw [hans]; exact ht)]
          exact hf
        | unsat conflict =>
          rw [hans] at ht
          have hp := unsatStep_potential lib hlib s t conflict ht
            (hvalid i s conflict hr hans) hW hok
          obtain ⟨fuel, hf⟩ := ihN (potential t) (by omega) t.min_weight t (i + 1) hrt hnbt
            hWt hp.1 (Nat.le_refl _) (Nat.le_refl _)
          refine ⟨fuel + 1, ?_⟩
          rw [runBackend_succ_next _ _ _ _ _ t (by rw [hans]; exact ht)]
          exact hf
      · refine ⟨1, runBackend_one_halts _ _ _ _ ?_⟩
        intro t ht
        exact hstep ⟨t, ht⟩

theorem foldl_max_lt (l : List Nat) (acc w : Nat) (ha : acc < w) (hl : ∀ x, x ∈ l → x < w) :
    l.foldl max acc < w := by
  induction l generalizing acc with
  | nil => simpa using ha
  | cons x xs ih =>
    simp only [List.foldl_cons]
    apply ih
    · have := hl x (List.mem_cons_self _ _)
      exact Nat.max_lt.mpr ⟨ha, this⟩
    · intro y hy
      exact hl y (List.mem_cons_of_mem _ hy)

theorem simpleLibrary_totalizer : simpleLibrary.Totalizer := by
  refine ⟨?_, ?_, ?_⟩
  · intro S lits k _ _
    refine ⟨rfl, by simp [simpleLibrary], ?_, ?_, by simp [simpleLibrary]⟩
    · simp only [simpleLibrary]
      apply List.Nodup.map _ (List.nodup_range _)
      intro a b hab
      simp only [mkLit, Lit.mk.injEq, and_true] at hab
      omega
    · intro o ho
      simp only [simpleLibrary, List.mem_map, List.mem_range] at ho
      obtain ⟨i, hi, rfl⟩ := ho
      show S.nVars ≤ S.nVars + i ∧ S.nVars + i < S.nVars + lits.length
      omega
  · intro S e k
    exact ⟨rfl, rfl, Nat.le_refl _⟩
  · intro w ca f bm hex
    have hw : 0 < w := by
      rcases hex with ⟨S, -, h⟩ | ⟨o, v, -, -, h⟩ <;> omega
    simp only [simpleLibrary]
    apply foldl_max_lt _ _ _ hw
    intro x hx
    have := (List.mem_filter.mp hx).2
    simpa using this

/-- C22: the loop of `tWeighted` halts.  For an encoder library that keeps the contract of
the totalizer, a formula whose soft weights are positive `uint64_t` values, and a SAT
backend whose conflicts hold no literal twice, the loop ends (it returns, an `assert`
fails, or the process exits) within finitely many passes, whatever the backend answers
otherwise. -/
theorem tWeighted_halts (lib : Library) (hlib : lib.Totalizer) (f : Formula)
    (hf : ∀ S, S ∈ f.soft → 1 ≤ S.weight ∧ S.weight < 2 ^ 64)
    (backend : Nat → WState → Answer)
    (hvalid : ∀ i s conflict, Reach lib s → backend i s = Answer.unsat conflict →
      conflict.Nodup) :
    ∃ fuel, runBackend (tWeightedStep lib) backend fuel 0 (initState f) ≠
      Termination.diverges := by
  by_cases hstep : ∃ t, tWeightedStep lib (initState f) (backend 0 (initState f)) =
      Result.next t
  · obtain ⟨t, ht⟩ := hstep
    have hr0 : Reach lib (initState f) := Reach.init f
    have hrt : Reach lib t := Reach.step _ t _ hr0 ht
    have hnbt := reach_nbSat_pos_of_step lib _ t _ ht
    have hW0 := initState_weights f hf
    have hWt := step_weights lib _ t _ ht hW0
    have hokt : CardOK t := by
      cases hans : backend 0 (initState f) with
      | sat m =>
        rw [hans] at ht
        exact (satStep_potential lib (initState f) t m ht (initState_cardOK f)).1
      | unsat conflict =>
        rw [hans] at ht
        exact (unsatStep_potential lib hlib (initState f) t conflict ht
          (hvalid 0 _ conflict hr0 hans) hW0 (initState_cardOK f)).1
    obtain ⟨fuel, hfuel⟩ := halts_from lib hlib backend hvalid (potential t) t.min_weight
      t 1 hrt hnbt hWt hokt (Nat.le_refl _) (Nat.le_refl _)
    refine ⟨fuel + 1, ?_⟩
    rw [runBackend_succ_next _ _ _ _ _ t ht]
    exact hfuel
  · refine ⟨1, runBackend_one_halts _ _ _ _ ?_⟩
    intro t ht
    exact hstep ⟨t, ht⟩

/-- C22 on `pairFormula` with `simpleLibrary` and `firstCoreBackend`: the backend answers
SAT once and then the cores `{3}`, `{4}`, `{5}`; the fourth pass returns with the saved
model. -/
theorem tWeighted_halts_witness :
    simpleLibrary.Totalizer ∧
    (∀ S, S ∈ pairFormula.soft → 1 ≤ S.weight ∧ S.weight < 2 ^ 64) ∧
    (∀ i s conflict, Reach simpleLibrary s → firstCoreBackend i s = Answer.unsat conflict →
      conflict.Nodup) ∧
    runBackend (tWeightedStep simpleLibrary) firstCoreBackend 4 0 (initState pairFormula) =
      Termination.returns heavyModel ∧
    ∃ fuel, runBackend (tWeightedStep simpleLibrary) firstCoreBackend fuel 0
      (initState pairFormula) ≠ Termination.diverges := by
  have hv : ∀ i s conflict, Reach simpleLibrary s →
      firstCoreBackend i s = Answer.unsat conflict → conflict.Nodup := by
    intro i s conflict _ h
    unfold firstCoreBackend at h
    split at h
    · cases h
      simp
    · cases h
  exact ⟨simpleLibrary_totalizer, by decide, hv, by decide,
    tWeighted_halts simpleLibrary simpleLibrary_totalizer pairFormula (by decide)
      firstCoreBackend hv⟩

/-- During the conflict loop the `boundMapping` weight of a conflict literal not yet taken
up stays at least `min_core`, when the conflict holds no literal twice. -/
theorem coreLoop_bounds_kept (lib : Library) (mc : Nat) (pre rest : List Lit) (s : WState)
    (sr cr : List Lit) (r : WState × List Lit × List Lit)
    (h : coreLoop lib mc pre s sr cr = some r) (hnd : (pre ++ rest).Nodup)
    (hJ : ∀ q, q ∈ pre ++ rest → ∀ v, s.boundMapping q = some v → mc ≤ v.2) :
    ∀ q, q ∈ rest → ∀ v, r.1.boundMapping q = some v → mc ≤ v.2 := by
  induction pre generalizing s sr cr with
  | nil =>
    simp only [coreLoop, Option.some.injEq] at h
    subst h
    intro q hq v hv
    exact hJ q (by simpa using hq) v hv
  | cons p pre ih =>
    simp only [coreLoop] at h
    split at h
    · simp at h
    · rename_i t ht
      split at h
      · simp at h
      · rename_i q0 hq0
        have hnd2 : (p :: (pre ++ rest)).Nodup := by simpa using hnd
        apply ih q0.1 t.soft_relax q0.2 h (List.nodup_cons.mp hnd2).2
        intro q hq v hv
        have hne : q ≠ p := by
          intro e
          subst e
          exact (List.nodup_cons.mp hnd2).1 hq
        rcases relaxCard_bm lib _ _ _ _ _ hq0 q hne v hv with h3 | h3
        · exact hJ q (by simp [List.mem_append.mp hq]) v h3
        · omega

/-- C24: in a search that starts from a formula whose soft weights are positive `uint64_t`
values, every state the loop reaches has all soft-clause weights and all `boundMapping`
weights at least 1.  In every UNSAT step from such a state `min_core` is at least 1, and
in every state `u` in which the conflict loop takes up a literal `p` (after the literals
`pre` before it): all weights are at least 1; if `p` is the key of a soft clause of weight
above `min_core`, the `assert` at line 198 holds, the difference does not wrap, and the
split leaves the clause with the strictly smaller weight `weight - min_core`; if `p` is a
key of `boundMapping` of weight other than `min_core`, the `assert` at line 325 holds, and
when the conflict holds no literal twice that weight is above `min_core`, so that the
difference does not wrap. -/
theorem weights_stay_positive (lib : Library) (f : Formula)
    (hf : ∀ S, S ∈ f.soft → 1 ≤ S.weight ∧ S.weight < 2 ^ 64)
    (answers : List Answer) (s : WState)
    (hs : stateAfter (tWeightedStep lib) answers (initState f) = some s) :
    WeightsPos s ∧
    ∀ conflict mc, minCoreLoop s conflict UINT64_MAX = some mc →
      1 ≤ mc ∧
      ∀ pre p post u sr cr, conflict = pre ++ p :: post →
        coreLoop lib mc pre (afterMinCore s mc conflict.length) [] [] = some (u, sr, cr) →
        WeightsPos u ∧
        (∀ idx S, u.coreMapping p = some idx → u.formula.soft[idx]? = some S →
          mc < S.weight →
          0 < u64sub S.weight mc ∧ u64sub S.weight mc = S.weight - mc ∧
          u64sub S.weight mc < S.weight ∧
          ∀ t, relaxSoft (u.toSoftState sr) p mc = some t →
            (t.formula.soft[idx]?).map (fun T => T.weight) = some (u64sub S.weight mc)) ∧
        (∀ soft_id, u.boundMapping p = some soft_id → soft_id.2 ≠ mc →
          0 < u64sub soft_id.2 mc ∧
          (conflict.Nodup → mc < soft_id.2 ∧ u64sub soft_id.2 mc = soft_id.2 - mc)) := by
  have hW := stateAfter_weights lib answers _ s (initState_weights f hf) hs
  refine ⟨hW, ?_⟩
  intro conflict mc hmc
  have hb := minCoreLoop_bounds s hW conflict mc hmc
  refine ⟨hb.1, ?_⟩
  intro pre p post u sr cr hconf hcl
  have hu : WeightsPos u :=
    coreLoop_weights lib mc hb.1 hb.2 pre _ [] [] (u, sr, cr) hcl hW
  refine ⟨hu, ?_, ?_⟩
  · intro idx S hidx hS hlt
    have hSb := hu.1 S (List.getElem?_mem hS)
    have hsub := u64sub_of_lt S.weight mc hlt hSb.2
    refine ⟨by omega, hsub, by omega, ?_⟩
    intro t ht
    rcases relaxSoft_cases _ t p mc ht with ⟨h0, -⟩ | ⟨idx2, S2, h0, hS2, -, hsp⟩ |
      ⟨idx2, S2, h0, hS2, heq, -⟩
    · have : u.coreMapping p = none := h0
      rw [hidx] at this
      cases this
    · have e1 : u.coreMapping p = some idx2 := h0
      rw [hidx] at e1
      cases e1
      have e2 : u.formula.soft[idx]? = some S2 := hS2
      rw [hS] at e2
      cases e2
      obtain ⟨n, -, -, -, hsoft, -⟩ := splitClause_spec _ t idx S mc hS2 hsp
      rw [hsoft]
      have hlen : idx < u.formula.soft.length := by
        rcases Nat.lt_or_ge idx u.formula.soft.length with h | h
        · exact h
        · rw [List.getElem?_eq_none h] at hS
          cases hS
      have hlen2 : idx < (u.toSoftState sr).formula.soft.length := hlen
      rw [List.getElem?_append_left (by simpa using hlen2)]
      simp [List.getElem?_set, hlen2]
    · have e1 : u.coreMapping p = some idx2 := h0
      rw [hidx] at e1
      cases e1
      have e2 : u.formula.soft[idx]? = some S2 := hS2
      rw [hS] at e2
      cases e2
      omega
  · intro soft_id hbm hne
    have hwb := hu.2 p soft_id hbm
    refine ⟨?_, ?_⟩
    · unfold u64sub
      rcases Nat.lt_or_ge soft_id.2 mc with h | h
      · have e : soft_id.2 + 2 ^ 64 - mc < 2 ^ 64 := by omega
        rw [Nat.mod_eq_of_lt e]
        omega
      · have e : soft_id.2 + 2 ^ 64 - mc = (soft_id.2 - mc) + 2 ^ 64 := by omega
        rw [e, Nat.add_mod_right, Nat.mod_eq_of_lt (by omega)]
        omega
    · intro hnd
      have hmin := minCoreLoop_eq_foldl s conflict UINT64_MAX mc hmc
      have hJ0 : ∀ q, q ∈ pre ++ p :: post → ∀ v,
          (afterMinCore s mc conflict.length).boundMapping q = some v → mc ≤ v.2 := by
        intro q hq v hv
        rw [hmin]
        apply foldl_min_le_mem
        rw [hconf]
        exact registeredWeights_bound s _ q v hq hv
      have hJ := coreLoop_bounds_kept lib mc pre (p :: post) _ [] [] (u, sr, cr) hcl
        (by rw [← hconf]; exact hnd) hJ0 p (List.mem_cons_self _ _) soft_id hbm
      have hlt : mc < soft_id.2 := by omega
      exact ⟨hlt, u64sub_of_lt _ _ hlt hwb.2⟩

/-- C24 on `mixedFormula`: after a SAT answer and the core `{2, 3}` with `min_core = 2`,
soft clause 0 is split from weight 5 to 3; the soft weights are then 3, 2 and 2, all at
least 1, as are the `boundMapping` weights. -/
theorem weights_stay_positive_witness :
    (∀ S, S ∈ mixedFormula.soft → 1 ≤ S.weight ∧ S.weight < 2 ^ 64) ∧
    stateAfter (tWeightedStep simpleLibrary)
      [Answer.sat [lbool.l_True, lbool.l_True, lbool.l_True, lbool.l_True],
       Answer.unsat [mkLit 2 false, mkLit 3 false]] (initState mixedFormula) =
      some mixedAfterCore ∧
    mixedAfterCore.formula.soft.map (fun S => S.weight) = [3, 2, 2] ∧
    WeightsPos mixedAfterCore :=
  ⟨by decide, rfl, by decide,
   (weights_stay_positive simpleLibrary mixedFormula (by decide)
      [Answer.sat [lbool.l_True, lbool.l_True, lbool.l_True, lbool.l_True],
       Answer.unsat [mkLit 2 false, mkLit 3 false]] mixedAfterCore rfl).1⟩

/-- C31 fails as stated for `length`: the segment `(0, 2147483647)` passes the `assert` of
the constructor, and `endSegment - startSegment + 1` is `2147483648`, which no `int`
holds: `length()` overflows and returns no value that is at least 1. -/
theorem segment_length_overflows :
    Segment.new 0 2147483647 = some (Segment.mk 0 2147483647) ∧
    (Segment.mk 0 2147483647).startSegment ≤ (Segment.mk 0 2147483647).endSegment ∧
    (Segment.mk 0 2147483647).endSegment ≤ INT_MAX ∧
    Segment.length (Segment.mk 0 2147483647) = none ∧
    ¬ ∃ n, Segment.length (Segment.mk 0 2147483647) = some n ∧ 1 ≤ n := by
  refine ⟨by decide, by decide, by decide, by decide, ?_⟩
  rintro ⟨n, h, -⟩
  have : Segment.length (Segment.mk 0 2147483647) = none := by decide
  rw [this] at h
  cases h

/-- C31, amended: for segments with `start ≤ end`, `isIntersecting` is true exactly when
`max(s.start, t.start) ≤ min(s.end, t.end)`; it is symmetric and reflexive; and
`length()` returns `end - start + 1`, which is at least 1, whenever that value is at most
`INT_MAX` (for fields in the range of `int`); beyond that the `int` arithmetic
overflows. -/
theorem segment_intersecting_is_overlap (s t : Segment)
    (hs : s.startSegment ≤ s.endSegment) (ht : t.startSegment ≤ t.endSegment) :
    (Segment.isIntersecting s t = true ↔
      max s.startSegment t.startSegment ≤ min s.endSegment t.endSegment) ∧
    Segment.isIntersecting s t = Segment.isIntersecting t s ∧
    Segment.isIntersecting s s = true ∧
    (INT_MIN ≤ s.startSegment → s.endSegment - s.startSegment + 1 ≤ INT_MAX →
      Segment.length s = some (s.endSegment - s.startSegment + 1) ∧
      1 ≤ s.endSegment - s.startSegment + 1) ∧
    (INT_MAX < s.endSegment - s.startSegment + 1 → Segment.length s = none) := by
  refine ⟨?_, ?_, ?_, ?_, ?_⟩
  · unfold Segment.isIntersecting
    split
    · simp only [Bool.not_eq_true', decide_eq_false_iff_not]
      omega
    · split
      · simp only [Bool.not_eq_true', decide_eq_false_iff_not]
        omega
      · simp only [true_iff]
        omega
  · unfold Segment.isIntersecting
    by_cases h1 : s.startSegment < t.startSegment <;>
      by_cases h2 : t.startSegment < s.startSegment <;>
      first | (simp [h1, h2]; done) | (simp [h1, h2]; omega)
  · unfold Segment.isIntersecting
    simp
  · intro h1 h2
    unfold Segment.length intResult INT_MIN INT_MAX at *
    have e1 : (-2147483648 : Int) ≤ s.endSegment - s.startSegment ∧
        s.endSegment - s.startSegment ≤ 2147483647 := by omega
    have e2 : (-2147483648 : Int) ≤ s.endSegment - s.startSegment + 1 ∧
        s.endSegment - s.startSegment + 1 ≤ 2147483647 := by omega
    simp only [e1, and_self, if_true, e2]
    exact ⟨trivial, by omega⟩
  · intro h1
    unfold Segment.length intResult INT_MIN INT_MAX at *
    split
    · rfl
    · rename_i d hd
      split at hd
      · cases hd
        rw [if_neg (by omega)]
      · cases hd

/-- The amended C31 at the segments `(1, 3)` and `(3, 5)`, which meet in segment 3. -/
theorem segment_intersecting_is_overlap_witness :
    (Segment.mk 1 3).startSegment ≤ (Segment.mk 1 3).endSegment ∧
    (Segment.mk 3 5).startSegment ≤ (Segment.mk 3 5).endSegment ∧
    Segment.isIntersecting (Segment.mk 1 3) (Segment.mk 3 5) = true ∧
    Segment.isIntersecting (Segment.mk 1 3) (Segment.mk 3 5) =
      Segment.isIntersecting (Segment.mk 3 5) (Segment.mk 1 3) ∧
    Segment.length (Segment.mk 1 3) = some 3 :=
  ⟨by decide, by decide, by decide,
   (segment_intersecting_is_overlap (Segment.mk 1 3) (Segment.mk 3 5) (by decide)
      (by decide)).2.1,
   ((segment_intersecting_is_overlap (Segment.mk 1 3) (Segment.mk 3 5) (by decide)
      (by decide)).2.2.2.1 (by decide) (by decide)).1⟩

theorem costSum_le_totalWeight (m : List lbool) (l : List Soft) :
    costSum m l ≤ (l.map (fun S => S.weight)).sum := by
  induction l with
  | nil => simp [costSum]
  | cons S rest ih =>
    simp only [costSum, List.map_cons, List.sum_cons] at ih ⊢
    split <;> omega

/-- C32: in every state reached after the first SAT answer, `ubCost` is the cost
`computeCostModel` gives the saved model over the current soft clauses, the `uint64_t` sum
of the weights of the soft clauses whose body the model falsifies (the exact sum when the
soft weights add up to less than `2 ^ 64`).  A SAT pass either saves the new model and
sets `ubCost` to its cost (when the cost is below `ubCost`, or at the first SAT answer) or
leaves both as they are; an UNSAT pass leaves both as they are, and the splits it makes
change the cost of no model. -/
theorem saved_model_moves_with_ubCost (lib : Library) (s : WState) (hr : Reach lib s) :
    (s.nbSatisfiable ≠ 0 →
      s.ubCost = computeCostModel s.formula s.model ∧
      s.ubCost = costSum s.model s.formula.soft % 2 ^ 64 ∧
      (s.formula.totalWeight < 2 ^ 64 → s.ubCost = costSum s.model s.formula.soft)) ∧
    (∀ m t, satStep lib s m = Result.next t ∨ satStep lib s m = Result.ret t →
      ((computeCostModel s.formula m < s.ubCost ∨ s.nbSatisfiable = 0) ∧
        t.model = m ∧ t.ubCost = computeCostModel s.formula m) ∨
      (¬ (computeCostModel s.formula m < s.ubCost ∨ s.nbSatisfiable = 0) ∧
        t.model = s.model ∧ t.ubCost = s.ubCost)) ∧
    (∀ conflict t, unsatStep lib s conflict = Result.next t →
      t.model = s.model ∧ t.ubCost = s.ubCost ∧
      ∀ m, computeCostModel t.formula m = computeCostModel s.formula m) := by
  refine ⟨?_, ?_, ?_⟩
  · intro hnb
    have h := reach_savedInv lib s hr hnb
    have h2 := computeCostModel_eq s.formula s.model
    refine ⟨h, by rw [h, h2], ?_⟩
    intro htw
    rw [h, h2]
    apply Nat.mod_eq_of_lt
    have := costSum_le_totalWeight s.model s.formula.soft
    unfold Formula.totalWeight at htw
    omega
  · intro m t h
    obtain ⟨-, -, -, hub, hmod⟩ := satStep_bounds lib s t m h
    by_cases hc : computeCostModel s.formula m < s.ubCost ∨ s.nbSatisfiable = 0
    · left
      rw [if_pos hc] at hub hmod
      exact ⟨hc, hmod, hub⟩
    · right
      rw [if_neg hc] at hub hmod
      exact ⟨hc, hmod, hub⟩
  · intro conflict t h
    obtain ⟨mc, -, -, -, hub, -, -, hmod⟩ := unsatStep_bounds lib s t conflict (Or.inl h)
    exact ⟨hmod, hub, fun m => unsatStep_cost lib s t conflict m h⟩

/-- C32 on `mixedFormula`: the SAT answer costs 7; the core `{2, 3}` then splits soft
clause 0, and `ubCost` is still 7, the cost of the saved model over the three soft
clauses of weights 3, 2 and 2. -/
theorem saved_model_moves_with_ubCost_witness :
    Reach simpleLibrary mixedAfterCore ∧
    mixedAfterCore.nbSatisfiable ≠ 0 ∧
    mixedAfterCore.ubCost = 7 ∧
    mixedAfterCore.model = [lbool.l_True, lbool.l_True, lbool.l_True, lbool.l_True] ∧
    mixedAfterCore.formula.soft.map (fun S => S.weight) = [3, 2, 2] ∧
    mixedAfterCore.ubCost = computeCostModel mixedAfterCore.formula mixedAfterCore.model := by
  have hr : Reach simpleLibrary mixedAfterCore :=
    Reach.step mixedAfterSat mixedAfterCore (Answer.unsat [mkLit 2 false, mkLit 3 false])
      (Reach.step (initState mixedFormula) mixedAfterSat
        (Answer.sat [lbool.l_True, lbool.l_True, lbool.l_True, lbool.l_True])
        (Reach.init mixedFormula) rfl) rfl
  exact ⟨hr, by decide, by decide, by decide, by decide,
    ((saved_model_moves_with_ubCost simpleLibrary mixedAfterCore hr).1 (by decide)).1⟩

theorem raiseBound_index (lib : Library) (s t : WState) (enc k mc : Nat)
    (h : raiseBound lib s enc k mc = some t) (hinv : IndexInv s) : IndexInv t := by
  obtain ⟨e, he, ⟨-, rfl⟩ | ⟨out, -, rfl⟩⟩ := raiseBound_cases lib s t enc k mc h
  · intro o v hv
    have := hinv o v hv
    simpa using this
  · intro o v hv
    simp only [mapInsert] at hv
    split at hv
    · cases hv
      have := getElem?_lt_length _ _ _ he
      simpa using this
    · have := hinv o v hv
      simpa using this

theorem relaxCard_index (lib : Library) (s : WState) (cr : List Lit) (p : Lit) (mc : Nat)
    (r : WState × List Lit) (h : relaxCard lib s cr p mc = some r) (hinv : IndexInv s) :
    IndexInv r.1 := by
  rcases relaxCard_cases lib s cr p mc r h with ⟨-, e⟩ | ⟨enc, k, e, -, -, -, hr, -⟩ |
    ⟨enc, k, w, e, out, -, -, -, he, -, -, id2, -, hr, -⟩
  · subst e; exact hinv
  · exact raiseBound_index lib _ _ _ _ _ hr hinv
  · refine raiseBound_index lib _ _ _ _ _ hr ?_
    intro o v hv
    simp only [mapInsert] at hv
    simp only [List.length_append, List.length_singleton]
    split at hv
    · cases hv
      have := getElem?_lt_length _ _ _ he
      simp only
      omega
    · split at hv
      · cases hv
        simp only
        omega
      · have := hinv o v hv
        omega

theorem harden_index (lib : Library) (s t : WState) (sr cr : List Lit) (mc : Nat)
    (h : harden lib s sr cr mc = some t) (hinv : IndexInv s) : IndexInv t := by
  have hu := unitCore_fields s sr cr
  unfold harden at h
  dsimp only at h
  split at h
  · split at h
    · simp at h
    · cases h
      intro o v hv
      simp only [mapInsert] at hv
      simp only [List.length_append, List.length_singleton]
      split at hv
      · cases hv
        simp
      · rw [hu.2.2.2.1] at hv
        have := hinv o v hv
        rw [hu.2.2.2.2.2.1]
        omega
  · cases h
    intro o v hv
    rw [hu.2.2.2.1] at hv
    rw [hu.2.2.2.2.2.1]
    exact hinv o v hv

theorem coreLoop_lookups (lib : Library) (mc : Nat) (ps : List Lit) (s : WState)
    (sr cr : List Lit) (r : WState × List Lit × List Lit)
    (h : coreLoop lib mc ps s sr cr = some r) (hc : CardInv s) (hi : IndexInv s) :
    CardInv r.1 ∧ IndexInv r.1 :=
  coreLoop_invariant lib (fun u => CardInv u ∧ IndexInv u)
    (fun _ _ _ _ _ _ hI => hI)
    (fun u cr2 p mc2 q hq hI =>
      ⟨(relaxCard_card lib u cr2 p mc2 q hq).1 hI.1, relaxCard_index lib u cr2 p mc2 q hq hI.2⟩)
    mc ps s sr cr r h ⟨hc, hi⟩

theorem step_index (lib : Library) (s t : WState) (ans : Answer)
    (h : tWeightedStep lib s ans = Result.next t) (hc : CardInv s) (hi : IndexInv s) :
    IndexInv t := by
  cases ans with
  | sat m =>
    have hs := satStep_next lib s t m h
    intro o v hv
    rw [hs.2.2.2.1] at hv
    rw [hs.2.2.2.2.2.1]
    exact hi o v hv
  | unsat conflict =>
    obtain ⟨mc, r, s3, -, -, hloop, hhard, hreset⟩ := unsatStep_next lib s t conflict h
    have h1 := coreLoop_lookups lib mc conflict _ [] [] r hloop hc hi
    have h2 := harden_index lib _ _ _ _ _ hhard h1.2
    unfold resetAssumptions at hreset
    split at hreset
    · simp at hreset
    · cases hreset
      exact h2

theorem reach_index (lib : Library) (s : WState) (hr : Reach lib s) : IndexInv s := by
  induction hr with
  | init f =>
    intro o v hv
    cases hv
  | step s t ans hr0 hstep ih =>
    exact step_index lib s t ans hstep (reach_cardInv lib s hr0) ih

theorem cardNotConsidered_isSome (bm : Lit → Option ((Nat × Nat) × Nat)) (w : Nat)
    (ca : List Lit) (h : ∀ o, o ∈ ca → bm o ≠ none) :
    cardNotConsidered bm w ca ≠ none := by
  induction ca with
  | nil => simp [cardNotConsidered]
  | cons o os ih =>
    have h1 := h o (List.mem_cons_self _ _)
    have h2 := ih (fun x hx => h x (List.mem_cons_of_mem _ hx))
    simp only [cardNotConsidered]
    cases hb : bm o with
    | none => exact absurd hb h1
    | some v =>
      cases hc : cardNotConsidered bm w os with
      | none => exact absurd hc h2
      | some n =>
        simp only
        split <;> simp

theorem cardAssumptions_isSome (bm : Lit → Option ((Nat × Nat) × Nat)) (w : Nat)
    (ca : List Lit) (h : ∀ o, o ∈ ca → bm o ≠ none) :
    cardAssumptions bm w ca ≠ none := by
  induction ca with
  | nil => simp [cardAssumptions]
  | cons o os ih =>
    have h1 := h o (List.mem_cons_self _ _)
    have h2 := ih (fun x hx => h x (List.mem_cons_of_mem _ hx))
    simp only [cardAssumptions]
    cases hb : bm o with
    | none => exact absurd hb h1
    | some v =>
      cases hc : cardAssumptions bm w os with
      | none => exact absurd hc h2
      | some n =>
        simp only
        split <;> simp

theorem resetAssumptions_isSome (s : WState) (h : CardInv s) : resetAssumptions s ≠ none := by
  unfold resetAssumptions
  have := cardAssumptions_isSome s.boundMapping s.min_weight s.cardinality_assumptions h
  split
  · rename_i hc
    exact absurd hc this
  · simp

/-- C33: in every state the loop of `tWeighted` reaches, every literal of
`cardinality_assumptions` is a key of `boundMapping`, and every entry of `boundMapping`
names an encoder index below the size of `soft_cardinality`.  So the loops over
`cardinality_assumptions` on the SAT path pass their `assert` for every `min_weight`, and
the same holds in every state the conflict loop takes up a literal in (the `assert` on
the encoder index of a conflict literal that is a key passes) and in the state after the
harden step (the rebuilding of the assumptions passes its `assert`). -/
theorem boundMapping_lookups_never_miss (lib : Library) (s : WState) (hr : Reach lib s) :
    (∀ o, o ∈ s.cardinality_assumptions →
      ∃ v, s.boundMapping o = some v ∧ v.1.1 < s.soft_cardinality.length) ∧
    (∀ o v, s.boundMapping o = some v → v.1.1 < s.soft_cardinality.length) ∧
    (∀ w, cardNotConsidered s.boundMapping w s.cardinality_assumptions ≠ none ∧
      cardAssumptions s.boundMapping w s.cardinality_assumptions ≠ none) ∧
    (∀ conflict mc pre p post u sr cr, conflict = pre ++ p :: post →
      coreLoop lib mc pre (afterMinCore s mc conflict.length) [] [] = some (u, sr, cr) →
      (∀ o, o ∈ u.cardinality_assumptions → u.boundMapping o ≠ none) ∧
      ∀ v, u.boundMapping p = some v →
        v.1.1 < u.soft_cardinality.length ∧ u.soft_cardinality[v.1.1]? ≠ none) ∧
    (∀ conflict mc r s3,
      coreLoop lib mc conflict (afterMinCore s mc conflict.length) [] [] = some r →
      harden lib r.1 r.2.1 r.2.2 mc = some s3 →
      (∀ o, o ∈ s3.cardinality_assumptions → s3.boundMapping o ≠ none) ∧
      resetAssumptions s3 ≠ none) := by
  have hc := reach_cardInv lib s hr
  have hi := reach_index lib s hr
  refine ⟨?_, hi, ?_, ?_, ?_⟩
  · intro o ho
    cases hb : s.boundMapping o with
    | none => exact absurd hb (hc o ho)
    | some v => exact ⟨v, rfl, hi o v hb⟩
  · intro w
    exact ⟨cardNotConsidered_isSome _ _ _ hc, cardAssumptions_isSome _ _ _ hc⟩
  · intro conflict mc pre p post u sr cr _ hcl
    have h1 := coreLoop_lookups lib mc pre (afterMinCore s mc conflict.length) [] []
      (u, sr, cr) hcl hc hi
    refine ⟨h1.1, ?_⟩
    intro v hv
    have hlt := h1.2 p v hv
    refine ⟨hlt, ?_⟩
    rw [List.getElem?_eq_getElem hlt]
    simp
  · intro conflict mc r s3 hcl hh
    have h1 := coreLoop_lookups lib mc conflict (afterMinCore s mc conflict.length) [] []
      r hcl hc hi
    have h2 := (harden_card lib r.1 s3 r.2.1 r.2.2 mc hh).1 h1.1
    exact ⟨h2, resetAssumptions_isSome s3 h2⟩

/-- C33 on the search on `pairFormula` after the cores `{3, 4}` and `{7}`: one encoder,
and the `boundMapping` entry of output 7 names encoder 0. -/
theorem boundMapping_lookups_never_miss_witness :
    Reach simpleLibrary pairAfterCard ∧
    pairAfterCard.soft_cardinality.length = 1 ∧
    pairAfterCard.boundMapping (mkLit 7 false) = some ((0, 1), 2) ∧
    (∀ o v, pairAfterCard.boundMapping o = some v →
      v.1.1 < pairAfterCard.soft_cardinality.length) ∧
    resetAssumptions pairAfterCard ≠ none := by
  have hr : Reach simpleLibrary pairAfterCard :=
    Reach.step pairAfterCore pairAfterCard (Answer.unsat [mkLit 7 false])
      (Reach.step pairAfterSat pairAfterCore (Answer.unsat [mkLit 3 false, mkLit 4 false])
        (Reach.step (initState pairFormula) pairAfterSat (Answer.sat heavyModel)
          (Reach.init pairFormula) rfl) rfl) rfl
  have h := boundMapping_lookups_never_miss simpleLibrary pairAfterCard hr
  refine ⟨hr, by decide, by decide, h.2.1, ?_⟩
  have h3 := (h.2.2.1 pairAfterCard.min_weight).2
  unfold resetAssumptions
  split
  · rename_i hc
    exact absurd hc h3
  · simp

end Timetabler
